import Mathlib

/-! Tag-expression compiler of logrange (`pkg/lql/tagseval.go`).

A Go `string` is a finite sequence of bytes.  It is represented by the list of
its bytes, each byte a natural number below 256.  The functions of the Go
standard library that the compiler calls (`strings.ToUpper`, `strings.Contains`,
`strings.HasPrefix`, `strings.HasSuffix`, `path.Match`, `utf8.DecodeRuneInString`),
and `strings.Map`, `unicode.ToUpper` and `utf8.AppendRune` behind `strings.ToUpper`,
are transcribed from the standard library (Go 1.16 and later for `path.Match`).
-/

set_option autoImplicit false

/-- A Go string: the list of its bytes. -/
abbrev GoString := List Nat

/-- The bytes (UTF-8) of a string literal. -/
def str (s : String) : GoString :=
  s.toList.flatMap fun c => (String.utf8EncodeChar c).map UInt8.toNat

/-! ## unicode/utf8 -/

namespace utf8

/-- The replacement rune U+FFFD. -/
def RuneError : Nat := 0xFFFD

/-- Entry of the table `first` for the leading byte `b`: `0xF0` for ASCII,
`0xF1` for an invalid leading byte, otherwise `accept <<< 4 ||| size`. -/
def first (b : Nat) : Nat :=
  if b < 0x80 then 0xF0
  else if b < 0xC2 then 0xF1
  else if b < 0xE0 then 0x02
  else if b = 0xE0 then 0x13
  else if b < 0xED then 0x03
  else if b = 0xED then 0x23
  else if b < 0xF0 then 0x03
  else if b = 0xF0 then 0x34
  else if b < 0xF4 then 0x04
  else if b = 0xF4 then 0x44
  else 0xF1

/-- The table `acceptRanges`: bounds of the second byte. -/
def acceptRanges (i : Nat) : Nat × Nat :=
  match i with
  | 0 => (0x80, 0xBF)
  | 1 => (0xA0, 0xBF)
  | 2 => (0x80, 0x9F)
  | 3 => (0x90, 0xBF)
  | 4 => (0x80, 0x8F)
  | _ => (0, 0)

/-- Go `utf8.DecodeRuneInString`: the first rune of `s` and its width in bytes;
`(RuneError, 0)` on the empty string and `(RuneError, 1)` on an invalid
encoding. -/
def DecodeRuneInString (s : GoString) : Nat × Nat :=
  match s with
  | [] => (RuneError, 0)
  | s0 :: rest =>
    let x := first s0
    if x ≥ 0xF0 then
      (if x = 0xF0 then s0 else RuneError, 1)
    else
      let sz := x &&& 7
      let accept := acceptRanges (x >>> 4)
      if s.length < sz then (RuneError, 1)
      else
        match rest with
        | [] => (RuneError, 1)
        | s1 :: rest1 =>
          if s1 < accept.1 ∨ accept.2 < s1 then (RuneError, 1)
          else if sz ≤ 2 then (((s0 &&& 0x1F) <<< 6) ||| (s1 &&& 0x3F), 2)
          else
            match rest1 with
            | [] => (RuneError, 1)
            | s2 :: rest2 =>
              if s2 < 0x80 ∨ 0xBF < s2 then (RuneError, 1)
              else if sz ≤ 3 then
                (((s0 &&& 0x0F) <<< 12) ||| ((s1 &&& 0x3F) <<< 6) ||| (s2 &&& 0x3F), 3)
              else
                match rest2 with
                | [] => (RuneError, 1)
                | s3 :: _ =>
                  if s3 < 0x80 ∨ 0xBF < s3 then (RuneError, 1)
                  else
                    (((s0 &&& 0x07) <<< 18) ||| ((s1 &&& 0x3F) <<< 12)
                      ||| ((s2 &&& 0x3F) <<< 6) ||| (s3 &&& 0x3F), 4)

end utf8

/-! ## strings -/

namespace strings

/-- Go `strings.ToUpper`.  A string of ASCII bytes is returned unchanged when it
has no lower-case letter and otherwise has each of `a`..`z` moved to `A`..`Z`.
A string with a byte outside ASCII goes through `Map(unicode.ToUpper, s)`,
which depends on the Unicode case tables; that mapping is the parameter
`mapUpper`. -/
def ToUpper (mapUpper : GoString → GoString) (s : GoString) : GoString :=
  if s.all (fun c => c < 0x80) then
    if s.any (fun c => 97 ≤ c ∧ c ≤ 122) then
      s.map (fun c => if 97 ≤ c ∧ c ≤ 122 then c - 32 else c)
    else s
  else mapUpper s

/-- Go `strings.HasPrefix`: `len(s) >= len(prefix) && s[0:len(prefix)] == prefix`. -/
def HasPrefix (s pre : GoString) : Bool :=
  decide (s.length ≥ pre.length) && decide (s.take pre.length = pre)

/-- Go `strings.HasSuffix`: `len(s) >= len(suffix) && s[len(s)-len(suffix):] == suffix`. -/
def HasSuffix (s suf : GoString) : Bool :=
  decide (s.length ≥ suf.length) && decide (s.drop (s.length - suf.length) = suf)

/-- Go `strings.Index`: the index of the first instance of `substr` in `s`, or
`-1` if `substr` is not present in `s`. -/
def Index (s substr : GoString) : Int :=
  if HasPrefix s substr then 0
  else
    match s with
    | [] => -1
    | _ :: rest =>
      let i := Index rest substr
      if i < 0 then -1 else i + 1

/-- Go `strings.Contains`: `Index(s, substr) >= 0`. -/
def Contains (s substr : GoString) : Bool :=
  decide (Index s substr ≥ 0)

end strings

/-- A Go `error` value: `none` is `nil`, `some msg` an error whose `Error()` is `msg`. -/
abbrev error := Option GoString

/-! ## path -/

namespace path

/-- Go `path.ErrBadPattern`. -/
def ErrBadPattern : error := some (str "syntax error in pattern")

/-- The loop `Scan` of `scanChunk`: splits `pattern` at the first `*` (byte 42)
that is met while `inrange` is false.  A backslash (92) skips the byte after
it, `[` (91) sets `inrange`, `]` (93) clears it.  Returns `pattern[0:i]` and
`pattern[i:]`. -/
def scanLoop (inrange : Bool) : GoString → GoString × GoString
  | [] => ([], [])
  | c :: p =>
    if c = 92 then
      match p with
      | [] => ([c], [])
      | d :: p2 => let r := scanLoop inrange p2; (c :: d :: r.1, r.2)
    else if c = 91 then
      let r := scanLoop true p; (c :: r.1, r.2)
    else if c = 93 then
      let r := scanLoop false p; (c :: r.1, r.2)
    else if c = 42 then
      if !inrange then ([], c :: p)
      else let r := scanLoop inrange p; (c :: r.1, r.2)
    else
      let r := scanLoop inrange p; (c :: r.1, r.2)

/-- Go `scanChunk`: strips the leading stars of `pattern`, then returns the
text up to the next star that is not in a bracket expression, and the rest. -/
def scanChunk (pattern : GoString) : Bool × GoString × GoString :=
  let star := decide (pattern.head? = some 42)
  let r := scanLoop false (pattern.dropWhile (fun c => c = 42))
  (star, r.1, r.2)

/-- Go `getEsc`: the possibly escaped rune at the head of a character class.
Returns the rune, the rest of the chunk and the error. -/
def getEsc (chunk : GoString) : Nat × GoString × error :=
  match chunk with
  | [] => (0, [], ErrBadPattern)
  | c :: rest =>
    if c = 45 ∨ c = 93 then (0, [], ErrBadPattern)
    else if c = 92 ∧ rest = [] then (0, [], ErrBadPattern)
    else
      let chunk1 := if c = 92 then rest else chunk
      let d := utf8.DecodeRuneInString chunk1
      let nchunk := chunk1.drop d.2
      let err : error := if d.1 = utf8.RuneError ∧ d.2 = 1 then ErrBadPattern else none
      (d.1, nchunk, if nchunk.length = 0 then ErrBadPattern else err)

/-- The loop `for \x7b ... \x7d` of `matchChunk` that parses the ranges of a character
class against the rune `r`.  Returns the chunk after the closing bracket,
whether a range held `r`, and the error.  `none`: the fuel ran out. -/
def rangeLoop (fuel : Nat) (chunk : GoString) (r : Nat) (isMatch : Bool) (nrange : Nat) :
    Option (GoString × Bool × error) :=
  match fuel with
  | 0 => none
  | fuel + 1 =>
    if chunk.head? = some 93 ∧ nrange > 0 then some (chunk.tail, isMatch, none)
    else
      let e := getEsc chunk
      if e.2.2 ≠ none then some ([], false, e.2.2)
      else
        let lo := e.1
        if e.2.1.head? = some 45 then
          let e2 := getEsc e.2.1.tail
          if e2.2.2 ≠ none then some ([], false, e2.2.2)
          else rangeLoop fuel e2.2.1 r (isMatch || (decide (lo ≤ r) && decide (r ≤ e2.1))) (nrange + 1)
        else rangeLoop fuel e.2.1 r (isMatch || (decide (lo ≤ r) && decide (r ≤ lo))) (nrange + 1)

/-- The loop of Go `matchChunk` (Go 1.16 and later): once the match has
`failed` the loop goes on through `chunk`, checking that the pattern is
well-formed but no longer reading `s`.  Returns `(rest, ok, err)`.
`none`: the fuel ran out. -/
def matchChunkLoop (fuel : Nat) (chunk s : GoString) (failed : Bool) :
    Option (GoString × Bool × error) :=
  match fuel with
  | 0 => none
  | fuel + 1 =>
    match chunk with
    | [] => if failed then some ([], false, none) else some (s, true, none)
    | c :: chunk1 =>
      let failed := failed || decide (s.length = 0)
      if c = 91 then
        -- character class
        let d := utf8.DecodeRuneInString s
        let r := if failed then 0 else d.1
        let s := if failed then s else s.drop d.2
        -- possibly negated
        let negated := decide (chunk1.head? = some 94)
        let chunk2 := if negated then chunk1.tail else chunk1
        -- parse all ranges
        match rangeLoop fuel chunk2 r false 0 with
        | none => none
        | some (chunk3, isMatch, err) =>
          if err ≠ none then some ([], false, err)
          else matchChunkLoop fuel chunk3 s (failed || (isMatch == negated))
      else if c = 63 then
        let failed1 := failed || decide (s.head? = some 47)
        let s := if failed then s else s.drop (utf8.DecodeRuneInString s).2
        matchChunkLoop fuel chunk1 s failed1
      else if c = 92 ∧ chunk1 = [] then some ([], false, ErrBadPattern)
      else
        let chunk2 := if c = 92 then chunk1 else chunk
        let failed1 := failed || decide (chunk2.head? ≠ s.head?)
        let s := if failed then s else s.tail
        matchChunkLoop fuel chunk2.tail s failed1

/-- Go `matchChunk`: whether `chunk` matches at the beginning of `s`, and the
remainder of `s` if so.  The chunk is all single-character operators:
literals, character classes and `?`. -/
def matchChunk (chunk s : GoString) : Option (GoString × Bool × error) :=
  matchChunkLoop (chunk.length + 1) chunk s false

/-- Outcome of the loop over `i` in `Match` that retries a starred chunk. -/
inductive StarStep where
  /-- The statement `continue Pattern`, with the new value of `name`. -/
  | next (name : GoString)
  /-- The statement `return false, err`. -/
  | fail (err : error)
  /-- The loop ended without a match. -/
  | done
  /-- The fuel of `matchChunk` ran out. -/
  | stuck
deriving DecidableEq, Repr

/-- The loop `for i := 0; i < len(name) && name[i] != 47; i++` of `Match`:
looks for a match of `chunk` skipping `i+1` bytes of `name`; it cannot skip a
slash.  `last` is `len(pattern) == 0`. -/
def starLoop (chunk : GoString) (last : Bool) : GoString → StarStep
  | [] => StarStep.done
  | c :: name1 =>
    if c = 47 then StarStep.done
    else
      match matchChunk chunk name1 with
      | none => StarStep.stuck
      | some (t, ok, err) =>
        if ok then
          -- if we are the last chunk, make sure we exhausted the name
          if last ∧ t.length > 0 then starLoop chunk last name1
          else StarStep.next t
        else if err ≠ none then StarStep.fail err
        else starLoop chunk last name1

/-- The closing loop of `Match`: before returning false with no error, check
that the remainder of the pattern is syntactically valid.  `none`: the fuel
ran out. -/
def checkRest (fuel : Nat) (pattern : GoString) : Option error :=
  match fuel with
  | 0 => none
  | fuel + 1 =>
    if pattern.length > 0 then
      let sc := scanChunk pattern
      match matchChunk sc.2.1 [] with
      | none => none
      | some (_, _, err) => if err ≠ none then some err else checkRest fuel sc.2.2
    else some none

/-- The loop `Pattern` of Go `path.Match` (Go 1.16 and later).  `none`: the
fuel ran out. -/
def matchLoop (fuel : Nat) (pattern name : GoString) : Option (Bool × error) :=
  match fuel with
  | 0 => none
  | fuel + 1 =>
    if pattern.length > 0 then
      let sc := scanChunk pattern
      let star := sc.1
      let chunk := sc.2.1
      let pattern := sc.2.2
      if star ∧ chunk = [] then
        -- Trailing * matches rest of string unless it has a /.
        some (decide (47 ∉ name), none)
      else
        -- Look for match at current position.
        match matchChunk chunk name with
        | none => none
        | some (t, ok, err) =>
          if ok ∧ (t.length = 0 ∨ pattern.length > 0) then matchLoop fuel pattern t
          else if err ≠ none then some (false, err)
          else
            match (if star then starLoop chunk (decide (pattern.length = 0)) name
                   else StarStep.done) with
            | StarStep.next t => matchLoop fuel pattern t
            | StarStep.fail err => some (false, err)
            | StarStep.stuck => none
            | StarStep.done => (checkRest fuel pattern).map fun err => (false, err)
    else some (decide (name.length = 0), none)

/-- The syntax check of `path.Match` run on the whole pattern: no chunk of the
pattern has a syntax error. -/
def wellFormed (pattern : GoString) : Bool :=
  checkRest (pattern.length + 1) pattern == some none

/-- Go `path.Match(pattern, name)`: reports whether `name` matches the shell
pattern; the only possible error is `ErrBadPattern`.  The loop is run with
`len(pattern) + 1` units of fuel, which it never exhausts (`matchLoop_isSome`). -/
def Match (pattern name : GoString) : Bool × error :=
  (matchLoop (pattern.length + 1) pattern name).getD (false, none)

end path

/-! ## model -/

namespace model

/-- Modelled from the spec: the type `model.TagMap`, declared in another package; the
spec gives a mapping from tag name (string) to tag value (string), and the code
indexes it with a string.  It is the list of its entries; the entry found first
for a key is the entry of the map. -/
abbrev TagMap := List (GoString × GoString)

/-- The index expression `tags[key]`: the value of the entry, or the zero value
`""` when the key is absent. -/
def TagMap.index (tags : TagMap) (key : GoString) : GoString :=
  (tags.lookup key).getD []

end model

/-! ## lql -/

namespace lql

open model

/-- Modelled from the spec: the struct `Condition`, whose declaration is not in
`tagseval.go`; the spec gives an operand (tag name), an operator token and a
comparison value, and the code reads the string fields `Operand`, `Op` and
`Value`. -/
structure Condition where
  Operand : GoString
  Op : GoString
  Value : GoString
deriving DecidableEq, Repr

mutual
/-- Modelled from the spec: the struct `Expression`, whose declaration is not in
`tagseval.go`; the spec gives an ordered sequence of `OrCondition`, and the code
reads the field `Or`, a slice of pointers (`[]*OrCondition`).  The list holds the
nodes pointed to: a tree of the model has no nil element in its slices. -/
inductive Expression where
  | mk (Or : List OrCondition)
/-- Modelled from the spec: the struct `OrCondition`, whose declaration is not in
`tagseval.go`; the spec gives an ordered sequence of `XCondition`, and the code
reads the field `And`, a slice of pointers (`[]*XCondition`).  The list holds the
nodes pointed to: a tree of the model has no nil element in its slices. -/
inductive OrCondition where
  | mk (And : List XCondition)
/-- Modelled from the spec: the struct `XCondition`, whose declaration is not in
`tagseval.go`; the spec gives a term that is a leaf condition or a nested
expression, with a negation flag, and the code reads the fields `Not`, `Expr`
(compared with nil) and `Cond`; `none` is the nil pointer. -/
inductive XCondition where
  | mk (Not : Bool) (Expr : Option Expression) (Cond : Option Condition)
end

/-- Modelled from the spec: the constant `CMP_CONTAINS`, whose declaration is not in
`tagseval.go`; the operator table of the spec gives the token `CONTAINS`. -/
def CMP_CONTAINS : GoString := str "CONTAINS"

/-- Modelled from the spec: the constant `CMP_HAS_PREFIX`, whose declaration is not in
`tagseval.go`; the operator table of the spec gives the token `HAS_PREFIX`. -/
def CMP_HAS_PREFIX : GoString := str "HAS_PREFIX"

/-- Modelled from the spec: the constant `CMP_HAS_SUFFIX`, whose declaration is not in
`tagseval.go`; the operator table of the spec gives the token `HAS_SUFFIX`. -/
def CMP_HAS_SUFFIX : GoString := str "HAS_SUFFIX"

/-- Modelled from the spec: the constant `CMP_LIKE`, whose declaration is not in
`tagseval.go`; the operator table of the spec gives the token `LIKE`. -/
def CMP_LIKE : GoString := str "LIKE"

/-- A value of the function type `TagsExpFunc`.  Every function literal of
`tagseval.go` is one constructor, holding the variables the literal closes
over; `nil` is the nil function value. -/
inductive TagsExpFunc where
  /-- The nil function. -/
  | nil
  /-- The variable `positiveTagsExpFunc`. -/
  | positive
  /-- The literal `efd0(tags) || efd1(tags)` of `buildOrConds`. -/
  | orFunc (efd0 efd1 : TagsExpFunc)
  /-- The literal `efd0(tags) && efd1(tags)` of `buildXConds`. -/
  | andFunc (efd0 efd1 : TagsExpFunc)
  /-- The literal `!efd1(tags)` of `buildXCond`. -/
  | notFunc (efd1 : TagsExpFunc)
  /-- The literal `tags[cn.Operand] < cn.Value`. -/
  | ltFunc (cn : Condition)
  /-- The literal `tags[cn.Operand] > cn.Value`. -/
  | gtFunc (cn : Condition)
  /-- The literal `tags[cn.Operand] <= cn.Value`. -/
  | leFunc (cn : Condition)
  /-- The literal `tags[cn.Operand] >= cn.Value`. -/
  | geFunc (cn : Condition)
  /-- The literal `tags[cn.Operand] != cn.Value`. -/
  | neFunc (cn : Condition)
  /-- The literal `tags[cn.Operand] == cn.Value`. -/
  | eqFunc (cn : Condition)
  /-- The literal of the case `CMP_LIKE`. -/
  | likeFunc (cn : Condition)
  /-- The literal `strings.Contains(tags[cn.Operand], cn.Value)`. -/
  | containsFunc (cn : Condition)
  /-- The literal `strings.HasPrefix(tags[cn.Operand], cn.Value)`. -/
  | hasPrefixFunc (cn : Condition)
  /-- The literal `strings.HasSuffix(tags[cn.Operand], cn.Value)`. -/
  | hasSuffixFunc (cn : Condition)
deriving DecidableEq, Repr

/-- The call `f(tags)`.  `none`: the call panics (call of the nil function).
The operators `||` and `&&` evaluate their right operand only when the left
one does not decide the result. -/
def TagsExpFunc.call : TagsExpFunc → TagMap → Option Bool
  | .nil, _ => none
  | .positive, _ => some true
  | .orFunc efd0 efd1, tags =>
    match efd0.call tags with
    | none => none
    | some true => some true
    | some false => efd1.call tags
  | .andFunc efd0 efd1, tags =>
    match efd0.call tags with
    | none => none
    | some false => some false
    | some true => efd1.call tags
  | .notFunc efd1, tags =>
    match efd1.call tags with
    | none => none
    | some b => some (!b)
  | .ltFunc cn, tags => some (decide (tags.index cn.Operand < cn.Value))
  | .gtFunc cn, tags => some (decide (tags.index cn.Operand > cn.Value))
  | .leFunc cn, tags => some (decide (tags.index cn.Operand ≤ cn.Value))
  | .geFunc cn, tags => some (decide (tags.index cn.Operand ≥ cn.Value))
  | .neFunc cn, tags => some (decide (tags.index cn.Operand ≠ cn.Value))
  | .eqFunc cn, tags => some (decide (tags.index cn.Operand = cn.Value))
  | .likeFunc cn, tags =>
    match tags.lookup cn.Operand with
    | some v => some (path.Match cn.Value v).1
    | none => some false
  | .containsFunc cn, tags => some (strings.Contains (tags.index cn.Operand) cn.Value)
  | .hasPrefixFunc cn, tags => some (strings.HasPrefix (tags.index cn.Operand) cn.Value)
  | .hasSuffixFunc cn, tags => some (strings.HasSuffix (tags.index cn.Operand) cn.Value)

/-- The struct `tagsExpFuncBuilder`. -/
structure tagsExpFuncBuilder where
  tef : TagsExpFunc
deriving DecidableEq, Repr

/-- The text of `fmt.Errorf("Unsupported operation %s for (quote)%s(quote) tag ", cn.Op,
cn.Operand)`; 39 is the quote. -/
def unsupportedMsg (cn : Condition) : GoString :=
  str "Unsupported operation " ++ cn.Op ++ str " for " ++ [39] ++ cn.Operand ++ [39] ++ str " tag "

section build

variable (mapUpper : GoString → GoString)

/-- The method `buildTagCond`.  The result `err` is a named result, nil at
entry.  In the case `CMP_LIKE` the statement `_, err := path.Match(...)`
declares a second variable `err`, local to the case clause: the error built
from it is assigned to that local variable, and the final `return err` returns
the named result.  Returns the builder after the call and the error
returned. -/
def buildTagCond (teb : tagsExpFuncBuilder) (cn : Condition) : tagsExpFuncBuilder × error :=
  let err : error := none
  let op := strings.ToUpper mapUpper cn.Op
  if op = str "<" then (⟨.ltFunc cn⟩, err)
  else if op = str ">" then (⟨.gtFunc cn⟩, err)
  else if op = str "<=" then (⟨.leFunc cn⟩, err)
  else if op = str ">=" then (⟨.geFunc cn⟩, err)
  else if op = str "!=" then (⟨.neFunc cn⟩, err)
  else if op = str "=" then (⟨.eqFunc cn⟩, err)
  else if op = CMP_LIKE then
    -- test it first
    let errInner := (path.Match cn.Value (str "abc")).2
    if errInner ≠ none then
      -- the error message goes to the variable of the case clause
      (teb, err)
    else (⟨.likeFunc cn⟩, err)
  else if op = CMP_CONTAINS then (⟨.containsFunc cn⟩, err)
  else if op = CMP_HAS_PREFIX then (⟨.hasPrefixFunc cn⟩, err)
  else if op = CMP_HAS_SUFFIX then (⟨.hasSuffixFunc cn⟩, err)
  else (teb, some (unsupportedMsg cn))

mutual
/-- The method `buildOrConds`.  `none`: the call panics.  With one element the
method returns after `buildXConds(ocn[0].And)`, whatever its error. -/
def buildOrConds (teb : tagsExpFuncBuilder) :
    List OrCondition → Option (tagsExpFuncBuilder × error)
  | [] => some (⟨.positive⟩, none)
  | [OrCondition.mk and0] =>
    -- no need to go ahead anymore
    buildXConds teb and0
  | OrCondition.mk and0 :: oc1 :: rest1 =>
    match buildXConds teb and0 with
    | none => none
    | some (teb, some err) => some (teb, some err)
    | some (teb, none) =>
      let efd0 := teb.tef
      match buildOrConds teb (oc1 :: rest1) with
      | none => none
      | some (teb, some err) => some (teb, some err)
      | some (teb, none) =>
        let efd1 := teb.tef
        some (⟨.orFunc efd0 efd1⟩, none)
/-- The method `buildXConds`.  `none`: the call panics.  With one element the
method is `buildXCond(cn[0])`. -/
def buildXConds (teb : tagsExpFuncBuilder) :
    List XCondition → Option (tagsExpFuncBuilder × error)
  | [] => some (⟨.positive⟩, none)
  | [xc] => buildXCond teb xc
  | xc :: xc1 :: rest1 =>
    match buildXCond teb xc with
    | none => none
    | some (teb, some err) => some (teb, some err)
    | some (teb, none) =>
      let efd0 := teb.tef
      match buildXConds teb (xc1 :: rest1) with
      | none => none
      | some (teb, some err) => some (teb, some err)
      | some (teb, none) =>
        let efd1 := teb.tef
        some (⟨.andFunc efd0 efd1⟩, none)
/-- The method `buildXCond`.  `none`: the call panics, which it does on the
nil pointer `xc.Cond` when `xc.Expr` is nil too. -/
def buildXCond (teb : tagsExpFuncBuilder) :
    XCondition → Option (tagsExpFuncBuilder × error)
  | XCondition.mk Not (some (Expression.mk ocn)) _ =>
    match buildOrConds teb ocn with
    | none => none
    | some (teb, some err) => some (teb, some err)
    | some (teb, none) =>
      if Not then some (⟨.notFunc teb.tef⟩, none) else some (teb, none)
  | XCondition.mk Not none (some cn) =>
    match buildTagCond mapUpper teb cn with
    | (teb, some err) => some (teb, some err)
    | (teb, none) =>
      if Not then some (⟨.notFunc teb.tef⟩, none) else some (teb, none)
  | XCondition.mk _ none none => none
end

/-- The function `BuildTagsExpFunc`; `exp` is a pointer, `none` the nil pointer.
`none` as result: the call panics. -/
def BuildTagsExpFunc (exp : Option Expression) : Option (TagsExpFunc × error) :=
  match exp with
  | none => some (.positive, none)
  | some (Expression.mk ocn) =>
    match buildOrConds mapUpper ⟨.nil⟩ ocn with
    | none => none
    | some (_, some err) => some (.nil, some err)
    | some (teb, none) => some (teb.tef, none)

end build

/-! ### What an expression means, and which expressions are meant

The definitions below are not taken from the code: they state the meaning the
specification gives to an expression tree, and the shape of the trees it
speaks of. -/

/-- The expression made of the single leaf condition `cn`, not negated. -/
def leafExpr (cn : Condition) : Expression :=
  Expression.mk [OrCondition.mk [XCondition.mk false none (some cn)]]

/-- The operator tokens: the six comparison symbols and the `CMP_*` tokens. -/
def opTokens : List GoString :=
  [str "<", str ">", str "<=", str ">=", str "!=", str "=",
   CMP_LIKE, CMP_CONTAINS, CMP_HAS_PREFIX, CMP_HAS_SUFFIX]

/-- The test of a leaf condition as the operator table of the specification
words it, for an operator token written in upper case: `v` is the value looked
up, the empty string if the key is absent; comparisons are lexicographic on
bytes; `LIKE` is the glob match and false on an absent key; `CONTAINS`,
`HAS_PREFIX`, `HAS_SUFFIX` say that the value is a contiguous part, a beginning,
an end of `v`. -/
def leafTest (cn : Condition) (tags : TagMap) : Bool :=
  let v := tags.index cn.Operand
  if cn.Op = str "<" then decide (v < cn.Value)
  else if cn.Op = str ">" then decide (v > cn.Value)
  else if cn.Op = str "<=" then decide (v ≤ cn.Value)
  else if cn.Op = str ">=" then decide (v ≥ cn.Value)
  else if cn.Op = str "!=" then decide (v ≠ cn.Value)
  else if cn.Op = str "=" then decide (v = cn.Value)
  else if cn.Op = CMP_LIKE then
    match tags.lookup cn.Operand with
    | some v => (path.Match cn.Value v).1
    | none => false
  else if cn.Op = CMP_CONTAINS then decide (cn.Value <:+: v)
  else if cn.Op = CMP_HAS_PREFIX then decide (cn.Value <+: v)
  else if cn.Op = CMP_HAS_SUFFIX then decide (cn.Value <:+ v)
  else false

/-- The operator of the condition, put in upper case, is none of the operator
tokens. -/
def unsupported (mapUpper : GoString → GoString) (cn : Condition) : Bool :=
  decide (strings.ToUpper mapUpper cn.Op ∉ opTokens)

mutual
/-- The OR over a list of `OrCondition`: true when one of them holds. -/
def evalOr (tags : TagMap) : List OrCondition → Bool
  | [] => false
  | OrCondition.mk and0 :: rest => evalAnd tags and0 || evalOr tags rest
/-- The AND over a list of `XCondition`: true when all of them hold, true on
the empty list. -/
def evalAnd (tags : TagMap) : List XCondition → Bool
  | [] => true
  | xc :: rest => evalTerm tags xc && evalAnd tags rest
/-- The value of a term: the value of its nested expression if there is one,
else of its leaf test, negated when `Not` is set.  An expression with an empty
OR-list is true. -/
def evalTerm (tags : TagMap) : XCondition → Bool
  | XCondition.mk Not (some (Expression.mk ocn)) _ =>
    xor Not (match ocn with
      | [] => true
      | oc :: rest => evalOr tags (oc :: rest))
  | XCondition.mk Not none (some cn) => xor Not (leafTest cn tags)
  | XCondition.mk _ none none => false
end

/-- The value of an expression on `tags`: the OR over `exp.Or` of the AND over
each `OrCondition.And` of the term values; an empty OR-list is true. -/
def Expression.eval (tags : TagMap) : Expression → Bool
  | Expression.mk [] => true
  | Expression.mk (oc :: rest) => evalOr tags (oc :: rest)

mutual
/-- The leaf conditions that `buildOrConds` compiles, in the order it meets
them. -/
def leavesOr : List OrCondition → List Condition
  | [] => []
  | OrCondition.mk and0 :: rest => leavesAnd and0 ++ leavesOr rest
/-- The leaf conditions that `buildXConds` compiles. -/
def leavesAnd : List XCondition → List Condition
  | [] => []
  | xc :: rest => leavesTerm xc ++ leavesAnd rest
/-- The leaf conditions that `buildXCond` compiles: `xc.Cond` when `xc.Expr`
is nil, the leaves of `xc.Expr` otherwise. -/
def leavesTerm : XCondition → List Condition
  | XCondition.mk _ (some (Expression.mk ocn)) _ => leavesOr ocn
  | XCondition.mk _ none (some cn) => [cn]
  | XCondition.mk _ none none => []
end

/-- The compiled leaf conditions of an expression. -/
def Expression.leaves : Expression → List Condition
  | Expression.mk ocn => leavesOr ocn

mutual
/-- Every `XCondition` under the list carries a nested expression or a leaf
condition. -/
def properOr : List OrCondition → Bool
  | [] => true
  | OrCondition.mk and0 :: rest => properAnd and0 && properOr rest
/-- Every `XCondition` under the list carries a nested expression or a leaf
condition. -/
def properAnd : List XCondition → Bool
  | [] => true
  | xc :: rest => properTerm xc && properAnd rest
/-- The term and every `XCondition` under it carry a nested expression or a
leaf condition. -/
def properTerm : XCondition → Bool
  | XCondition.mk _ (some (Expression.mk ocn)) _ => properOr ocn
  | XCondition.mk _ none (some _) => true
  | XCondition.mk _ none none => false
end

/-- An expression tree in the sense of the specification: every `XCondition` of
it is a leaf comparison or a nested expression. -/
def Expression.proper : Expression → Bool
  | Expression.mk ocn => properOr ocn

/-- Every leaf of the list has an operator token, and a well-formed pattern when
the token is `LIKE`. -/
def validLeaves (l : List Condition) : Prop :=
  ∀ cn ∈ l, cn.Op ∈ opTokens ∧ (cn.Op = CMP_LIKE → path.wellFormed cn.Value = true)

instance (l : List Condition) : Decidable (validLeaves l) := by
  unfold validLeaves; infer_instance

/-- The order of strings that compares them byte by byte from the left: `a` is
less than `b` when `a` is a proper beginning of `b`, or when the first byte in
which they differ is smaller in `a`. -/
def bytesLess : GoString → GoString → Bool
  | _, [] => false
  | [], _ :: _ => true
  | a :: as, b :: bs => decide (a < b) || (decide (a = b) && bytesLess as bs)

/-! ### Expressions and tag maps of the scenarios -/

/-- The term that is the leaf condition `operand op value`, negated when `n`. -/
def leafTerm (n : Bool) (operand op value : String) : XCondition :=
  XCondition.mk n none (some ⟨str operand, str op, str value⟩)

/-- The expression `region = "us-east" AND (env = "prod" OR env = "staging")`. -/
def regionEnvExpr : Expression :=
  Expression.mk [OrCondition.mk [leafTerm false "region" "=" "us-east",
    XCondition.mk false (some (Expression.mk [OrCondition.mk [leafTerm false "env" "=" "prod"],
      OrCondition.mk [leafTerm false "env" "=" "staging"]])) none]]

/-- The tag map with `region` at `us-east` and `env` at `staging`. -/
def tagsEastStaging : TagMap := [(str "region", str "us-east"), (str "env", str "staging")]

/-- The tag map with `region` at `us-west` and `env` at `prod`. -/
def tagsWestProd : TagMap := [(str "region", str "us-west"), (str "env", str "prod")]

/-- The expression `env LIKE "["`: one leaf, whose pattern is an unmatched
bracket. -/
def badLikeExpr : Expression :=
  Expression.mk [OrCondition.mk [leafTerm false "env" "LIKE" "["]]

/-- The expression `region = "us-east" AND env LIKE "["`. -/
def eqAndBadLikeExpr : Expression :=
  Expression.mk [OrCondition.mk [leafTerm false "region" "=" "us-east",
    leafTerm false "env" "LIKE" "["]]

/-- The expression `a FOO "x" AND b BAR "y"`: two leaves with an unsupported
operator. -/
def twoUnsupportedExpr : Expression :=
  Expression.mk [OrCondition.mk [leafTerm false "a" "FOO" "x", leafTerm false "b" "BAR" "y"]]

/-- A tree with a term that has neither a nested expression nor a leaf
condition, followed by the leaf `b BAR "y"`. -/
def emptyTermExpr : Expression :=
  Expression.mk [OrCondition.mk [XCondition.mk false none none, leafTerm false "b" "BAR" "y"]]

end lql

/-! ## utils (`pkg/utils/ptrs.go`) -/

namespace utils

/-- The function `GetInt64Val`: receives a pointer to an int64 value and returns
its value, or `defVal` if the pointer is nil.  `none` is the nil pointer. -/
def GetInt64Val (ptr : Option Int) (defVal : Int) : Int :=
  match ptr with
  | some v => v
  | none => defVal

/-- The function `GetStringVal`: the value the pointer points to, or `defVal`
if the pointer is nil. -/
def GetStringVal (ptr : Option GoString) (defVal : GoString) : GoString :=
  match ptr with
  | some v => v
  | none => defVal

end utils

namespace lql

open model

/-- The expression `NOT (name HAS_PREFIX "tmp_")`: a negated nested expression
with one leaf. -/
def notTmpPrefixExpr : Expression :=
  Expression.mk [OrCondition.mk [XCondition.mk true
    (some (Expression.mk [OrCondition.mk [leafTerm false "name" "HAS_PREFIX" "tmp_"]])) none]]

/-- The expression made of one term that has neither a nested expression nor a
leaf condition. -/
def neitherExpr : Expression :=
  Expression.mk [OrCondition.mk [XCondition.mk false none none]]

/-- The expression `NOT env LIKE "["`: one negated leaf, whose pattern is an
unmatched bracket. -/
def notBadLikeExpr : Expression :=
  Expression.mk [OrCondition.mk [leafTerm true "env" "LIKE" "["]]

end lql

namespace lql

open model

/-- The field `Or` of an expression. -/
def Expression.Or : Expression → List OrCondition
  | Expression.mk ocn => ocn

/-- The expression `region = "us-east" OR <nothing>`: its second `OrCondition`
has an empty `And` list. -/
def regionOrEmptyExpr : Expression :=
  Expression.mk [OrCondition.mk [leafTerm false "region" "=" "us-east"], OrCondition.mk []]

end lql

namespace lql

/-- Every leaf of the list whose operator, put in upper case, is `LIKE` has a
well-formed pattern. -/
def goodPatterns (mapUpper : GoString → GoString) (l : List Condition) : Prop :=
  ∀ cn ∈ l, strings.ToUpper mapUpper cn.Op = CMP_LIKE → path.wellFormed cn.Value = true

/-- Two results of a build method agree: they are equal, or both are the same
error. -/
def sameOutcome (r r2 : Option (tagsExpFuncBuilder × error)) : Prop :=
  r = r2 ∨ ∃ t t2 e, r = some (t, some e) ∧ r2 = some (t2, some e)

end lql

namespace lql

open model

/-- The call `f(tags)` with a record: the result of the call, and the list of
the leaf predicates invoked during the call, in the order of their invocation.
As in `call`, the right operand of `||` and `&&` is invoked only when the left
one does not decide the result. -/
def TagsExpFunc.callTrace : TagsExpFunc → TagMap → Option Bool × List TagsExpFunc
  | .nil, _ => (none, [])
  | .positive, _ => (some true, [])
  | .orFunc efd0 efd1, tags =>
    match efd0.callTrace tags with
    | (none, rec0) => (none, rec0)
    | (some true, rec0) => (some true, rec0)
    | (some false, rec0) => ((efd1.callTrace tags).1, rec0 ++ (efd1.callTrace tags).2)
  | .andFunc efd0 efd1, tags =>
    match efd0.callTrace tags with
    | (none, rec0) => (none, rec0)
    | (some false, rec0) => (some false, rec0)
    | (some true, rec0) => ((efd1.callTrace tags).1, rec0 ++ (efd1.callTrace tags).2)
  | .notFunc efd1, tags =>
    match efd1.callTrace tags with
    | (none, rec1) => (none, rec1)
    | (some b, rec1) => (some (!b), rec1)
  | .ltFunc cn, tags => ((TagsExpFunc.ltFunc cn).call tags, [.ltFunc cn])
  | .gtFunc cn, tags => ((TagsExpFunc.gtFunc cn).call tags, [.gtFunc cn])
  | .leFunc cn, tags => ((TagsExpFunc.leFunc cn).call tags, [.leFunc cn])
  | .geFunc cn, tags => ((TagsExpFunc.geFunc cn).call tags, [.geFunc cn])
  | .neFunc cn, tags => ((TagsExpFunc.neFunc cn).call tags, [.neFunc cn])
  | .eqFunc cn, tags => ((TagsExpFunc.eqFunc cn).call tags, [.eqFunc cn])
  | .likeFunc cn, tags => ((TagsExpFunc.likeFunc cn).call tags, [.likeFunc cn])
  | .containsFunc cn, tags => ((TagsExpFunc.containsFunc cn).call tags, [.containsFunc cn])
  | .hasPrefixFunc cn, tags => ((TagsExpFunc.hasPrefixFunc cn).call tags, [.hasPrefixFunc cn])
  | .hasSuffixFunc cn, tags => ((TagsExpFunc.hasSuffixFunc cn).call tags, [.hasSuffixFunc cn])

/-- The list `region = "us-east" OR env = "prod"` of two `OrCondition`. -/
def regionOrEnvList : List OrCondition :=
  [OrCondition.mk [leafTerm false "region" "=" "us-east"],
   OrCondition.mk [leafTerm false "env" "=" "prod"]]

/-- The list `region = "us-east" AND env = "prod"` of two `XCondition`. -/
def regionAndEnvList : List XCondition :=
  [leafTerm false "region" "=" "us-east", leafTerm false "env" "=" "prod"]

end lql

/-! ## unicode, and `strings.Map` -/

namespace unicode

/-- Go `unicode.ToUpper`: below `MaxASCII` the letters `a`..`z` are moved to
`A`..`Z` and the other runes are returned unchanged; above, the rune goes through
`To(UpperCase, r)`, which reads the Unicode case tables: the parameter
`table`. -/
def ToUpper (table : Nat → Nat) (r : Nat) : Nat :=
  if r ≤ 0x7F then
    if 97 ≤ r ∧ r ≤ 122 then r - 32 else r
  else table r

end unicode

namespace utf8

/-- Go `utf8.AppendRune`: the UTF-8 encoding of the rune; a rune out of range
or a surrogate half is encoded as `RuneError`. -/
def AppendRune (r : Nat) : GoString :=
  if r ≤ 0x7F then [r]
  else if r ≤ 0x7FF then [0xC0 ||| (r >>> 6), 0x80 ||| (r &&& 0x3F)]
  else if r > 0x10FFFF ∨ (0xD800 ≤ r ∧ r ≤ 0xDFFF) then [0xEF, 0xBF, 0xBD]
  else if r ≤ 0xFFFF then
    [0xE0 ||| (r >>> 12), 0x80 ||| ((r >>> 6) &&& 0x3F), 0x80 ||| (r &&& 0x3F)]
  else
    [0xF0 ||| (r >>> 18), 0x80 ||| ((r >>> 12) &&& 0x3F), 0x80 ||| ((r >>> 6) &&& 0x3F),
      0x80 ||| (r &&& 0x3F)]

end utf8

namespace strings

/-- The runes that the loop `for _, c := range s` goes through: each step
decodes one rune at the head of what is left of `s`; an invalid byte gives
`RuneError` and is one byte wide.  The fuel is the number of steps allowed. -/
def runesLoop (fuel : Nat) (s : GoString) : List Nat :=
  match fuel with
  | 0 => []
  | fuel + 1 =>
    match s with
    | [] => []
    | c :: rest =>
      let d := utf8.DecodeRuneInString (c :: rest)
      d.1 :: runesLoop fuel ((c :: rest).drop d.2)

/-- The runes of `s`, in the order of `range s`; as many steps as `s` has bytes
are enough. -/
def runes (s : GoString) : List Nat :=
  runesLoop s.length s

/-- Go `strings.Map` for a mapping that returns no negative value: a copy of the
string with all its characters modified according to the mapping function,
each written with `WriteRune`. -/
def Map (mapping : Nat → Nat) (s : GoString) : GoString :=
  (runes s).flatMap fun c => utf8.AppendRune (mapping c)

/-- The byte with the letters `a`..`z` moved to `A`..`Z`. -/
def asciiUpper (c : Nat) : Nat :=
  if 97 ≤ c ∧ c ≤ 122 then c - 32 else c

/-- The two bytes are the same, or they are the two cases of one letter of
`a`..`z`. -/
def sameLetter (a b : Nat) : Bool :=
  decide (a = b) || (decide (97 ≤ a) && decide (a ≤ 122) && decide (b + 32 = a)) ||
    (decide (97 ≤ b) && decide (b ≤ 122) && decide (a + 32 = b))

/-- The two strings differ only in the letter case: they have the same length
and, byte by byte, the same letter. -/
def caseVariant : GoString → GoString → Bool
  | [], [] => true
  | a :: as, b :: bs => sameLetter a b && caseVariant as bs
  | _, _ => false

end strings

namespace lql

/-- The two leaf conditions differ only in the letter case of `Op`: same
operand, same value, and operators that are the same but for the case of their
letters. -/
def Condition.caseVariant (c c2 : Condition) : Bool :=
  decide (c.Operand = c2.Operand) && decide (c.Value = c2.Value) &&
    strings.caseVariant c.Op c2.Op

end lql

/-! ### Glob patterns, as the specification words them

The definitions below are not taken from the code: they give a glob pattern as a
sequence of items, the text that writes it, and the match that the words "`*`
any run, `?` single char, `[...]` class" define, the characters that `*` and
`?` may match being a parameter. -/

namespace path

/-- One item of a bracket class of a pattern: the character `c`, or the range
`lo-hi`. -/
inductive Item where
  | one (c : Nat)
  | range (lo hi : Nat)
deriving DecidableEq, Repr

/-- One item of a glob pattern: `*`, `?`, an ordinary character, or a bracket
class `[...]`, negated when written `[^...]`. -/
inductive Tok where
  | star
  | any
  | lit (c : Nat)
  | cls (negated : Bool) (items : List Item)
deriving DecidableEq, Repr

/-- The character `c` is the item, or lies in the range, bounds included. -/
def Item.has : Item → Nat → Bool
  | .one c, b => decide (b = c)
  | .range lo hi, b => decide (lo ≤ b) && decide (b ≤ hi)

/-- The single character `b` is matched by the item of the pattern: an ordinary
character matches itself, `?` matches a character that `run` admits, a class
matches a character that one of its items has, a negated class one that none
has.  `*` is not a single-character item. -/
def Tok.accepts (run : Nat → Bool) : Tok → Nat → Bool
  | .star, _ => false
  | .any, b => run b
  | .lit c, b => decide (b = c)
  | .cls negated items, b => items.any (fun it => it.has b) != negated

/-- Some run of characters that `run` admits, possibly empty, can be cut from the
front of the string so that `f` holds of what is left. -/
def afterRun (run : Nat → Bool) (f : GoString → Bool) : GoString → Bool
  | [] => f []
  | c :: v => f (c :: v) || (run c && afterRun run f v)

/-- The glob match as the words `*` any run, `?` one character, `[...]` class
define it: the string can be cut into consecutive pieces, one for each item of
the pattern in order, the piece of a `*` being a run, possibly empty, of
characters that `run` admits, and the piece of any other item one character that
the item accepts. -/
def globWith (run : Nat → Bool) : List Tok → GoString → Bool
  | [], v => v.isEmpty
  | t :: p, v =>
    match t with
    | .star => afterRun run (globWith run p) v
    | t =>
      match v with
      | [] => false
      | b :: v1 => t.accepts run b && globWith run p v1

/-- The glob match in which `*` and `?` match every character. -/
def globAny : List Tok → GoString → Bool := globWith (fun _ => true)

/-- The glob match in which neither `*` nor `?` matches the slash (byte 47). -/
def globMatch : List Tok → GoString → Bool := globWith (fun c => c != 47)

/-- The text of a character inside a bracket class: `-`, `\`, `]` and `^` (bytes
45, 92, 93, 94) are written after a backslash. -/
def classChar (c : Nat) : GoString :=
  if c = 45 ∨ c = 92 ∨ c = 93 ∨ c = 94 then [92, c] else [c]

/-- The text of an item of a bracket class. -/
def Item.text : Item → GoString
  | .one c => classChar c
  | .range lo hi => classChar lo ++ [45] ++ classChar hi

/-- The text of an item of a pattern: `*` (42), `?` (63), the character (after a
backslash when it is one of `*`, `?`, `[`, `\`), or the class between `[` (91),
with `^` (94) when negated, and `]` (93). -/
def Tok.text : Tok → GoString
  | .star => [42]
  | .any => [63]
  | .lit c => if c = 42 ∨ c = 63 ∨ c = 91 ∨ c = 92 then [92, c] else [c]
  | .cls negated items =>
    [91] ++ (if negated then [94] else []) ++ items.flatMap Item.text ++ [93]

/-- The text of a pattern: the texts of its items, in order. -/
def patternText (p : List Tok) : GoString := p.flatMap Tok.text

/-- The bounds of the item are ASCII characters. -/
def Item.ascii : Item → Bool
  | .one c => decide (c < 128)
  | .range lo hi => decide (lo < 128) && decide (hi < 128)

/-- The item of a pattern is one the glob laws are stated for: a class has at
least one item, its bounds are ASCII characters, and it does not accept the
slash. -/
def Tok.simple : Tok → Bool
  | .cls negated items =>
    !items.isEmpty && items.all Item.ascii && !(Tok.cls negated items).accepts (fun _ => true) 47
  | _ => true

/-- The item is `*` or an ordinary character. -/
def Tok.plain : Tok → Bool
  | .star => true
  | .lit _ => true
  | _ => false

/-- The items of the list, none of them `*`, accept the first characters of the
string, one character each. -/
def chunkOk : List Tok → GoString → Bool
  | [], _ => true
  | _ :: _, [] => false
  | t :: ts, b :: s => t.accepts (fun c => c != 47) b && chunkOk ts s

/-- The item is `*`. -/
def Tok.isStar : Tok → Bool
  | .star => true
  | _ => false

end path

/-! Properties: unicode/utf8 and path -/

namespace utf8

/-- A rune decoded from a non-empty string is at least one byte wide. -/
theorem DecodeRuneInString_pos (c : Nat) (s : GoString) :
    1 ≤ (DecodeRuneInString (c :: s)).2 := by
  unfold DecodeRuneInString
  simp only
  repeat' split
  all_goals simp

end utf8

namespace path

/-- When `getEsc` succeeds it leaves a chunk that is shorter and not empty. -/
theorem getEsc_length (chunk : GoString) (h : (getEsc chunk).2.2 = none) :
    (getEsc chunk).2.1.length < chunk.length ∧ (getEsc chunk).2.1 ≠ [] := by
  cases chunk with
  | nil => simp [getEsc, ErrBadPattern] at h
  | cons c rest =>
    by_cases h1 : c = 45 ∨ c = 93
    · simp [getEsc, h1, ErrBadPattern] at h
    by_cases h2 : c = 92 ∧ rest = []
    · simp [getEsc, h1, h2, ErrBadPattern] at h
    simp only [getEsc, h1, h2, if_false] at h ⊢
    by_cases h3 : (List.drop (utf8.DecodeRuneInString (if c = 92 then rest else c :: rest)).2
        (if c = 92 then rest else c :: rest)).length = 0
    · simp [h3, ErrBadPattern] at h
    refine ⟨?_, fun h4 => h3 (by simp [h4])⟩
    by_cases hc : c = 92
    · simp only [hc, if_true, List.length_drop, List.length_cons]
      omega
    · have := utf8.DecodeRuneInString_pos c rest
      simp only [hc, if_false, List.length_drop, List.length_cons]
      omega

/-- The chunk left and the error of `rangeLoop` do not depend on the rune or on
the matches found so far. -/
theorem rangeLoop_indep (fuel : Nat) : ∀ (chunk : GoString) (r r2 : Nat) (b b2 : Bool) (n : Nat),
    (rangeLoop fuel chunk r b n).map (fun x => (x.1, x.2.2)) =
    (rangeLoop fuel chunk r2 b2 n).map (fun x => (x.1, x.2.2)) := by
  induction fuel with
  | zero => intros; rfl
  | succ fuel ih =>
    intro chunk r r2 b b2 n
    simp only [rangeLoop]
    split
    · rfl
    · split
      · rfl
      · split
        · split
          · rfl
          · exact ih _ _ _ _ _ _
        · exact ih _ _ _ _ _ _

/-- With more fuel than bytes in the chunk, `rangeLoop` returns; without an
error a shorter chunk is left. -/
theorem rangeLoop_isSome (fuel : Nat) : ∀ (chunk : GoString) (r : Nat) (b : Bool) (n : Nat),
    chunk.length < fuel →
    ∃ c b2 err, rangeLoop fuel chunk r b n = some (c, b2, err) ∧
      (err = none → c.length < chunk.length) := by
  induction fuel with
  | zero => intro chunk r b n h; omega
  | succ fuel ih =>
    intro chunk r b n hlen
    simp only [rangeLoop]
    split
    · rename_i h
      refine ⟨_, _, _, rfl, fun _ => ?_⟩
      cases chunk with
      | nil => simp at h
      | cons c rest => simp
    · split
      · rename_i h
        exact ⟨_, _, _, rfl, fun h2 => absurd h2 h⟩
      · rename_i h
        have h1 := getEsc_length chunk (by simpa using h)
        split
        · split
          · rename_i h3
            exact ⟨_, _, _, rfl, fun h2 => absurd h2 h3⟩
          · rename_i h3
            have h4 := getEsc_length _ (by simpa using h3)
            have h5 : (getEsc chunk).2.1.tail.length ≤ (getEsc chunk).2.1.length := by simp
            obtain ⟨c, b2, err, e1, e2⟩ := ih (getEsc (getEsc chunk).2.1.tail).2.1 r
              (b || (decide ((getEsc chunk).1 ≤ r) &&
                decide (r ≤ (getEsc (getEsc chunk).2.1.tail).1))) (n + 1) (by omega)
            exact ⟨c, b2, err, e1, fun h2 => by have := e2 h2; omega⟩
        · obtain ⟨c, b2, err, e1, e2⟩ := ih (getEsc chunk).2.1 r
              (b || (decide ((getEsc chunk).1 ≤ r) && decide (r ≤ (getEsc chunk).1))) (n + 1)
              (by omega)
          exact ⟨c, b2, err, e1, fun h2 => by have := e2 h2; omega⟩

end path

namespace path

/-- The error of `matchChunkLoop` depends on the chunk alone. -/
theorem matchChunkLoop_err_indep (fuel : Nat) : ∀ (chunk s s2 : GoString) (f f2 : Bool),
    (matchChunkLoop fuel chunk s f).map (fun x => x.2.2) =
    (matchChunkLoop fuel chunk s2 f2).map (fun x => x.2.2) := by
  induction fuel with
  | zero => intros; rfl
  | succ fuel ih =>
    intro chunk s s2 f f2
    cases chunk with
    | nil => simp only [matchChunkLoop]; split <;> split <;> rfl
    | cons c chunk1 =>
      simp only [matchChunkLoop]
      by_cases hc : c = 91
      · simp only [hc, if_true]
        have hr := rangeLoop_indep fuel
          (if decide (chunk1.head? = some 94) = true then chunk1.tail else chunk1)
          (if (f || decide (s.length = 0)) = true then 0 else (utf8.DecodeRuneInString s).1)
          (if (f2 || decide (s2.length = 0)) = true then 0 else (utf8.DecodeRuneInString s2).1)
          false false 0
        rcases h1 : rangeLoop fuel
          (if decide (chunk1.head? = some 94) = true then chunk1.tail else chunk1)
          (if (f || decide (s.length = 0)) = true then 0 else (utf8.DecodeRuneInString s).1)
          false 0 with _ | ⟨c3, m3, e3⟩ <;>
        rcases h2 : rangeLoop fuel
          (if decide (chunk1.head? = some 94) = true then chunk1.tail else chunk1)
          (if (f2 || decide (s2.length = 0)) = true then 0 else (utf8.DecodeRuneInString s2).1)
          false 0 with _ | ⟨c4, m4, e4⟩ <;>
        simp only [h1, h2, Option.map_none', Option.map_some', Option.some.injEq, Prod.mk.injEq,
          reduceCtorEq] at hr
        · rfl
        · obtain ⟨rfl, rfl⟩ := hr
          simp only
          split
          · rfl
          · exact ih _ _ _ _ _
      · simp only [hc, if_false]
        split
        · exact ih _ _ _ _ _
        · split
          · rfl
          · exact ih _ _ _ _ _

/-- With more fuel than bytes in the chunk, `matchChunkLoop` returns, and it
reports a match only without an error. -/
theorem matchChunkLoop_isSome (fuel : Nat) : ∀ (chunk s : GoString) (f : Bool),
    chunk.length < fuel →
    ∃ t ok err, matchChunkLoop fuel chunk s f = some (t, ok, err) ∧ (ok = true → err = none) := by
  induction fuel with
  | zero => intro chunk s f h; omega
  | succ fuel ih =>
    intro chunk s f hlen
    cases chunk with
    | nil => simp only [matchChunkLoop]; split <;> exact ⟨_, _, _, rfl, by simp⟩
    | cons c chunk1 =>
      simp only [matchChunkLoop]
      simp only [List.length_cons] at hlen
      by_cases hc : c = 91
      · simp only [hc, if_true]
        have hl : (if decide (chunk1.head? = some 94) = true then chunk1.tail else chunk1).length
            ≤ chunk1.length := by split <;> simp
        obtain ⟨c3, m3, e3, h1, h2⟩ := rangeLoop_isSome fuel
          (if decide (chunk1.head? = some 94) = true then chunk1.tail else chunk1)
          (if (f || decide (s.length = 0)) = true then 0 else (utf8.DecodeRuneInString s).1)
          false 0 (by omega)
        rw [h1]
        simp only
        split
        · exact ⟨_, _, _, rfl, by simp⟩
        · rename_i h3
          have := h2 (by simpa using h3)
          exact ih _ _ _ (by omega)
      · simp only [hc, if_false]
        split
        · exact ih _ _ _ (by omega)
        · split
          · exact ⟨_, _, _, rfl, by simp⟩
          · refine ih _ _ _ ?_
            have : (if c = 92 then chunk1 else c :: chunk1).tail.length ≤ chunk1.length := by
              split <;> simp
            omega

end path

namespace path

/-- The two parts returned by `scanLoop` make up the pattern. -/
theorem scanLoop_append : ∀ (p : GoString) (b : Bool),
    (scanLoop b p).1 ++ (scanLoop b p).2 = p
  | [], _ => rfl
  | [c], b => by
    simp only [scanLoop]
    split
    · rfl
    · split
      · simp
      · split
        · simp
        · split
          · split <;> simp
          · simp
  | c :: d :: p, b => by
    have h1 := scanLoop_append p b
    have h2 := scanLoop_append (d :: p)
    simp only [scanLoop]
    split
    · simp [h1]
    · split
      · simp [h2]
      · split
        · simp [h2]
        · split
          · split
            · simp
            · simp [h2]
          · simp [h2]

/-- The chunk scanned from a pattern that does not begin with a star is not
empty. -/
theorem scanLoop_fst_ne_nil (c : Nat) (p : GoString) (b : Bool) (h : c ≠ 42 ∨ b = true) :
    (scanLoop b (c :: p)).1 ≠ [] := by
  cases p <;> simp only [scanLoop] <;> (repeat' split) <;> simp_all

/-- What is left of a non-empty pattern after `scanChunk` is shorter. -/
theorem scanChunk_rest_length (pattern : GoString) (h : pattern.length > 0) :
    (scanChunk pattern).2.2.length < pattern.length := by
  cases pattern with
  | nil => simp at h
  | cons c p =>
    simp only [scanChunk]
    by_cases hc : c = 42
    · have h1 := scanLoop_append (List.dropWhile (fun c => decide (c = 42)) (c :: p)) false
      have h2 : (List.dropWhile (fun c => decide (c = 42)) (c :: p)).length ≤ p.length := by
        rw [List.dropWhile_cons]
        simp only [hc, decide_True, if_true]
        exact (List.dropWhile_sublist _).length_le
      have h3 := congrArg List.length h1
      simp only [List.length_append] at h3
      simp only [List.length_cons]
      omega
    · have h0 : List.dropWhile (fun c => decide (c = 42)) (c :: p) = c :: p := by
        rw [List.dropWhile_cons]; simp [hc]
      rw [h0]
      have h1 := scanLoop_append (c :: p) false
      have h2 := scanLoop_fst_ne_nil c p false (Or.inl hc)
      have h3 := congrArg List.length h1
      simp only [List.length_append] at h3
      have h4 : 0 < (scanLoop false (c :: p)).1.length := List.length_pos.mpr h2
      omega

/-- When the chunk scanned is empty the pattern is used up. -/
theorem scanChunk_nil (pattern : GoString) (h : (scanChunk pattern).2.1 = []) :
    (scanChunk pattern).2.2 = [] := by
  simp only [scanChunk] at h ⊢
  generalize hq : List.dropWhile (fun c => decide (c = 42)) pattern = q at h ⊢
  cases q with
  | nil => rfl
  | cons c p =>
    have hc : c ≠ 42 := by
      have := List.head_dropWhile_not (fun c => decide (c = 42)) pattern
        (by rw [hq]; simp)
      simp only [hq, List.head_cons] at this
      simpa using this
    exact absurd h (scanLoop_fst_ne_nil c p false (Or.inl hc))

/-- The call `matchChunk` returns, and it reports a match only without an
error. -/
theorem matchChunk_some (chunk s : GoString) :
    ∃ t ok err, matchChunk chunk s = some (t, ok, err) ∧ (ok = true → err = none) :=
  matchChunkLoop_isSome _ chunk s false (Nat.lt_succ_self _)

/-- The error of `matchChunk` is the same on every string. -/
theorem matchChunk_err (chunk s s2 : GoString) (t : GoString) (ok : Bool) (err : error)
    (h : matchChunk chunk s = some (t, ok, err)) :
    ∃ t2 ok2, matchChunk chunk s2 = some (t2, ok2, err) := by
  obtain ⟨t2, ok2, err2, h2, -⟩ := matchChunk_some chunk s2
  have := matchChunkLoop_err_indep (chunk.length + 1) chunk s s2 false false
  simp only [matchChunk] at h h2
  rw [h, h2] at this
  simp only [Option.map_some', Option.some.injEq] at this
  exact ⟨t2, ok2, by rw [matchChunk, h2, this]⟩

/-- The loop that retries a starred chunk ends without an error when the chunk
has none. -/
theorem starLoop_no_fail (chunk : GoString) (last : Bool) (t0 : GoString) (ok0 : Bool)
    (h : matchChunk chunk [] = some (t0, ok0, none)) :
    ∀ name, starLoop chunk last name = StarStep.done ∨
      ∃ t, starLoop chunk last name = StarStep.next t
  | [] => Or.inl rfl
  | c :: name1 => by
    simp only [starLoop]
    split
    · exact Or.inl rfl
    · obtain ⟨t2, ok2, h2⟩ := matchChunk_err chunk [] name1 t0 ok0 none h
      rw [h2]
      simp only
      split
      · split
        · exact starLoop_no_fail chunk last t0 ok0 h name1
        · exact Or.inr ⟨_, rfl⟩
      · simp only [ne_eq, not_true_eq_false, if_false]
        exact starLoop_no_fail chunk last t0 ok0 h name1

end path

namespace path

/-- With more fuel than bytes in the pattern, the closing loop returns, and its
result does not depend on the fuel. -/
theorem checkRest_fuel (fuel : Nat) : ∀ (fuel2 : Nat) (pattern : GoString),
    pattern.length < fuel → pattern.length < fuel2 →
    (∃ e, checkRest fuel pattern = some e) ∧ checkRest fuel pattern = checkRest fuel2 pattern := by
  induction fuel with
  | zero => intro fuel2 pattern h; omega
  | succ fuel ih =>
    intro fuel2 pattern h1 h2
    cases fuel2 with
    | zero => omega
    | succ fuel2 =>
      simp only [checkRest]
      split
      · rename_i hp
        have hr := scanChunk_rest_length pattern hp
        obtain ⟨t, ok, err, hm, -⟩ := matchChunk_some (scanChunk pattern).2.1 []
        rw [hm]
        simp only
        split
        · exact ⟨⟨_, rfl⟩, rfl⟩
        · exact ih fuel2 _ (by omega) (by omega)
      · exact ⟨⟨_, rfl⟩, rfl⟩

/-- The error of `matchLoop` is the result of the syntax check of the pattern,
whatever the name. -/
theorem matchLoop_err (fuel : Nat) : ∀ (pattern name : GoString),
    pattern.length < fuel →
    (matchLoop fuel pattern name).map (fun x => x.2) = checkRest fuel pattern := by
  induction fuel with
  | zero => intro pattern name h; omega
  | succ fuel ih =>
    intro pattern name hlen
    simp only [matchLoop, checkRest]
    split
    · rename_i hp
      have hr := scanChunk_rest_length pattern hp
      have hfuel : (scanChunk pattern).2.2.length < fuel := by omega
      obtain ⟨t, ok, err, hm, hok⟩ := matchChunk_some (scanChunk pattern).2.1 name
      obtain ⟨t2, ok2, hm2⟩ := matchChunk_err _ name [] t ok err hm
      split
      · rename_i hstar
        have hnil := scanChunk_nil pattern hstar.2
        rw [hstar.2] at hm2 ⊢
        have : matchChunk [] [] = some ([], true, none) := by decide
        rw [this]
        simp only [ne_eq, not_true_eq_false, if_false, Option.map_some']
        rw [hnil]
        cases fuel with
        | zero => omega
        | succ fuel => simp [checkRest]
      · rw [hm, hm2]
        simp only
        split
        · rename_i hcont
          have := hok hcont.1
          subst this
          simp only [ne_eq, not_true_eq_false, if_false]
          exact ih _ _ hfuel
        · split
          · rfl
          · rename_i herr
            have herr2 : err = none := by simpa using herr
            subst herr2
            have hs : ∀ last, starLoop (scanChunk pattern).2.1 last name = StarStep.done ∨
                ∃ t, starLoop (scanChunk pattern).2.1 last name = StarStep.next t :=
              fun last => starLoop_no_fail _ last t2 ok2 hm2 name
            split
            · rename_i t3 heq
              exact ih _ _ hfuel
            · rename_i e3 heq
              split at heq
              · rcases hs (decide ((scanChunk pattern).2.2.length = 0)) with h | ⟨t4, h⟩ <;>
                  rw [h] at heq <;> cases heq
              · cases heq
            · rename_i heq
              split at heq
              · rcases hs (decide ((scanChunk pattern).2.2.length = 0)) with h | ⟨t4, h⟩ <;>
                  rw [h] at heq <;> cases heq
              · cases heq
            · rename_i heq
              obtain ⟨⟨e, he⟩, -⟩ := checkRest_fuel fuel fuel _ hfuel hfuel
              rw [he]
              rfl
    · rfl

/-- The loop of `Match` does not run out of its fuel. -/
theorem matchLoop_isSome (pattern name : GoString) :
    matchLoop (pattern.length + 1) pattern name = some (Match pattern name) := by
  have h := matchLoop_err (pattern.length + 1) pattern name (Nat.lt_succ_self _)
  obtain ⟨⟨e, he⟩, -⟩ := checkRest_fuel (pattern.length + 1) (pattern.length + 1) pattern
    (Nat.lt_succ_self _) (Nat.lt_succ_self _)
  rw [he] at h
  cases hm : matchLoop (pattern.length + 1) pattern name with
  | none => rw [hm] at h; simp at h
  | some r => simp [Match, hm]

/-- The error of `Match` is the result of the syntax check of the pattern: it
is nil exactly on the well-formed patterns, whatever the name. -/
theorem Match_err_eq_none_iff (pattern name : GoString) :
    (Match pattern name).2 = none ↔ wellFormed pattern = true := by
  have h := matchLoop_err (pattern.length + 1) pattern name (Nat.lt_succ_self _)
  rw [matchLoop_isSome] at h
  simp only [Option.map_some'] at h
  simp only [wellFormed, ← h, beq_iff_eq, Option.some.injEq]

/-- The error of `Match` does not depend on the name. -/
theorem Match_err_indep (pattern name name2 : GoString) :
    (Match pattern name).2 = (Match pattern name2).2 := by
  have h := matchLoop_err (pattern.length + 1) pattern name (Nat.lt_succ_self _)
  have h2 := matchLoop_err (pattern.length + 1) pattern name2 (Nat.lt_succ_self _)
  rw [matchLoop_isSome] at h h2
  simp only [Option.map_some'] at h h2
  exact Option.some.inj (h.trans h2.symm)

end path

namespace path

/-- With more fuel than bytes in the chunk, the result of `rangeLoop` does not
depend on the fuel. -/
theorem rangeLoop_fuel (fuel : Nat) : ∀ (fuel2 : Nat) (chunk : GoString) (r : Nat) (b : Bool)
    (n : Nat), chunk.length < fuel → chunk.length < fuel2 →
    rangeLoop fuel chunk r b n = rangeLoop fuel2 chunk r b n := by
  induction fuel with
  | zero => intro fuel2 chunk r b n h; omega
  | succ fuel ih =>
    intro fuel2 chunk r b n h1 h2
    cases fuel2 with
    | zero => omega
    | succ fuel2 =>
      simp only [rangeLoop]
      split
      · rfl
      · split
        · rfl
        · rename_i h
          have h3 := getEsc_length chunk (by simpa using h)
          split
          · split
            · rfl
            · rename_i h4
              have h5 := getEsc_length _ (by simpa using h4)
              have h6 : (getEsc chunk).2.1.tail.length ≤ (getEsc chunk).2.1.length := by simp
              exact ih _ _ _ _ _ (by omega) (by omega)
          · exact ih _ _ _ _ _ (by omega) (by omega)

/-- With more fuel than bytes in the chunk, the result of `matchChunkLoop` does
not depend on the fuel. -/
theorem matchChunkLoop_fuel (fuel : Nat) : ∀ (fuel2 : Nat) (chunk s : GoString) (f : Bool),
    chunk.length < fuel → chunk.length < fuel2 →
    matchChunkLoop fuel chunk s f = matchChunkLoop fuel2 chunk s f := by
  induction fuel with
  | zero => intro fuel2 chunk s f h; omega
  | succ fuel ih =>
    intro fuel2 chunk s f h1 h2
    cases fuel2 with
    | zero => omega
    | succ fuel2 =>
      cases chunk with
      | nil => simp only [matchChunkLoop]
      | cons c chunk1 =>
        simp only [matchChunkLoop]
        simp only [List.length_cons] at h1 h2
        by_cases hc : c = 91
        · simp only [hc, if_true]
          have hl : (if decide (chunk1.head? = some 94) = true then chunk1.tail
              else chunk1).length ≤ chunk1.length := by split <;> simp
          rw [rangeLoop_fuel fuel fuel2 _ _ _ _ (by omega) (by omega)]
          obtain ⟨c3, m3, e3, h3, h4⟩ := rangeLoop_isSome fuel2
            (if decide (chunk1.head? = some 94) = true then chunk1.tail else chunk1)
            (if (f || decide (s.length = 0)) = true then 0 else (utf8.DecodeRuneInString s).1)
            false 0 (by omega)
          rw [h3]
          simp only
          split
          · rfl
          · rename_i h5
            have := h4 (by simpa using h5)
            exact ih _ _ _ _ (by omega) (by omega)
        · simp only [hc, if_false]
          split
          · exact ih _ _ _ _ (by omega) (by omega)
          · split
            · rfl
            · have : (if c = 92 then chunk1 else c :: chunk1).tail.length ≤ chunk1.length := by
                split <;> simp
              exact ih _ _ _ _ (by omega) (by omega)

/-- With more fuel than bytes in the pattern, the loop of `Match` returns the
result of `Match`: the result does not depend on the fuel. -/
theorem matchLoop_fuel (fuel : Nat) : ∀ (fuel2 : Nat) (pattern name : GoString),
    pattern.length < fuel → pattern.length < fuel2 →
    matchLoop fuel pattern name = matchLoop fuel2 pattern name := by
  induction fuel with
  | zero => intro fuel2 pattern name h; omega
  | succ fuel ih =>
    intro fuel2 pattern name h1 h2
    cases fuel2 with
    | zero => omega
    | succ fuel2 =>
      simp only [matchLoop]
      split
      · rename_i hp
        have hr := scanChunk_rest_length pattern hp
        split
        · rfl
        · split
          · rfl
          · split
            · exact ih _ _ _ (by omega) (by omega)
            · split
              · rfl
              · split
                · exact ih _ _ _ (by omega) (by omega)
                · rfl
                · rfl
                · rw [(checkRest_fuel fuel fuel2 _ (by omega) (by omega)).2]
      · rfl

/-- Every amount of fuel above the length of the pattern gives the result of
`Match`. -/
theorem matchLoop_eq_Match (fuel : Nat) (pattern name : GoString)
    (h : pattern.length < fuel) : matchLoop fuel pattern name = some (Match pattern name) := by
  rw [matchLoop_fuel fuel (pattern.length + 1) pattern name h (Nat.lt_succ_self _)]
  exact matchLoop_isSome pattern name

end path

/-! ## strings -/

namespace strings

/-- The call `HasPrefix(s, pre)` says that `pre` is a beginning of `s`. -/
theorem HasPrefix_iff (s pre : GoString) : HasPrefix s pre = true ↔ pre <+: s := by
  simp only [HasPrefix, Bool.and_eq_true, decide_eq_true_eq]
  constructor
  · rintro ⟨-, h⟩
    exact List.prefix_iff_eq_take.mpr h.symm
  · intro h
    exact ⟨h.length_le, (List.prefix_iff_eq_take.mp h).symm⟩

/-- The call `HasSuffix(s, suf)` says that `suf` is an end of `s`. -/
theorem HasSuffix_iff (s suf : GoString) : HasSuffix s suf = true ↔ suf <:+ s := by
  simp only [HasSuffix, Bool.and_eq_true, decide_eq_true_eq]
  constructor
  · rintro ⟨-, h⟩
    exact List.suffix_iff_eq_drop.mpr h.symm
  · intro h
    exact ⟨h.length_le, (List.suffix_iff_eq_drop.mp h).symm⟩

theorem Index_nil (substr : GoString) :
    Index [] substr = if HasPrefix [] substr then 0 else -1 := by
  rw [Index]

theorem Index_cons (c : Nat) (rest substr : GoString) :
    Index (c :: rest) substr =
      if HasPrefix (c :: rest) substr then 0
      else if Index rest substr < 0 then -1 else Index rest substr + 1 := by
  rw [Index]

/-- The index is not negative exactly when `substr` is a contiguous part of `s`. -/
theorem Index_nonneg_iff (substr : GoString) : ∀ s : GoString,
    0 ≤ Index s substr ↔ substr <:+: s
  | [] => by
    rw [Index_nil]
    by_cases h : HasPrefix [] substr = true
    · simp only [h, if_true, le_refl, true_iff]
      exact ((HasPrefix_iff _ _).mp h).isInfix
    · rw [if_neg h]
      constructor
      · intro h2; exact absurd h2 (by decide)
      · intro h2
        have : substr = [] := List.eq_nil_of_infix_nil h2
        subst this
        exact absurd ((HasPrefix_iff [] []).mpr (List.prefix_refl _)) h
  | c :: rest => by
    have ih := Index_nonneg_iff substr rest
    rw [Index_cons]
    by_cases h : HasPrefix (c :: rest) substr = true
    · simp only [h, if_true, le_refl, true_iff]
      exact ((HasPrefix_iff _ _).mp h).isInfix
    · rw [if_neg h]
      have hp : ¬ substr <+: c :: rest := fun hp => h ((HasPrefix_iff _ _).mpr hp)
      rw [List.infix_cons_iff]
      constructor
      · intro h2
        split at h2
        · exact absurd h2 (by decide)
        · exact Or.inr (ih.mp (by omega))
      · rintro (h2 | h2)
        · exact absurd h2 hp
        · have h3 := ih.mpr h2
          have h4 : ¬ Index rest substr < 0 := by omega
          simp only [h4, if_false]
          omega

/-- The call `Contains(s, substr)` says that `substr` is a contiguous part of `s`. -/
theorem Contains_iff (s substr : GoString) : Contains s substr = true ↔ substr <:+: s := by
  simp only [Contains, decide_eq_true_eq, ge_iff_le]
  exact Index_nonneg_iff substr s

end strings

/-! ## lql: how the methods unfold -/

namespace lql

open model

section unfold

variable (m : GoString → GoString)

theorem buildOrConds_nil (teb : tagsExpFuncBuilder) :
    buildOrConds m teb [] = some (⟨.positive⟩, none) := rfl

theorem buildOrConds_one (teb : tagsExpFuncBuilder) (and0 : List XCondition) :
    buildOrConds m teb [OrCondition.mk and0] = buildXConds m teb and0 := rfl

theorem buildOrConds_cons (teb : tagsExpFuncBuilder) (and0 : List XCondition)
    (oc1 : OrCondition) (rest1 : List OrCondition) :
    buildOrConds m teb (OrCondition.mk and0 :: oc1 :: rest1) =
    match buildXConds m teb and0 with
    | none => none
    | some (teb, some err) => some (teb, some err)
    | some (teb, none) =>
      match buildOrConds m teb (oc1 :: rest1) with
      | none => none
      | some (teb1, some err) => some (teb1, some err)
      | some (teb1, none) => some (⟨.orFunc teb.tef teb1.tef⟩, none) := rfl

theorem buildXConds_nil (teb : tagsExpFuncBuilder) :
    buildXConds m teb [] = some (⟨.positive⟩, none) := rfl

theorem buildXConds_one (teb : tagsExpFuncBuilder) (xc : XCondition) :
    buildXConds m teb [xc] = buildXCond m teb xc := rfl

theorem buildXConds_cons (teb : tagsExpFuncBuilder) (xc xc1 : XCondition)
    (rest1 : List XCondition) :
    buildXConds m teb (xc :: xc1 :: rest1) =
    match buildXCond m teb xc with
    | none => none
    | some (teb, some err) => some (teb, some err)
    | some (teb, none) =>
      match buildXConds m teb (xc1 :: rest1) with
      | none => none
      | some (teb1, some err) => some (teb1, some err)
      | some (teb1, none) => some (⟨.andFunc teb.tef teb1.tef⟩, none) := rfl

theorem buildXCond_expr (teb : tagsExpFuncBuilder) (Not : Bool) (ocn : List OrCondition)
    (c : Option Condition) :
    buildXCond m teb (XCondition.mk Not (some (Expression.mk ocn)) c) =
    match buildOrConds m teb ocn with
    | none => none
    | some (teb, some err) => some (teb, some err)
    | some (teb, none) =>
      if Not then some (⟨.notFunc teb.tef⟩, none) else some (teb, none) := rfl

theorem buildXCond_cond (teb : tagsExpFuncBuilder) (Not : Bool) (cn : Condition) :
    buildXCond m teb (XCondition.mk Not none (some cn)) =
    match buildTagCond m teb cn with
    | (teb, some err) => some (teb, some err)
    | (teb, none) =>
      if Not then some (⟨.notFunc teb.tef⟩, none) else some (teb, none) := rfl

theorem buildXCond_nil (teb : tagsExpFuncBuilder) (Not : Bool) :
    buildXCond m teb (XCondition.mk Not none none) = none := rfl

theorem BuildTagsExpFunc_some (ocn : List OrCondition) :
    BuildTagsExpFunc m (some (Expression.mk ocn)) =
    match buildOrConds m ⟨.nil⟩ ocn with
    | none => none
    | some (_, some err) => some (.nil, some err)
    | some (teb, none) => some (teb.tef, none) := rfl

end unfold

mutual
/-- Induction along the calls of `buildOrConds`. -/
theorem tree_induction_or {P : List OrCondition → Prop} {Q : List XCondition → Prop}
    {R : XCondition → Prop}
    (or_nil : P [])
    (or_one : ∀ and0, Q and0 → P [OrCondition.mk and0])
    (or_cons : ∀ and0 oc1 rest1, Q and0 → P (oc1 :: rest1) →
      P (OrCondition.mk and0 :: oc1 :: rest1))
    (and_nil : Q [])
    (and_one : ∀ xc, R xc → Q [xc])
    (and_cons : ∀ xc xc1 rest1, R xc → Q (xc1 :: rest1) → Q (xc :: xc1 :: rest1))
    (term_expr : ∀ n ocn c, P ocn → R (XCondition.mk n (some (Expression.mk ocn)) c))
    (term_cond : ∀ n cn, R (XCondition.mk n none (some cn)))
    (term_nil : ∀ n, R (XCondition.mk n none none)) :
    ∀ ocn, P ocn
  | [] => or_nil
  | [OrCondition.mk and0] =>
    or_one and0 (tree_induction_and or_nil or_one or_cons and_nil and_one and_cons term_expr term_cond term_nil and0)
  | OrCondition.mk and0 :: oc1 :: rest1 =>
    or_cons and0 oc1 rest1 (tree_induction_and or_nil or_one or_cons and_nil and_one and_cons term_expr term_cond term_nil and0)
      (tree_induction_or or_nil or_one or_cons and_nil and_one and_cons term_expr term_cond term_nil (oc1 :: rest1))
/-- Induction along the calls of `buildXConds`. -/
theorem tree_induction_and {P : List OrCondition → Prop} {Q : List XCondition → Prop}
    {R : XCondition → Prop}
    (or_nil : P [])
    (or_one : ∀ and0, Q and0 → P [OrCondition.mk and0])
    (or_cons : ∀ and0 oc1 rest1, Q and0 → P (oc1 :: rest1) →
      P (OrCondition.mk and0 :: oc1 :: rest1))
    (and_nil : Q [])
    (and_one : ∀ xc, R xc → Q [xc])
    (and_cons : ∀ xc xc1 rest1, R xc → Q (xc1 :: rest1) → Q (xc :: xc1 :: rest1))
    (term_expr : ∀ n ocn c, P ocn → R (XCondition.mk n (some (Expression.mk ocn)) c))
    (term_cond : ∀ n cn, R (XCondition.mk n none (some cn)))
    (term_nil : ∀ n, R (XCondition.mk n none none)) :
    ∀ cn, Q cn
  | [] => and_nil
  | [xc] => and_one xc (tree_induction_term or_nil or_one or_cons and_nil and_one and_cons term_expr term_cond term_nil xc)
  | xc :: xc1 :: rest1 =>
    and_cons xc xc1 rest1 (tree_induction_term or_nil or_one or_cons and_nil and_one and_cons term_expr term_cond term_nil xc)
      (tree_induction_and or_nil or_one or_cons and_nil and_one and_cons term_expr term_cond term_nil (xc1 :: rest1))
/-- Induction along the calls of `buildXCond`. -/
theorem tree_induction_term {P : List OrCondition → Prop} {Q : List XCondition → Prop}
    {R : XCondition → Prop}
    (or_nil : P [])
    (or_one : ∀ and0, Q and0 → P [OrCondition.mk and0])
    (or_cons : ∀ and0 oc1 rest1, Q and0 → P (oc1 :: rest1) →
      P (OrCondition.mk and0 :: oc1 :: rest1))
    (and_nil : Q [])
    (and_one : ∀ xc, R xc → Q [xc])
    (and_cons : ∀ xc xc1 rest1, R xc → Q (xc1 :: rest1) → Q (xc :: xc1 :: rest1))
    (term_expr : ∀ n ocn c, P ocn → R (XCondition.mk n (some (Expression.mk ocn)) c))
    (term_cond : ∀ n cn, R (XCondition.mk n none (some cn)))
    (term_nil : ∀ n, R (XCondition.mk n none none)) :
    ∀ xc, R xc
  | XCondition.mk n (some (Expression.mk ocn)) c =>
    term_expr n ocn c (tree_induction_or or_nil or_one or_cons and_nil and_one and_cons term_expr term_cond term_nil ocn)
  | XCondition.mk n none (some cn) => term_cond n cn
  | XCondition.mk n none none => term_nil n
end

end lql

/-! ## lql: leaf conditions -/

namespace lql

open model

theorem str_lt : str "<" = [60] := by decide
theorem str_gt : str ">" = [62] := by decide
theorem str_le : str "<=" = [60, 61] := by decide
theorem str_ge : str ">=" = [62, 61] := by decide
theorem str_ne : str "!=" = [33, 61] := by decide
theorem str_eq : str "=" = [61] := by decide
theorem CMP_LIKE_eq : CMP_LIKE = [76, 73, 75, 69] := by decide
theorem CMP_CONTAINS_eq : CMP_CONTAINS = [67, 79, 78, 84, 65, 73, 78, 83] := by decide
theorem CMP_HAS_PREFIX_eq : CMP_HAS_PREFIX = [72, 65, 83, 95, 80, 82, 69, 70, 73, 88] := by
  decide
theorem CMP_HAS_SUFFIX_eq : CMP_HAS_SUFFIX = [72, 65, 83, 95, 83, 85, 70, 70, 73, 88] := by
  decide

/-- An operator token is its own upper case. -/
theorem ToUpper_token (m : GoString → GoString) (op : GoString) (h : op ∈ opTokens) :
    strings.ToUpper m op = op := by
  simp only [opTokens, List.mem_cons, List.mem_singleton, List.not_mem_nil, or_false] at h
  rcases h with rfl | rfl | rfl | rfl | rfl | rfl | rfl | rfl | rfl | rfl <;> rfl

/-- The error returned by `buildTagCond`: the message of the default case when
the operator is unsupported, nil otherwise. -/
theorem buildTagCond_err (m : GoString → GoString) (teb : tagsExpFuncBuilder) (cn : Condition) :
    (buildTagCond m teb cn).2 = if unsupported m cn then some (unsupportedMsg cn) else none := by
  simp only [buildTagCond, unsupported, opTokens, List.mem_cons, List.mem_singleton,
    List.not_mem_nil, or_false, decide_eq_true_eq, decide_not, Bool.not_eq_true',
    decide_eq_false_iff_not]
  repeat' split
  all_goals simp_all

end lql

namespace lql

open model

/-- The closure compiled for a leaf whose operator is a token, and whose value
is a well-formed pattern when the operator is `LIKE`, computes the leaf test. -/
theorem buildTagCond_token (m : GoString → GoString) (teb : tagsExpFuncBuilder) (cn : Condition)
    (hop : cn.Op ∈ opTokens) (hlike : cn.Op = CMP_LIKE → path.wellFormed cn.Value = true) :
    ∃ p, buildTagCond m teb cn = (⟨p⟩, none) ∧
      ∀ tags, p.call tags = some (leafTest cn tags) := by
  have hup := ToUpper_token m cn.Op hop
  obtain ⟨operand, op, val⟩ := cn
  simp only at hop hlike hup
  simp only [opTokens, List.mem_cons, List.mem_singleton, List.not_mem_nil, or_false] at hop
  rcases hop with h | h | h | h | h | h | h | h | h | h
  · refine ⟨.ltFunc ⟨operand, op, val⟩, ?_, fun tags => ?_⟩ <;> subst h
    · simp only [buildTagCond, hup]
      simp [str_lt, str_gt, str_le, str_ge, str_ne, str_eq, CMP_LIKE_eq, CMP_CONTAINS_eq,
        CMP_HAS_PREFIX_eq, CMP_HAS_SUFFIX_eq]
    · simp only [TagsExpFunc.call, leafTest]
      simp [str_lt, str_gt, str_le, str_ge, str_ne, str_eq, CMP_LIKE_eq, CMP_CONTAINS_eq,
        CMP_HAS_PREFIX_eq, CMP_HAS_SUFFIX_eq]
  · refine ⟨.gtFunc ⟨operand, op, val⟩, ?_, fun tags => ?_⟩ <;> subst h
    · simp only [buildTagCond, hup]
      simp [str_lt, str_gt, str_le, str_ge, str_ne, str_eq, CMP_LIKE_eq, CMP_CONTAINS_eq,
        CMP_HAS_PREFIX_eq, CMP_HAS_SUFFIX_eq]
    · simp only [TagsExpFunc.call, leafTest]
      simp [str_lt, str_gt, str_le, str_ge, str_ne, str_eq, CMP_LIKE_eq, CMP_CONTAINS_eq,
        CMP_HAS_PREFIX_eq, CMP_HAS_SUFFIX_eq]
  · refine ⟨.leFunc ⟨operand, op, val⟩, ?_, fun tags => ?_⟩ <;> subst h
    · simp only [buildTagCond, hup]
      simp [str_lt, str_gt, str_le, str_ge, str_ne, str_eq, CMP_LIKE_eq, CMP_CONTAINS_eq,
        CMP_HAS_PREFIX_eq, CMP_HAS_SUFFIX_eq]
    · simp only [TagsExpFunc.call, leafTest]
      simp [str_lt, str_gt, str_le, str_ge, str_ne, str_eq, CMP_LIKE_eq, CMP_CONTAINS_eq,
        CMP_HAS_PREFIX_eq, CMP_HAS_SUFFIX_eq]
  · refine ⟨.geFunc ⟨operand, op, val⟩, ?_, fun tags => ?_⟩ <;> subst h
    · simp only [buildTagCond, hup]
      simp [str_lt, str_gt, str_le, str_ge, str_ne, str_eq, CMP_LIKE_eq, CMP_CONTAINS_eq,
        CMP_HAS_PREFIX_eq, CMP_HAS_SUFFIX_eq]
    · simp only [TagsExpFunc.call, leafTest]
      simp [str_lt, str_gt, str_le, str_ge, str_ne, str_eq, CMP_LIKE_eq, CMP_CONTAINS_eq,
        CMP_HAS_PREFIX_eq, CMP_HAS_SUFFIX_eq]
  · refine ⟨.neFunc ⟨operand, op, val⟩, ?_, fun tags => ?_⟩ <;> subst h
    · simp only [buildTagCond, hup]
      simp [str_lt, str_gt, str_le, str_ge, str_ne, str_eq, CMP_LIKE_eq, CMP_CONTAINS_eq,
        CMP_HAS_PREFIX_eq, CMP_HAS_SUFFIX_eq]
    · simp only [TagsExpFunc.call, leafTest]
      simp [str_lt, str_gt, str_le, str_ge, str_ne, str_eq, CMP_LIKE_eq, CMP_CONTAINS_eq,
        CMP_HAS_PREFIX_eq, CMP_HAS_SUFFIX_eq]
  · refine ⟨.eqFunc ⟨operand, op, val⟩, ?_, fun tags => ?_⟩ <;> subst h
    · simp only [buildTagCond, hup]
      simp [str_lt, str_gt, str_le, str_ge, str_ne, str_eq, CMP_LIKE_eq, CMP_CONTAINS_eq,
        CMP_HAS_PREFIX_eq, CMP_HAS_SUFFIX_eq]
    · simp only [TagsExpFunc.call, leafTest]
      simp [str_lt, str_gt, str_le, str_ge, str_ne, str_eq, CMP_LIKE_eq, CMP_CONTAINS_eq,
        CMP_HAS_PREFIX_eq, CMP_HAS_SUFFIX_eq]
  · have hp : (path.Match val (str "abc")).2 = none :=
      (path.Match_err_eq_none_iff val _).mpr (hlike h)
    refine ⟨.likeFunc ⟨operand, op, val⟩, ?_, fun tags => ?_⟩ <;> subst h
    · simp only [buildTagCond, hup, hp]
      simp [str_lt, str_gt, str_le, str_ge, str_ne, str_eq, CMP_LIKE_eq, CMP_CONTAINS_eq,
        CMP_HAS_PREFIX_eq, CMP_HAS_SUFFIX_eq]
    · simp only [TagsExpFunc.call, leafTest]
      cases tags.lookup operand <;>
      simp [str_lt, str_gt, str_le, str_ge, str_ne, str_eq, CMP_LIKE_eq, CMP_CONTAINS_eq,
        CMP_HAS_PREFIX_eq, CMP_HAS_SUFFIX_eq]
  · refine ⟨.containsFunc ⟨operand, op, val⟩, ?_, fun tags => ?_⟩ <;> subst h
    · simp only [buildTagCond, hup]
      simp [str_lt, str_gt, str_le, str_ge, str_ne, str_eq, CMP_LIKE_eq, CMP_CONTAINS_eq,
        CMP_HAS_PREFIX_eq, CMP_HAS_SUFFIX_eq]
    · have := strings.Contains_iff (tags.index operand) val
      simp only [TagsExpFunc.call, leafTest]
      simp only [str_lt, str_gt, str_le, str_ge, str_ne, str_eq, CMP_LIKE_eq, CMP_CONTAINS_eq,
        CMP_HAS_PREFIX_eq, CMP_HAS_SUFFIX_eq]
      simp only [List.cons.injEq, Nat.reduceEqDiff, and_false, false_and,
        and_self, reduceCtorEq, if_false, if_true, Option.some.injEq]
      rw [Bool.eq_iff_iff]
      simpa using this
  · refine ⟨.hasPrefixFunc ⟨operand, op, val⟩, ?_, fun tags => ?_⟩ <;> subst h
    · simp only [buildTagCond, hup]
      simp [str_lt, str_gt, str_le, str_ge, str_ne, str_eq, CMP_LIKE_eq, CMP_CONTAINS_eq,
        CMP_HAS_PREFIX_eq, CMP_HAS_SUFFIX_eq]
    · have := strings.HasPrefix_iff (tags.index operand) val
      simp only [TagsExpFunc.call, leafTest]
      simp only [str_lt, str_gt, str_le, str_ge, str_ne, str_eq, CMP_LIKE_eq, CMP_CONTAINS_eq,
        CMP_HAS_PREFIX_eq, CMP_HAS_SUFFIX_eq]
      simp only [List.cons.injEq, Nat.reduceEqDiff, and_false, false_and,
        and_self, reduceCtorEq, if_false, if_true, Option.some.injEq]
      rw [Bool.eq_iff_iff]
      simpa using this
  · refine ⟨.hasSuffixFunc ⟨operand, op, val⟩, ?_, fun tags => ?_⟩ <;> subst h
    · simp only [buildTagCond, hup]
      simp [str_lt, str_gt, str_le, str_ge, str_ne, str_eq, CMP_LIKE_eq, CMP_CONTAINS_eq,
        CMP_HAS_PREFIX_eq, CMP_HAS_SUFFIX_eq]
    · have := strings.HasSuffix_iff (tags.index operand) val
      simp only [TagsExpFunc.call, leafTest]
      simp only [str_lt, str_gt, str_le, str_ge, str_ne, str_eq, CMP_LIKE_eq, CMP_CONTAINS_eq,
        CMP_HAS_PREFIX_eq, CMP_HAS_SUFFIX_eq]
      simp only [List.cons.injEq, Nat.reduceEqDiff, and_false, false_and,
        and_self, reduceCtorEq, if_false, if_true, Option.some.injEq]
      rw [Bool.eq_iff_iff]
      simpa using this

end lql

/-! ## lql: compilation of a tree whose leaves are all valid -/

namespace lql

open model

/-- Induction over expression trees, along the calls of the three methods. -/
theorem tree_induction {P : List OrCondition → Prop} {Q : List XCondition → Prop}
    {R : XCondition → Prop}
    (or_nil : P [])
    (or_one : ∀ and0, Q and0 → P [OrCondition.mk and0])
    (or_cons : ∀ and0 oc1 rest1, Q and0 → P (oc1 :: rest1) →
      P (OrCondition.mk and0 :: oc1 :: rest1))
    (and_nil : Q [])
    (and_one : ∀ xc, R xc → Q [xc])
    (and_cons : ∀ xc xc1 rest1, R xc → Q (xc1 :: rest1) → Q (xc :: xc1 :: rest1))
    (term_expr : ∀ n ocn c, P ocn → R (XCondition.mk n (some (Expression.mk ocn)) c))
    (term_cond : ∀ n cn, R (XCondition.mk n none (some cn)))
    (term_nil : ∀ n, R (XCondition.mk n none none)) :
    (∀ ocn, P ocn) ∧ (∀ cn, Q cn) ∧ (∀ xc, R xc) :=
  ⟨tree_induction_or or_nil or_one or_cons and_nil and_one and_cons term_expr term_cond term_nil,
   tree_induction_and or_nil or_one or_cons and_nil and_one and_cons term_expr term_cond term_nil,
   tree_induction_term or_nil or_one or_cons and_nil and_one and_cons term_expr term_cond
     term_nil⟩

theorem evalOr_cons (tags : TagMap) (and0 : List XCondition) (rest : List OrCondition) :
    evalOr tags (OrCondition.mk and0 :: rest) = (evalAnd tags and0 || evalOr tags rest) := rfl

theorem evalAnd_cons (tags : TagMap) (xc : XCondition) (rest : List XCondition) :
    evalAnd tags (xc :: rest) = (evalTerm tags xc && evalAnd tags rest) := rfl

theorem evalTerm_expr (tags : TagMap) (n : Bool) (ocn : List OrCondition)
    (c : Option Condition) :
    evalTerm tags (XCondition.mk n (some (Expression.mk ocn)) c) =
      xor n ((Expression.mk ocn).eval tags) := by
  cases ocn <;> rfl

theorem evalTerm_cond (tags : TagMap) (n : Bool) (cn : Condition) :
    evalTerm tags (XCondition.mk n none (some cn)) = xor n (leafTest cn tags) := rfl

theorem validLeaves_append (l1 l2 : List Condition) :
    validLeaves (l1 ++ l2) ↔ validLeaves l1 ∧ validLeaves l2 := by
  simp only [validLeaves, List.mem_append]
  constructor
  · intro h
    exact ⟨fun cn hc => h cn (Or.inl hc), fun cn hc => h cn (Or.inr hc)⟩
  · rintro ⟨h1, h2⟩ cn (hc | hc)
    · exact h1 cn hc
    · exact h2 cn hc

/-- On a tree whose leaves are all valid the three methods return without
error, whatever the builder holds, and leave in `tef` a closure that computes
the value of what they compiled. -/
theorem build_valid (m : GoString → GoString) :
    (∀ ocn, properOr ocn = true → validLeaves (leavesOr ocn) → ∀ teb, ∃ p,
      buildOrConds m teb ocn = some (⟨p⟩, none) ∧
      ∀ tags, p.call tags = some ((Expression.mk ocn).eval tags)) ∧
    (∀ cn, properAnd cn = true → validLeaves (leavesAnd cn) → ∀ teb, ∃ p,
      buildXConds m teb cn = some (⟨p⟩, none) ∧
      ∀ tags, p.call tags = some (evalAnd tags cn)) ∧
    (∀ xc, properTerm xc = true → validLeaves (leavesTerm xc) → ∀ teb, ∃ p,
      buildXCond m teb xc = some (⟨p⟩, none) ∧
      ∀ tags, p.call tags = some (evalTerm tags xc)) := by
  apply tree_induction
  · -- buildOrConds, empty list
    intro _ _ teb
    exact ⟨.positive, rfl, fun tags => rfl⟩
  · -- buildOrConds, one element
    intro and0 ih hp hv teb
    simp only [properOr, Bool.and_true] at hp
    simp only [leavesOr, List.append_nil] at hv
    obtain ⟨p, h1, h2⟩ := ih hp hv teb
    refine ⟨p, by rw [buildOrConds_one, h1], fun tags => ?_⟩
    simp [h2, Expression.eval, evalOr]
  · -- buildOrConds, two elements or more
    intro and0 oc1 rest1 ih1 ih2 hp hv teb
    rw [properOr, Bool.and_eq_true] at hp
    rw [leavesOr, validLeaves_append] at hv
    obtain ⟨p0, h1, h2⟩ := ih1 hp.1 hv.1 teb
    obtain ⟨p1, h3, h4⟩ := ih2 hp.2 hv.2 ⟨p0⟩
    refine ⟨.orFunc p0 p1, by rw [buildOrConds_cons, h1]; simp only [h3], fun tags => ?_⟩
    simp only [TagsExpFunc.call, h2, h4, Expression.eval]
    rw [evalOr_cons]
    cases evalAnd tags and0 <;> rfl
  · -- buildXConds, empty list
    intro _ _ teb
    exact ⟨.positive, rfl, fun tags => rfl⟩
  · -- buildXConds, one element
    intro xc ih hp hv teb
    simp only [properAnd, Bool.and_true] at hp
    simp only [leavesAnd, List.append_nil] at hv
    obtain ⟨p, h1, h2⟩ := ih hp hv teb
    refine ⟨p, by rw [buildXConds_one, h1], fun tags => ?_⟩
    simp [h2, evalAnd]
  · -- buildXConds, two elements or more
    intro xc xc1 rest1 ih1 ih2 hp hv teb
    rw [properAnd, Bool.and_eq_true] at hp
    rw [leavesAnd, validLeaves_append] at hv
    obtain ⟨p0, h1, h2⟩ := ih1 hp.1 hv.1 teb
    obtain ⟨p1, h3, h4⟩ := ih2 hp.2 hv.2 ⟨p0⟩
    refine ⟨.andFunc p0 p1, by rw [buildXConds_cons, h1]; simp only [h3], fun tags => ?_⟩
    simp only [TagsExpFunc.call, h2, h4]
    rw [evalAnd_cons tags xc]
    cases evalTerm tags xc <;> rfl
  · -- buildXCond, nested expression
    intro n ocn c ih hp hv teb
    simp only [properTerm] at hp
    simp only [leavesTerm] at hv
    obtain ⟨p, h1, h2⟩ := ih hp hv teb
    cases n with
    | false =>
      refine ⟨p, by rw [buildXCond_expr, h1]; simp, fun tags => ?_⟩
      rw [h2, evalTerm_expr]; simp
    | true =>
      refine ⟨.notFunc p, by rw [buildXCond_expr, h1]; simp, fun tags => ?_⟩
      simp only [TagsExpFunc.call, h2]
      rw [evalTerm_expr]; simp
  · -- buildXCond, leaf condition
    intro n cn _ hv teb
    simp only [leavesTerm] at hv
    obtain ⟨hop, hlike⟩ := hv cn (List.mem_singleton.mpr rfl)
    obtain ⟨p, h1, h2⟩ := buildTagCond_token m teb cn hop hlike
    cases n with
    | false =>
      refine ⟨p, by rw [buildXCond_cond, h1]; simp, fun tags => ?_⟩
      rw [h2, evalTerm_cond]; simp
    | true =>
      refine ⟨.notFunc p, by rw [buildXCond_cond, h1]; simp, fun tags => ?_⟩
      simp only [TagsExpFunc.call, h2]
      rw [evalTerm_cond]; simp
  · -- buildXCond, neither
    intro n hp
    simp [properTerm] at hp

end lql

/-! ## lql: the error returned -/

namespace lql

open model

/-- On a tree of leaf comparisons and nested expressions the three methods
return, and the error they return is the message for the first leaf, in the
order of compilation, whose operator is unsupported; it is nil when there is no
such leaf. -/
theorem build_err (m : GoString → GoString) :
    (∀ ocn, properOr ocn = true → ∀ teb, ∃ teb2,
      buildOrConds m teb ocn =
        some (teb2, ((leavesOr ocn).find? (unsupported m)).map unsupportedMsg)) ∧
    (∀ cn, properAnd cn = true → ∀ teb, ∃ teb2,
      buildXConds m teb cn =
        some (teb2, ((leavesAnd cn).find? (unsupported m)).map unsupportedMsg)) ∧
    (∀ xc, properTerm xc = true → ∀ teb, ∃ teb2,
      buildXCond m teb xc =
        some (teb2, ((leavesTerm xc).find? (unsupported m)).map unsupportedMsg)) := by
  apply tree_induction
  · intro _ teb
    exact ⟨_, rfl⟩
  · intro and0 ih hp teb
    simp only [properOr, Bool.and_true] at hp
    obtain ⟨teb2, h⟩ := ih hp teb
    exact ⟨teb2, by rw [buildOrConds_one, h]; simp [leavesOr]⟩
  · intro and0 oc1 rest1 ih1 ih2 hp teb
    rw [properOr, Bool.and_eq_true] at hp
    obtain ⟨teb1, h1⟩ := ih1 hp.1 teb
    obtain ⟨teb2, h2⟩ := ih2 hp.2 teb1
    rw [buildOrConds_cons, h1, leavesOr, List.find?_append]
    cases List.find? (unsupported m) (leavesAnd and0) with
    | some c => exact ⟨teb1, rfl⟩
    | none =>
      simp only [Option.map_none', h2, Option.none_or]
      cases List.find? (unsupported m) (leavesOr (oc1 :: rest1)) with
      | some c => exact ⟨teb2, rfl⟩
      | none => exact ⟨_, rfl⟩
  · intro _ teb
    exact ⟨_, rfl⟩
  · intro xc ih hp teb
    simp only [properAnd, Bool.and_true] at hp
    obtain ⟨teb2, h⟩ := ih hp teb
    exact ⟨teb2, by rw [buildXConds_one, h]; simp [leavesAnd]⟩
  · intro xc xc1 rest1 ih1 ih2 hp teb
    rw [properAnd, Bool.and_eq_true] at hp
    obtain ⟨teb1, h1⟩ := ih1 hp.1 teb
    obtain ⟨teb2, h2⟩ := ih2 hp.2 teb1
    rw [buildXConds_cons, h1, leavesAnd, List.find?_append]
    cases List.find? (unsupported m) (leavesTerm xc) with
    | some c => exact ⟨teb1, rfl⟩
    | none =>
      simp only [Option.map_none', h2, Option.none_or]
      cases List.find? (unsupported m) (leavesAnd (xc1 :: rest1)) with
      | some c => exact ⟨teb2, rfl⟩
      | none => exact ⟨_, rfl⟩
  · intro n ocn c ih hp teb
    simp only [properTerm] at hp
    obtain ⟨teb1, h1⟩ := ih hp teb
    rw [buildXCond_expr, h1, leavesTerm]
    cases List.find? (unsupported m) (leavesOr ocn) with
    | some c => exact ⟨teb1, rfl⟩
    | none => cases n <;> exact ⟨_, rfl⟩
  · intro n cn _ teb
    have he := buildTagCond_err m teb cn
    rw [buildXCond_cond, leavesTerm]
    rcases hb : buildTagCond m teb cn with ⟨teb1, e⟩
    rw [hb] at he
    simp only at he
    subst he
    by_cases hu : unsupported m cn = true
    · simp only [hu, if_true, List.find?_cons_of_pos, Option.map_some']
      exact ⟨teb1, rfl⟩
    · simp only [hu, if_false, Bool.false_eq_true, List.find?_cons_of_neg, not_false_eq_true,
        List.find?_nil, Option.map_none']
      cases n <;> exact ⟨_, rfl⟩
  · intro n hp
    simp [properTerm] at hp

end lql

/-! ## lql: the function `BuildTagsExpFunc` -/

namespace lql

open model

/-- The order `<` of byte lists is the byte-wise order from the left. -/
theorem bytesLess_iff : ∀ a b : GoString, bytesLess a b = true ↔ a < b
  | [], [] => by simp [bytesLess]
  | a :: as, [] => by simp [bytesLess]
  | [], b :: bs => by
    simp only [bytesLess, true_iff]
    exact List.Lex.nil
  | a :: as, b :: bs => by
    have ih := bytesLess_iff as bs
    simp only [bytesLess, Bool.or_eq_true, Bool.and_eq_true, decide_eq_true_eq, ih]
    constructor
    · rintro (h | ⟨h1, h2⟩)
      · exact List.Lex.rel h
      · subst h1
        exact List.Lex.cons h2
    · intro h
      cases h with
      | rel h => exact Or.inl h
      | cons h => exact Or.inr ⟨rfl, h⟩

/-- The compilation of the expression made of one leaf is the compilation of
the leaf by `buildTagCond`, started on the zero builder. -/
theorem BuildTagsExpFunc_leaf (m : GoString → GoString) (cn : Condition) :
    BuildTagsExpFunc m (some (leafExpr cn)) =
      match buildTagCond m ⟨.nil⟩ cn with
      | (_, some err) => some (.nil, some err)
      | (teb, none) => some (teb.tef, none) := by
  rw [leafExpr, BuildTagsExpFunc_some, buildOrConds_one, buildXConds_one, buildXCond_cond]
  rcases buildTagCond m ⟨.nil⟩ cn with ⟨teb, _ | e⟩ <;> rfl

/-- The expression made of one leaf with an operator token (and a well-formed
pattern under `LIKE`) compiles to a closure that computes the leaf test. -/
theorem BuildTagsExpFunc_leaf_token (m : GoString → GoString) (cn : Condition)
    (hop : cn.Op ∈ opTokens) (hlike : cn.Op = CMP_LIKE → path.wellFormed cn.Value = true) :
    ∃ p, BuildTagsExpFunc m (some (leafExpr cn)) = some (p, none) ∧
      ∀ tags, p.call tags = some (leafTest cn tags) := by
  obtain ⟨p, h1, h2⟩ := buildTagCond_token m ⟨.nil⟩ cn hop hlike
  exact ⟨p, by rw [BuildTagsExpFunc_leaf, h1], h2⟩

/-- Whenever `BuildTagsExpFunc` returns an error, the function it returns with
it is nil. -/
theorem BuildTagsExpFunc_err_nil (m : GoString → GoString) (exp : Option Expression)
    (p : TagsExpFunc) (e : GoString) (h : BuildTagsExpFunc m exp = some (p, some e)) :
    p = TagsExpFunc.nil := by
  cases exp with
  | none => simp [BuildTagsExpFunc] at h
  | some exp =>
    obtain ⟨ocn⟩ := exp
    rw [BuildTagsExpFunc_some] at h
    rcases hb : buildOrConds m ⟨.nil⟩ ocn with _ | ⟨teb, _ | e2⟩ <;> rw [hb] at h
    · simp at h
    · simp at h
    · simp only [Option.some.injEq, Prod.mk.injEq] at h
      exact h.1.symm

end lql


/-! ## The claims -/

namespace lql

open model

/-- C1. For every expression tree in which every `XCondition` carries a nested
expression or a leaf condition, and whose compiled leaves all have one of the
ten operator tokens and, under `LIKE`, a well-formed glob pattern,
`BuildTagsExpFunc` returns a nil error and a predicate `p` such that on every
tag map `p` returns the OR over `exp.Or` of the AND over each `OrCondition.And`
of the term values; a term's value is that of its nested expression if present,
else of its leaf test, negated exactly when `Not` is set; the empty OR-list and
the empty AND-list are true. -/
theorem C1_BuildTagsExpFunc_meaning (m : GoString → GoString) (exp : Expression)
    (hproper : exp.proper = true) (hvalid : validLeaves exp.leaves) :
    ∃ p, BuildTagsExpFunc m (some exp) = some (p, none) ∧
      ∀ tags, p.call tags = some (exp.eval tags) := by
  obtain ⟨ocn⟩ := exp
  obtain ⟨p, h1, h2⟩ := (build_valid m).1 ocn hproper hvalid ⟨.nil⟩
  exact ⟨p, by rw [BuildTagsExpFunc_some, h1], h2⟩

/-- C1, on the scenario `region = "us-east" AND (env = "prod" OR env = "staging")`:
the expression compiles, and its value is true on the tags of `us-east` and
`staging`, false on those of `us-west` and `prod`. -/
theorem C1_BuildTagsExpFunc_meaning_witness :
    regionEnvExpr.proper = true ∧ validLeaves regionEnvExpr.leaves ∧
    (∃ p, BuildTagsExpFunc id (some regionEnvExpr) = some (p, none) ∧
      ∀ tags, p.call tags = some (regionEnvExpr.eval tags)) ∧
    regionEnvExpr.eval tagsEastStaging = true ∧ regionEnvExpr.eval tagsWestProd = false :=
  ⟨by decide, by decide, C1_BuildTagsExpFunc_meaning id regionEnvExpr (by decide) (by decide),
    by decide, by decide⟩

/-- C2. The expression `env LIKE "["` has a leaf whose pattern `path.Match`
rejects with `ErrBadPattern`, yet `BuildTagsExpFunc` returns a nil error, with
the nil function as predicate: `buildTagCond` leaves the builder as it was and
returns nil, and calling the result panics. -/
theorem C2_bad_pattern_returns_nil_error :
    (path.Match (str "[") (str "abc")).2 = path.ErrBadPattern ∧
    buildTagCond id ⟨.nil⟩ ⟨str "env", str "LIKE", str "["⟩ = (⟨.nil⟩, none) ∧
    BuildTagsExpFunc id (some badLikeExpr) = some (.nil, none) ∧
    TagsExpFunc.nil.call [] = none := by
  refine ⟨by decide, by decide, by decide, rfl⟩

/-- C3, as stated, fails: in `a FOO "x" AND b BAR "y"` the second leaf has an
unsupported operator, and the error returned names neither its operator nor its
operand; and a tree with a term that carries neither an expression nor a
condition before such a leaf makes `BuildTagsExpFunc` panic. -/
theorem C3_counterexample :
    unsupported id ⟨str "b", str "BAR", str "y"⟩ = true ∧
    (⟨str "b", str "BAR", str "y"⟩ : Condition) ∈ twoUnsupportedExpr.leaves ∧
    BuildTagsExpFunc id (some twoUnsupportedExpr) =
      some (.nil, some (unsupportedMsg ⟨str "a", str "FOO", str "x"⟩)) ∧
    ¬ (str "BAR" <:+: unsupportedMsg ⟨str "a", str "FOO", str "x"⟩) ∧
    ¬ (str "b" <:+: unsupportedMsg ⟨str "a", str "FOO", str "x"⟩) ∧
    (⟨str "b", str "BAR", str "y"⟩ : Condition) ∈ emptyTermExpr.leaves ∧
    BuildTagsExpFunc id (some emptyTermExpr) = none := by
  refine ⟨by decide, by decide, by decide, by decide, by decide, by decide, by decide⟩

/-- C3, amended. For every expression tree in which every `XCondition` carries
a nested expression or a leaf condition, and which has a compiled leaf whose
operator, put in upper case, is none of the ten tokens, `BuildTagsExpFunc`
returns the nil predicate and a non-nil error: the error of the first such leaf
`c` in the order of compilation, whose message holds the operator of `c` as
written and the operand of `c`. -/
theorem C3_unsupported_operator_error (m : GoString → GoString) (exp : Expression)
    (c0 : Condition) (hproper : exp.proper = true) (hmem : c0 ∈ exp.leaves)
    (hbad : unsupported m c0 = true) :
    ∃ c, exp.leaves.find? (unsupported m) = some c ∧ c ∈ exp.leaves ∧
      unsupported m c = true ∧
      BuildTagsExpFunc m (some exp) = some (.nil, some (unsupportedMsg c)) ∧
      c.Op <:+: unsupportedMsg c ∧ c.Operand <:+: unsupportedMsg c := by
  obtain ⟨ocn⟩ := exp
  simp only [Expression.leaves] at hmem ⊢
  cases hf : (leavesOr ocn).find? (unsupported m) with
  | none =>
    have := List.find?_eq_none.mp hf c0 hmem
    exact absurd hbad this
  | some c =>
    obtain ⟨teb2, h⟩ := (build_err m).1 ocn hproper ⟨.nil⟩
    rw [hf] at h
    refine ⟨c, rfl, List.mem_of_find?_eq_some hf, List.find?_some hf, ?_, ?_, ?_⟩
    · rw [BuildTagsExpFunc_some, h]; rfl
    · exact ⟨str "Unsupported operation ", str " for " ++ [39] ++ c.Operand ++ [39] ++ str " tag ",
        by simp [unsupportedMsg]⟩
    · exact ⟨str "Unsupported operation " ++ c.Op ++ str " for " ++ [39], [39] ++ str " tag ",
        by simp [unsupportedMsg]⟩

/-- C3 amended, on `a FOO "x" AND b BAR "y"`: the error is that of the first
leaf. -/
theorem C3_unsupported_operator_error_witness :
    twoUnsupportedExpr.proper = true ∧
    (⟨str "b", str "BAR", str "y"⟩ : Condition) ∈ twoUnsupportedExpr.leaves ∧
    unsupported id ⟨str "b", str "BAR", str "y"⟩ = true ∧
    ∃ c, twoUnsupportedExpr.leaves.find? (unsupported id) = some c ∧
      c ∈ twoUnsupportedExpr.leaves ∧ unsupported id c = true ∧
      BuildTagsExpFunc id (some twoUnsupportedExpr) = some (.nil, some (unsupportedMsg c)) ∧
      c.Op <:+: unsupportedMsg c ∧ c.Operand <:+: unsupportedMsg c :=
  ⟨by decide, by decide, by decide,
    C3_unsupported_operator_error id twoUnsupportedExpr ⟨str "b", str "BAR", str "y"⟩
      (by decide) (by decide) (by decide)⟩

/-- C4. In `region = "us-east" AND env LIKE "["` the second leaf has a pattern
that `path.Match` rejects, yet the compilation is not aborted: `BuildTagsExpFunc`
returns a nil error and a predicate made of the first leaf taken twice. -/
theorem C4_bad_pattern_partial_predicate :
    (path.Match (str "[") (str "abc")).2 = path.ErrBadPattern ∧
    BuildTagsExpFunc id (some eqAndBadLikeExpr) =
      some (.andFunc (.eqFunc ⟨str "region", str "=", str "us-east"⟩)
        (.eqFunc ⟨str "region", str "=", str "us-east"⟩), none) := by
  refine ⟨by decide, by decide⟩

/-- C5. For the nil expression and for the expression with an empty OR-list,
`BuildTagsExpFunc` returns a nil error and the predicate `positiveTagsExpFunc`,
which returns true on every tag map, the empty one included. -/
theorem C5_empty_expression_matches_all (m : GoString → GoString) :
    BuildTagsExpFunc m none = some (.positive, none) ∧
    BuildTagsExpFunc m (some (Expression.mk [])) = some (.positive, none) ∧
    (∀ tags : TagMap, TagsExpFunc.positive.call tags = some true) ∧
    TagsExpFunc.positive.call [] = some true :=
  ⟨rfl, rfl, fun _ => rfl, rfl⟩

end lql

namespace lql

open model

/-- C6. For each of the six operators `<`, `>`, `<=`, `>=`, `!=`, `=` and for
every operand, value `val` and tag map, the leaf compiles without error to a
predicate that returns the byte-wise comparison of `v` with `val`, where `v` is
the value of the operand in the tag map, the empty string if the key is absent.
No number is read from the strings: `"100" < "20"` holds. -/
theorem C6_comparison_operators (m : GoString → GoString) (operand val : GoString)
    (tags : TagMap) :
    (∃ p, BuildTagsExpFunc m (some (leafExpr ⟨operand, str "<", val⟩)) = some (p, none) ∧
      p.call tags = some (bytesLess ((tags.lookup operand).getD []) val)) ∧
    (∃ p, BuildTagsExpFunc m (some (leafExpr ⟨operand, str ">", val⟩)) = some (p, none) ∧
      p.call tags = some (bytesLess val ((tags.lookup operand).getD []))) ∧
    (∃ p, BuildTagsExpFunc m (some (leafExpr ⟨operand, str "<=", val⟩)) = some (p, none) ∧
      p.call tags = some (!bytesLess val ((tags.lookup operand).getD []))) ∧
    (∃ p, BuildTagsExpFunc m (some (leafExpr ⟨operand, str ">=", val⟩)) = some (p, none) ∧
      p.call tags = some (!bytesLess ((tags.lookup operand).getD []) val)) ∧
    (∃ p, BuildTagsExpFunc m (some (leafExpr ⟨operand, str "!=", val⟩)) = some (p, none) ∧
      p.call tags = some (decide ((tags.lookup operand).getD [] ≠ val))) ∧
    (∃ p, BuildTagsExpFunc m (some (leafExpr ⟨operand, str "=", val⟩)) = some (p, none) ∧
      p.call tags = some (decide ((tags.lookup operand).getD [] = val))) ∧
    bytesLess (str "100") (str "20") = true ∧
    (TagsExpFunc.ltFunc ⟨str "n", str "<", str "20"⟩).call [(str "n", str "100")] =
      some true := by
  have key : ∀ op, op ∈ opTokens → op ≠ CMP_LIKE →
      ∃ p, BuildTagsExpFunc m (some (leafExpr ⟨operand, op, val⟩)) = some (p, none) ∧
        p.call tags = some (leafTest ⟨operand, op, val⟩ tags) := fun op h1 h2 => by
    obtain ⟨p, h3, h4⟩ := BuildTagsExpFunc_leaf_token m ⟨operand, op, val⟩ h1
      (fun h => absurd h h2)
    exact ⟨p, h3, h4 tags⟩
  have hlt : ∀ a b : GoString, decide (a < b) = bytesLess a b := fun a b => by
    rw [Bool.eq_iff_iff, decide_eq_true_eq, bytesLess_iff]
  have hle : ∀ a b : GoString, decide (a ≤ b) = !bytesLess b a := fun a b => by
    rw [← hlt, ← decide_not, Bool.eq_iff_iff, decide_eq_true_eq, decide_eq_true_eq, not_lt]
  refine ⟨?_, ?_, ?_, ?_, ?_, ?_, by decide, by decide⟩
  · obtain ⟨p, h1, h2⟩ := key (str "<") (by decide) (by decide)
    refine ⟨p, h1, ?_⟩
    rw [h2, ← hlt]
    simp [leafTest, TagMap.index]
  · obtain ⟨p, h1, h2⟩ := key (str ">") (by decide) (by decide)
    refine ⟨p, h1, ?_⟩
    rw [h2, ← hlt]
    simp [leafTest, TagMap.index, str_lt, str_gt]
  · obtain ⟨p, h1, h2⟩ := key (str "<=") (by decide) (by decide)
    refine ⟨p, h1, ?_⟩
    rw [h2, ← hle]
    simp [leafTest, TagMap.index, str_lt, str_gt, str_le]
  · obtain ⟨p, h1, h2⟩ := key (str ">=") (by decide) (by decide)
    refine ⟨p, h1, ?_⟩
    rw [h2, ← hle]
    simp [leafTest, TagMap.index, str_lt, str_gt, str_le, str_ge]
  · obtain ⟨p, h1, h2⟩ := key (str "!=") (by decide) (by decide)
    refine ⟨p, h1, ?_⟩
    rw [h2]
    simp [leafTest, TagMap.index, str_lt, str_gt, str_le, str_ge, str_ne]
  · obtain ⟨p, h1, h2⟩ := key (str "=") (by decide) (by decide)
    refine ⟨p, h1, ?_⟩
    rw [h2]
    simp [leafTest, TagMap.index, str_lt, str_gt, str_le, str_ge, str_ne, str_eq]

/-- C7, as stated, fails: on the empty tag map, which lacks the key `k`, the
leaves `k CONTAINS ""`, `k HAS_PREFIX ""` and `k HAS_SUFFIX ""` compile to
predicates that return true. -/
theorem C7_counterexample :
    List.lookup (str "k") ([] : TagMap) = none ∧
    BuildTagsExpFunc id (some (leafExpr ⟨str "k", CMP_CONTAINS, []⟩)) =
      some (.containsFunc ⟨str "k", CMP_CONTAINS, []⟩, none) ∧
    (TagsExpFunc.containsFunc ⟨str "k", CMP_CONTAINS, []⟩).call [] = some true ∧
    BuildTagsExpFunc id (some (leafExpr ⟨str "k", CMP_HAS_PREFIX, []⟩)) =
      some (.hasPrefixFunc ⟨str "k", CMP_HAS_PREFIX, []⟩, none) ∧
    (TagsExpFunc.hasPrefixFunc ⟨str "k", CMP_HAS_PREFIX, []⟩).call [] = some true ∧
    BuildTagsExpFunc id (some (leafExpr ⟨str "k", CMP_HAS_SUFFIX, []⟩)) =
      some (.hasSuffixFunc ⟨str "k", CMP_HAS_SUFFIX, []⟩, none) ∧
    (TagsExpFunc.hasSuffixFunc ⟨str "k", CMP_HAS_SUFFIX, []⟩).call [] = some true := by
  refine ⟨by decide, by decide, by decide, by decide, by decide, by decide, by decide⟩

/-- C7, amended. For each of the operators `CONTAINS`, `HAS_PREFIX` and
`HAS_SUFFIX`, for every operand, every value `val` and every tag map that lacks
the operand key, the leaf compiles without error to a predicate that returns
false when `val` is not empty and true when `val` is the empty string: the
absent key is read as the empty string. -/
theorem C7_absent_key_membership (m : GoString → GoString) (operand val : GoString)
    (tags : TagMap) (habsent : tags.lookup operand = none) :
    (∃ p, BuildTagsExpFunc m (some (leafExpr ⟨operand, CMP_CONTAINS, val⟩)) = some (p, none) ∧
      p.call tags = some (decide (val = []))) ∧
    (∃ p, BuildTagsExpFunc m (some (leafExpr ⟨operand, CMP_HAS_PREFIX, val⟩)) = some (p, none) ∧
      p.call tags = some (decide (val = []))) ∧
    (∃ p, BuildTagsExpFunc m (some (leafExpr ⟨operand, CMP_HAS_SUFFIX, val⟩)) = some (p, none) ∧
      p.call tags = some (decide (val = []))) := by
  have key : ∀ op, op ∈ opTokens → op ≠ CMP_LIKE →
      ∃ p, BuildTagsExpFunc m (some (leafExpr ⟨operand, op, val⟩)) = some (p, none) ∧
        p.call tags = some (leafTest ⟨operand, op, val⟩ tags) := fun op h1 h2 => by
    obtain ⟨p, h3, h4⟩ := BuildTagsExpFunc_leaf_token m ⟨operand, op, val⟩ h1
      (fun h => absurd h h2)
    exact ⟨p, h3, h4 tags⟩
  have hv : tags.index operand = [] := by simp [TagMap.index, habsent]
  refine ⟨?_, ?_, ?_⟩
  · obtain ⟨p, h1, h2⟩ := key CMP_CONTAINS (by decide) (by decide)
    refine ⟨p, h1, ?_⟩
    rw [h2]
    simp [leafTest, hv, str_lt, str_gt, str_le, str_ge, str_ne, str_eq, CMP_LIKE_eq,
      CMP_CONTAINS_eq]
  · obtain ⟨p, h1, h2⟩ := key CMP_HAS_PREFIX (by decide) (by decide)
    refine ⟨p, h1, ?_⟩
    rw [h2]
    simp [leafTest, hv, str_lt, str_gt, str_le, str_ge, str_ne, str_eq, CMP_LIKE_eq,
      CMP_CONTAINS_eq, CMP_HAS_PREFIX_eq]
  · obtain ⟨p, h1, h2⟩ := key CMP_HAS_SUFFIX (by decide) (by decide)
    refine ⟨p, h1, ?_⟩
    rw [h2]
    simp [leafTest, hv, str_lt, str_gt, str_le, str_ge, str_ne, str_eq, CMP_LIKE_eq,
      CMP_CONTAINS_eq, CMP_HAS_PREFIX_eq, CMP_HAS_SUFFIX_eq]

/-- C7 amended, on the tag map that holds only `env`, for the operand `name`
and the value `tmp`. -/
theorem C7_absent_key_membership_witness :
    List.lookup (str "name") [(str "env", str "prod")] = none ∧
    (∃ p, BuildTagsExpFunc id (some (leafExpr ⟨str "name", CMP_CONTAINS, str "tmp"⟩)) =
        some (p, none) ∧
      p.call [(str "env", str "prod")] = some (decide (str "tmp" = []))) ∧
    (∃ p, BuildTagsExpFunc id (some (leafExpr ⟨str "name", CMP_HAS_PREFIX, str "tmp"⟩)) =
        some (p, none) ∧
      p.call [(str "env", str "prod")] = some (decide (str "tmp" = []))) ∧
    (∃ p, BuildTagsExpFunc id (some (leafExpr ⟨str "name", CMP_HAS_SUFFIX, str "tmp"⟩)) =
        some (p, none) ∧
      p.call [(str "env", str "prod")] = some (decide (str "tmp" = []))) :=
  ⟨by decide, C7_absent_key_membership id (str "name") (str "tmp") [(str "env", str "prod")]
    (by decide)⟩

end lql

namespace lql

open model

/-- C9. For every pattern `val` on which the probe `path.Match(val, "abc")` of
the `LIKE` case reported no error, the call `path.Match(val, v)` made when the
predicate is evaluated reports no error, whatever the tag value `v`: the error
dropped in the predicate is always nil, and the predicate returns a result, the
result of the match, without a panic. -/
theorem C9_like_evaluation_has_no_error (val v : GoString)
    (hprobe : (path.Match val (str "abc")).2 = none) :
    (path.Match val v).2 = none ∧
    ∀ (operand op : GoString) (tags : TagMap), tags.lookup operand = some v →
      (TagsExpFunc.likeFunc ⟨operand, op, val⟩).call tags = some (path.Match val v).1 := by
  refine ⟨by rw [path.Match_err_indep val v (str "abc")]; exact hprobe, ?_⟩
  intro operand op tags hv
  simp [TagsExpFunc.call, hv]

/-- C9, on the pattern `ab*` and the tag value `x/y`. -/
theorem C9_like_evaluation_has_no_error_witness :
    (path.Match (str "ab*") (str "abc")).2 = none ∧
    (path.Match (str "ab*") (str "x/y")).2 = none ∧
    ∀ (operand op : GoString) (tags : TagMap), tags.lookup operand = some (str "x/y") →
      (TagsExpFunc.likeFunc ⟨operand, op, str "ab*"⟩).call tags =
        some (path.Match (str "ab*") (str "x/y")).1 :=
  ⟨by decide, C9_like_evaluation_has_no_error (str "ab*") (str "x/y") (by decide)⟩

/-- C10. For every `XCondition`, leaf or nested expression, that `buildXCond`
compiles without error with `Not` false, leaving the predicate `p` in the
builder, the same term with `Not` true compiles without error and leaves the
predicate `!p(tags)`: the negation wraps the whole compiled term and is not
moved into it; on every tag map the new predicate returns the negation of what
`p` returns (and panics when `p` does). -/
theorem C10_not_wraps_the_term (m : GoString → GoString) (teb teb2 : tagsExpFuncBuilder)
    (expr : Option Expression) (cond : Option Condition)
    (h : buildXCond m teb (XCondition.mk false expr cond) = some (teb2, none)) :
    buildXCond m teb (XCondition.mk true expr cond) = some (⟨.notFunc teb2.tef⟩, none) ∧
    ∀ tags, (TagsExpFunc.notFunc teb2.tef).call tags =
      (teb2.tef.call tags).map (fun b => !b) := by
  constructor
  · cases expr with
    | some e =>
      obtain ⟨ocn⟩ := e
      rw [buildXCond_expr] at h ⊢
      rcases hb : buildOrConds m teb ocn with _ | ⟨teb3, _ | e3⟩ <;> rw [hb] at h
      · simp at h
      · simp only [Bool.false_eq_true, if_false, Option.some.injEq, Prod.mk.injEq,
          and_true] at h
        subst h
        rfl
      · simp at h
    | none =>
      cases cond with
      | none => rw [buildXCond_nil] at h; simp at h
      | some cn =>
        rw [buildXCond_cond] at h ⊢
        rcases hb : buildTagCond m teb cn with ⟨teb3, _ | e3⟩ <;> rw [hb] at h
        · simp only [Bool.false_eq_true, if_false, Option.some.injEq, Prod.mk.injEq,
            and_true] at h
          subst h
          rfl
        · simp at h
  · intro tags
    simp only [TagsExpFunc.call]
    cases teb2.tef.call tags <;> rfl

/-- C10, on the leaf `region = "us-east"`. -/
theorem C10_not_wraps_the_term_witness :
    buildXCond id ⟨.nil⟩ (XCondition.mk false none (some ⟨str "region", str "=", str "us-east"⟩))
      = some (⟨.eqFunc ⟨str "region", str "=", str "us-east"⟩⟩, none) ∧
    buildXCond id ⟨.nil⟩ (XCondition.mk true none (some ⟨str "region", str "=", str "us-east"⟩))
      = some (⟨.notFunc (.eqFunc ⟨str "region", str "=", str "us-east"⟩)⟩, none) ∧
    ∀ tags, (TagsExpFunc.notFunc (.eqFunc ⟨str "region", str "=", str "us-east"⟩)).call tags =
      ((TagsExpFunc.eqFunc ⟨str "region", str "=", str "us-east"⟩).call tags).map
        (fun b => !b) :=
  ⟨by decide, C10_not_wraps_the_term id ⟨.nil⟩ ⟨.eqFunc ⟨str "region", str "=", str "us-east"⟩⟩
    none (some ⟨str "region", str "=", str "us-east"⟩) (by decide)⟩

end lql

namespace lql

open model

/-- C11. The expression `NOT (name HAS_PREFIX "tmp_")`, a negated nested
expression whose single leaf has operand `name`, operator token `HAS_PREFIX` and
value `tmp_`, compiles without error, and the predicate returns false on the
tags with `name` at `tmp_file` and true on the tags with `name` at `data`. -/
theorem C11_not_has_prefix_scenario (m : GoString → GoString) :
    BuildTagsExpFunc m (some notTmpPrefixExpr) =
      some (.notFunc (.hasPrefixFunc ⟨str "name", str "HAS_PREFIX", str "tmp_"⟩), none) ∧
    (TagsExpFunc.notFunc (.hasPrefixFunc ⟨str "name", str "HAS_PREFIX", str "tmp_"⟩)).call
      [(str "name", str "tmp_file")] = some false ∧
    (TagsExpFunc.notFunc (.hasPrefixFunc ⟨str "name", str "HAS_PREFIX", str "tmp_"⟩)).call
      [(str "name", str "data")] = some true :=
  ⟨rfl, by decide, by decide⟩

end lql

namespace utils

/-- C16. `GetInt64Val(ptr, defVal)` returns the value pointed to when `ptr` is
not nil and `defVal` when it is nil, for every value and every default, and
`GetStringVal` does the same for strings; a pointer to zero or to the empty
string gives that value, not the default. -/
theorem C16_pointer_value_or_default (v d : Int) (s ds : GoString) :
    GetInt64Val (some v) d = v ∧ GetInt64Val none d = d ∧
    GetStringVal (some s) ds = s ∧ GetStringVal none ds = ds ∧
    GetInt64Val (some 0) d = 0 ∧ GetStringVal (some []) ds = [] :=
  ⟨rfl, rfl, rfl, rfl, rfl, rfl⟩

end utils

namespace lql

open model

/-- The OR over a list that holds an `OrCondition` with an empty `And` list is
true. -/
theorem evalOr_of_mem_empty (tags : TagMap) : ∀ ocn : List OrCondition,
    OrCondition.mk [] ∈ ocn → evalOr tags ocn = true
  | [], h => by simp at h
  | OrCondition.mk and0 :: rest, h => by
    rw [evalOr_cons]
    rcases List.mem_cons.mp h with h | h
    · have h2 : and0 = [] := by
        have := congrArg (fun oc => match oc with | OrCondition.mk a => a) h
        simpa using this.symm
      subst h2
      rfl
    · rw [evalOr_of_mem_empty tags rest h]
      simp

/-- C14. An empty sequence compiles to "match everything" at its level.  The
empty `And` list compiles to the always-true predicate, so every expression tree
whose `Or` list holds an `OrCondition` with an empty `And` list, and whose
leaves are valid, compiles without error to a predicate that is true on every
tag map.  A nested expression with an empty `Or` list compiles to the
always-true predicate, and to the always-false one when its `XCondition` is
negated. -/
theorem C14_empty_sequence_matches_all (m : GoString → GoString) (exp : Expression)
    (hproper : exp.proper = true) (hvalid : validLeaves exp.leaves)
    (hmem : OrCondition.mk [] ∈ exp.Or) :
    (∀ teb, buildXConds m teb [] = some (⟨.positive⟩, none)) ∧
    (∀ teb, buildOrConds m teb [OrCondition.mk []] = some (⟨.positive⟩, none)) ∧
    (∃ p, BuildTagsExpFunc m (some exp) = some (p, none) ∧
      ∀ tags, p.call tags = some true) ∧
    (∀ teb c, buildXCond m teb (XCondition.mk false (some (Expression.mk [])) c) =
      some (⟨.positive⟩, none)) ∧
    (∀ teb c, buildXCond m teb (XCondition.mk true (some (Expression.mk [])) c) =
      some (⟨.notFunc .positive⟩, none)) ∧
    (∀ tags : TagMap, TagsExpFunc.positive.call tags = some true ∧
      (TagsExpFunc.notFunc .positive).call tags = some false) := by
  refine ⟨fun _ => rfl, fun _ => rfl, ?_, fun _ _ => rfl, fun _ _ => rfl, fun _ => ⟨rfl, rfl⟩⟩
  obtain ⟨ocn⟩ := exp
  obtain ⟨p, h1, h2⟩ := (build_valid m).1 ocn hproper hvalid ⟨.nil⟩
  refine ⟨p, by rw [BuildTagsExpFunc_some, h1], fun tags => ?_⟩
  rw [h2]
  simp only [Expression.Or] at hmem
  cases ocn with
  | nil => simp at hmem
  | cons oc rest =>
    simp only [Expression.eval]
    rw [evalOr_of_mem_empty tags _ hmem]

/-- C14, on `region = "us-east" OR <nothing>`. -/
theorem C14_empty_sequence_matches_all_witness :
    regionOrEmptyExpr.proper = true ∧ validLeaves regionOrEmptyExpr.leaves ∧
    OrCondition.mk [] ∈ regionOrEmptyExpr.Or ∧
    (∀ teb, buildXConds id teb [] = some (⟨.positive⟩, none)) ∧
    (∀ teb, buildOrConds id teb [OrCondition.mk []] = some (⟨.positive⟩, none)) ∧
    (∃ p, BuildTagsExpFunc id (some regionOrEmptyExpr) = some (p, none) ∧
      ∀ tags, p.call tags = some true) ∧
    (∀ teb c, buildXCond id teb (XCondition.mk false (some (Expression.mk [])) c) =
      some (⟨.positive⟩, none)) ∧
    (∀ teb c, buildXCond id teb (XCondition.mk true (some (Expression.mk [])) c) =
      some (⟨.notFunc .positive⟩, none)) ∧
    (∀ tags : TagMap, TagsExpFunc.positive.call tags = some true ∧
      (TagsExpFunc.notFunc .positive).call tags = some false) :=
  ⟨by decide, by decide, List.mem_cons_of_mem _ (List.mem_singleton.mpr rfl),
    C14_empty_sequence_matches_all id regionOrEmptyExpr (by decide) (by decide)
      (List.mem_cons_of_mem _ (List.mem_singleton.mpr rfl))⟩

/-- C15, as stated, fails: on the tree made of one term that has neither a
nested expression nor a leaf condition, `BuildTagsExpFunc` panics on the nil
pointer `xc.Cond`, whatever the `Not` flag. -/
theorem C15_counterexample :
    BuildTagsExpFunc id (some neitherExpr) = none ∧
    BuildTagsExpFunc id
      (some (Expression.mk [OrCondition.mk [XCondition.mk true none none]])) = none :=
  ⟨rfl, rfl⟩

/-- C15, amended. For the nil expression and for every expression tree whose
lists hold no nil element and in which every `XCondition` carries a nested
expression or a leaf condition, whatever the `Not` flags and the lengths of the
lists, `BuildTagsExpFunc` returns its two results, without a panic; and when a
compiled leaf has an operator that is not recognised, the error returned is not
nil and the predicate returned is nil: an unrecognised operator is a compile
error. -/
theorem C15_compilation_returns (m : GoString → GoString) (exp : Expression)
    (hproper : exp.proper = true) :
    BuildTagsExpFunc m none = some (.positive, none) ∧
    ∃ p err, BuildTagsExpFunc m (some exp) = some (p, err) ∧
      ((∃ c ∈ exp.leaves, unsupported m c = true) → err ≠ none ∧ p = .nil) := by
  refine ⟨rfl, ?_⟩
  obtain ⟨ocn⟩ := exp
  obtain ⟨teb2, h⟩ := (build_err m).1 ocn hproper ⟨.nil⟩
  simp only [Expression.leaves]
  rw [BuildTagsExpFunc_some, h]
  cases hf : (leavesOr ocn).find? (unsupported m) with
  | none =>
    refine ⟨teb2.tef, none, rfl, ?_⟩
    rintro ⟨c, hc, hu⟩
    exact absurd hu (List.find?_eq_none.mp hf c hc)
  | some c =>
    exact ⟨.nil, some (unsupportedMsg c), rfl, fun _ => ⟨by simp, rfl⟩⟩

/-- C15 amended, on `a FOO "x" AND b BAR "y"`, which returns the nil predicate
and the error of its first leaf, and on
`region = "us-east" AND (env = "prod" OR env = "staging")`, which has no leaf
with an unrecognised operator. -/
theorem C15_compilation_returns_witness :
    twoUnsupportedExpr.proper = true ∧
    (BuildTagsExpFunc id none = some (.positive, none) ∧
      ∃ p err, BuildTagsExpFunc id (some twoUnsupportedExpr) = some (p, err) ∧
        ((∃ c ∈ twoUnsupportedExpr.leaves, unsupported id c = true) → err ≠ none ∧ p = .nil)) ∧
    (∃ c ∈ twoUnsupportedExpr.leaves, unsupported id c = true) ∧
    BuildTagsExpFunc id (some twoUnsupportedExpr) =
      some (.nil, some (unsupportedMsg ⟨str "a", str "FOO", str "x"⟩)) ∧
    regionEnvExpr.proper = true ∧
    (∃ p err, BuildTagsExpFunc id (some regionEnvExpr) = some (p, err) ∧
        ((∃ c ∈ regionEnvExpr.leaves, unsupported id c = true) → err ≠ none ∧ p = .nil)) :=
  ⟨by decide, C15_compilation_returns id twoUnsupportedExpr (by decide),
    ⟨⟨str "a", str "FOO", str "x"⟩, by decide, by decide⟩, by decide, by decide,
    (C15_compilation_returns id regionEnvExpr (by decide)).2⟩

/-- C17. The predicate that `buildTagCond` leaves in the builder depends on what
the builder held before: on the leaf `env LIKE "["`, whose pattern `path.Match`
rejects, the method returns a nil error and leaves `tef` as it was, be it nil,
`positiveTagsExpFunc` or the closure of another leaf; it does not overwrite
`tef` with a predicate of its own condition.  So does `buildXConds` on the list
made of that leaf. -/
theorem C17_builder_state_leaks :
    (path.Match (str "[") (str "abc")).2 = path.ErrBadPattern ∧
    buildTagCond id ⟨.nil⟩ ⟨str "env", str "LIKE", str "["⟩ = (⟨.nil⟩, none) ∧
    buildTagCond id ⟨.positive⟩ ⟨str "env", str "LIKE", str "["⟩ = (⟨.positive⟩, none) ∧
    buildTagCond id ⟨.eqFunc ⟨str "region", str "=", str "us-east"⟩⟩
      ⟨str "env", str "LIKE", str "["⟩ =
      (⟨.eqFunc ⟨str "region", str "=", str "us-east"⟩⟩, none) ∧
    buildXConds id ⟨.nil⟩ [leafTerm false "env" "LIKE" "["] = some (⟨.nil⟩, none) ∧
    buildXConds id ⟨.positive⟩ [leafTerm false "env" "LIKE" "["] = some (⟨.positive⟩, none) := by
  refine ⟨by decide, by decide, by decide, by decide, by decide, by decide⟩

/-- C18. There are expressions for which `BuildTagsExpFunc` returns a nil error
with a predicate that is nil or cannot be applied: for `env LIKE "["` the result
is the nil predicate with the nil error, and for `NOT env LIKE "["` the result
is the closure `!efd1(tags)` over the nil function, whose call panics on every
tag map. -/
theorem C18_nil_predicate_nil_error :
    BuildTagsExpFunc id (some badLikeExpr) = some (.nil, none) ∧
    BuildTagsExpFunc id (some notBadLikeExpr) = some (.notFunc .nil, none) ∧
    ∀ tags : TagMap, TagsExpFunc.nil.call tags = none ∧
      (TagsExpFunc.notFunc .nil).call tags = none := by
  refine ⟨by decide, by decide, fun _ => ⟨rfl, rfl⟩⟩

end lql

/-! ## lql: what the builder held before the call -/

namespace lql

open model

theorem goodPatterns_append (m : GoString → GoString) (l1 l2 : List Condition) :
    goodPatterns m (l1 ++ l2) ↔ goodPatterns m l1 ∧ goodPatterns m l2 := by
  simp only [goodPatterns, List.mem_append]
  constructor
  · intro h
    exact ⟨fun cn hc => h cn (Or.inl hc), fun cn hc => h cn (Or.inr hc)⟩
  · rintro ⟨h1, h2⟩ cn (hc | hc)
    · exact h1 cn hc
    · exact h2 cn hc

/-- On a leaf whose pattern is well-formed when its operator is `LIKE`, what
`buildTagCond` returns does not depend on the builder, but for the builder it
hands back with the error of an unsupported operator. -/
theorem buildTagCond_indep (m : GoString → GoString) (teb teb2 : tagsExpFuncBuilder)
    (cn : Condition)
    (h : strings.ToUpper m cn.Op = CMP_LIKE → path.wellFormed cn.Value = true) :
    buildTagCond m teb cn = buildTagCond m teb2 cn ∨
      ∃ e, buildTagCond m teb cn = (teb, some e) ∧ buildTagCond m teb2 cn = (teb2, some e) := by
  by_cases hl : strings.ToUpper m cn.Op = CMP_LIKE
  · have hp := (path.Match_err_eq_none_iff cn.Value (str "abc")).mpr (h hl)
    left
    simp only [buildTagCond, hl, hp]
    simp [str_lt, str_gt, str_le, str_ge, str_ne, str_eq, CMP_LIKE_eq]
  · simp only [buildTagCond, hl, if_false]
    by_cases h0 : strings.ToUpper m cn.Op = str "<"
    · left; rw [if_pos h0, if_pos h0]
    rw [if_neg h0, if_neg h0]
    by_cases h1 : strings.ToUpper m cn.Op = str ">"
    · left; rw [if_pos h1, if_pos h1]
    rw [if_neg h1, if_neg h1]
    by_cases h2 : strings.ToUpper m cn.Op = str "<="
    · left; rw [if_pos h2, if_pos h2]
    rw [if_neg h2, if_neg h2]
    by_cases h3 : strings.ToUpper m cn.Op = str ">="
    · left; rw [if_pos h3, if_pos h3]
    rw [if_neg h3, if_neg h3]
    by_cases h4 : strings.ToUpper m cn.Op = str "!="
    · left; rw [if_pos h4, if_pos h4]
    rw [if_neg h4, if_neg h4]
    by_cases h5 : strings.ToUpper m cn.Op = str "="
    · left; rw [if_pos h5, if_pos h5]
    rw [if_neg h5, if_neg h5]
    by_cases h6 : strings.ToUpper m cn.Op = CMP_CONTAINS
    · left; rw [if_pos h6, if_pos h6]
    rw [if_neg h6, if_neg h6]
    by_cases h7 : strings.ToUpper m cn.Op = CMP_HAS_PREFIX
    · left; rw [if_pos h7, if_pos h7]
    rw [if_neg h7, if_neg h7]
    by_cases h8 : strings.ToUpper m cn.Op = CMP_HAS_SUFFIX
    · left; rw [if_pos h8, if_pos h8]
    rw [if_neg h8, if_neg h8]
    exact Or.inr ⟨_, rfl, rfl⟩

/-- On a tree in which every `LIKE` leaf has a well-formed pattern, the results
of the three methods do not depend on what the builder held before the call:
started on two builders they return the same error, or they both succeed and
leave the same predicate. -/
theorem build_indep (m : GoString → GoString) :
    (∀ ocn, goodPatterns m (leavesOr ocn) → ∀ teb teb2,
      sameOutcome (buildOrConds m teb ocn) (buildOrConds m teb2 ocn)) ∧
    (∀ cn, goodPatterns m (leavesAnd cn) → ∀ teb teb2,
      sameOutcome (buildXConds m teb cn) (buildXConds m teb2 cn)) ∧
    (∀ xc, goodPatterns m (leavesTerm xc) → ∀ teb teb2,
      sameOutcome (buildXCond m teb xc) (buildXCond m teb2 xc)) := by
  apply tree_induction
  · intro _ teb teb2
    exact Or.inl rfl
  · intro and0 ih hg teb teb2
    simp only [leavesOr, List.append_nil] at hg
    simpa only [buildOrConds_one] using ih hg teb teb2
  · intro and0 oc1 rest1 ih1 _ hg teb teb2
    rw [leavesOr, goodPatterns_append] at hg
    rw [buildOrConds_cons, buildOrConds_cons]
    rcases ih1 hg.1 teb teb2 with h | ⟨t, t2, e, h1, h2⟩
    · rw [h]; exact Or.inl rfl
    · rw [h1, h2]; exact Or.inr ⟨t, t2, e, rfl, rfl⟩
  · intro _ teb teb2
    exact Or.inl rfl
  · intro xc ih hg teb teb2
    simp only [leavesAnd, List.append_nil] at hg
    simpa only [buildXConds_one] using ih hg teb teb2
  · intro xc xc1 rest1 ih1 _ hg teb teb2
    rw [leavesAnd, goodPatterns_append] at hg
    rw [buildXConds_cons, buildXConds_cons]
    rcases ih1 hg.1 teb teb2 with h | ⟨t, t2, e, h1, h2⟩
    · rw [h]; exact Or.inl rfl
    · rw [h1, h2]; exact Or.inr ⟨t, t2, e, rfl, rfl⟩
  · intro n ocn c ih hg teb teb2
    simp only [leavesTerm] at hg
    rw [buildXCond_expr, buildXCond_expr]
    rcases ih hg teb teb2 with h | ⟨t, t2, e, h1, h2⟩
    · rw [h]; exact Or.inl rfl
    · rw [h1, h2]; exact Or.inr ⟨t, t2, e, rfl, rfl⟩
  · intro n cn hg teb teb2
    simp only [leavesTerm] at hg
    rw [buildXCond_cond, buildXCond_cond]
    rcases buildTagCond_indep m teb teb2 cn (hg cn (List.mem_singleton.mpr rfl)) with
      h | ⟨e, h1, h2⟩
    · rw [h]; exact Or.inl rfl
    · rw [h1, h2]; exact Or.inr ⟨teb, teb2, e, rfl, rfl⟩
  · intro n _ teb teb2
    exact Or.inl rfl

end lql

/-! ## lql: the order of evaluation -/

namespace lql

open model

/-- The instrumented call returns the result of the call. -/
theorem callTrace_fst (tags : TagMap) : ∀ f : TagsExpFunc, (f.callTrace tags).1 = f.call tags
  | .nil => rfl
  | .positive => rfl
  | .orFunc efd0 efd1 => by
    have h0 := callTrace_fst tags efd0
    have h1 := callTrace_fst tags efd1
    simp only [TagsExpFunc.callTrace, TagsExpFunc.call, ← h0, ← h1]
    rcases efd0.callTrace tags with ⟨_ | _ | _, rec0⟩ <;> rfl
  | .andFunc efd0 efd1 => by
    have h0 := callTrace_fst tags efd0
    have h1 := callTrace_fst tags efd1
    simp only [TagsExpFunc.callTrace, TagsExpFunc.call, ← h0, ← h1]
    rcases efd0.callTrace tags with ⟨_ | _ | _, rec0⟩ <;> rfl
  | .notFunc efd1 => by
    have h1 := callTrace_fst tags efd1
    simp only [TagsExpFunc.callTrace, TagsExpFunc.call, ← h1]
    rcases efd1.callTrace tags with ⟨_ | _, rec1⟩ <;> rfl
  | .ltFunc _ => rfl
  | .gtFunc _ => rfl
  | .leFunc _ => rfl
  | .geFunc _ => rfl
  | .neFunc _ => rfl
  | .eqFunc _ => rfl
  | .likeFunc _ => rfl
  | .containsFunc _ => rfl
  | .hasPrefixFunc _ => rfl
  | .hasSuffixFunc _ => rfl

/-- The record of `efd0(tags) || efd1(tags)`: that of `efd0`, followed by that
of `efd1` only when `efd0` returns false. -/
theorem callTrace_orFunc (efd0 efd1 : TagsExpFunc) (tags : TagMap) :
    (efd0.callTrace tags).2 <+: ((TagsExpFunc.orFunc efd0 efd1).callTrace tags).2 ∧
    (efd0.call tags = some true → (TagsExpFunc.orFunc efd0 efd1).callTrace tags =
      (some true, (efd0.callTrace tags).2)) ∧
    (efd0.call tags = some false → (TagsExpFunc.orFunc efd0 efd1).callTrace tags =
      (efd1.call tags, (efd0.callTrace tags).2 ++ (efd1.callTrace tags).2)) := by
  rw [← callTrace_fst tags efd0, ← callTrace_fst tags efd1]
  simp only [TagsExpFunc.callTrace]
  rcases efd0.callTrace tags with ⟨_ | _ | _, rec0⟩ <;> simp

/-- The record of `efd0(tags) && efd1(tags)`: that of `efd0`, followed by that
of `efd1` only when `efd0` returns true. -/
theorem callTrace_andFunc (efd0 efd1 : TagsExpFunc) (tags : TagMap) :
    (efd0.callTrace tags).2 <+: ((TagsExpFunc.andFunc efd0 efd1).callTrace tags).2 ∧
    (efd0.call tags = some false → (TagsExpFunc.andFunc efd0 efd1).callTrace tags =
      (some false, (efd0.callTrace tags).2)) ∧
    (efd0.call tags = some true → (TagsExpFunc.andFunc efd0 efd1).callTrace tags =
      (efd1.call tags, (efd0.callTrace tags).2 ++ (efd1.callTrace tags).2)) := by
  rw [← callTrace_fst tags efd0, ← callTrace_fst tags efd1]
  simp only [TagsExpFunc.callTrace]
  rcases efd0.callTrace tags with ⟨_ | _ | _, rec0⟩ <;> simp

end lql

namespace lql

open model

/-- C13. AND and OR evaluate from left to right and stop as soon as the result
is known.  When `buildOrConds` compiles a list of two elements or more, the
predicate it leaves is `efd0(tags) || efd1(tags)`, with `efd0` compiled from the
first element and `efd1` from the remaining ones; in the instrumented call the
record begins with the record of `efd0`, and when `efd0` returns true the
record is that of `efd0` alone: `efd1` is not invoked.  The same holds for
`buildXConds` with `&&`, where `efd1` is not invoked when `efd0` returns
false. -/
theorem C13_short_circuit (m : GoString → GoString) (teb : tagsExpFuncBuilder) :
    (∀ (and0 : List XCondition) (oc1 : OrCondition) (rest1 : List OrCondition)
      (tebOr : tagsExpFuncBuilder),
      buildOrConds m teb (OrCondition.mk and0 :: oc1 :: rest1) = some (tebOr, none) →
      ∃ efd0 efd1, buildXConds m teb and0 = some (⟨efd0⟩, none) ∧
        buildOrConds m ⟨efd0⟩ (oc1 :: rest1) = some (⟨efd1⟩, none) ∧
        tebOr.tef = .orFunc efd0 efd1 ∧
        ∀ tags, (efd0.callTrace tags).2 <+: (tebOr.tef.callTrace tags).2 ∧
          (efd0.call tags = some true →
            tebOr.tef.callTrace tags = (some true, (efd0.callTrace tags).2)) ∧
          (efd0.call tags = some false → tebOr.tef.callTrace tags =
            (efd1.call tags, (efd0.callTrace tags).2 ++ (efd1.callTrace tags).2))) ∧
    (∀ (xc xc1 : XCondition) (rest2 : List XCondition) (tebAnd : tagsExpFuncBuilder),
      buildXConds m teb (xc :: xc1 :: rest2) = some (tebAnd, none) →
      ∃ efd0 efd1, buildXCond m teb xc = some (⟨efd0⟩, none) ∧
        buildXConds m ⟨efd0⟩ (xc1 :: rest2) = some (⟨efd1⟩, none) ∧
        tebAnd.tef = .andFunc efd0 efd1 ∧
        ∀ tags, (efd0.callTrace tags).2 <+: (tebAnd.tef.callTrace tags).2 ∧
          (efd0.call tags = some false →
            tebAnd.tef.callTrace tags = (some false, (efd0.callTrace tags).2)) ∧
          (efd0.call tags = some true → tebAnd.tef.callTrace tags =
            (efd1.call tags, (efd0.callTrace tags).2 ++ (efd1.callTrace tags).2))) := by
  constructor
  · intro and0 oc1 rest1 tebOr hor
    rw [buildOrConds_cons] at hor
    rcases h0 : buildXConds m teb and0 with _ | ⟨⟨efd0⟩, _ | e0⟩ <;> rw [h0] at hor
    · simp at hor
    · simp only at hor
      rcases h1 : buildOrConds m ⟨efd0⟩ (oc1 :: rest1) with _ | ⟨⟨efd1⟩, _ | e1⟩ <;>
        rw [h1] at hor
      · simp at hor
      · simp only [Option.some.injEq, Prod.mk.injEq, and_true] at hor
        subst hor
        exact ⟨efd0, efd1, rfl, h1, rfl, fun tags => callTrace_orFunc efd0 efd1 tags⟩
      · simp at hor
    · simp at hor
  · intro xc xc1 rest2 tebAnd hand
    rw [buildXConds_cons] at hand
    rcases h0 : buildXCond m teb xc with _ | ⟨⟨efd0⟩, _ | e0⟩ <;> rw [h0] at hand
    · simp at hand
    · simp only at hand
      rcases h1 : buildXConds m ⟨efd0⟩ (xc1 :: rest2) with _ | ⟨⟨efd1⟩, _ | e1⟩ <;>
        rw [h1] at hand
      · simp at hand
      · simp only [Option.some.injEq, Prod.mk.injEq, and_true] at hand
        subst hand
        exact ⟨efd0, efd1, rfl, h1, rfl, fun tags => callTrace_andFunc efd0 efd1 tags⟩
      · simp at hand
    · simp at hand

/-- C13, on `region = "us-east" OR env = "prod"` and on `region = "us-east" AND
env = "prod"`: on the tags of `us-east` the record of the OR holds the leaf of
`region` alone, and on the tags of `us-west` so does the record of the AND. -/
theorem C13_short_circuit_witness :
    buildOrConds id ⟨.nil⟩ regionOrEnvList =
      some (⟨.orFunc (.eqFunc ⟨str "region", str "=", str "us-east"⟩)
        (.eqFunc ⟨str "env", str "=", str "prod"⟩)⟩, none) ∧
    buildXConds id ⟨.nil⟩ regionAndEnvList =
      some (⟨.andFunc (.eqFunc ⟨str "region", str "=", str "us-east"⟩)
        (.eqFunc ⟨str "env", str "=", str "prod"⟩)⟩, none) ∧
    (TagsExpFunc.orFunc (.eqFunc ⟨str "region", str "=", str "us-east"⟩)
        (.eqFunc ⟨str "env", str "=", str "prod"⟩)).callTrace tagsEastStaging =
      (some true, [.eqFunc ⟨str "region", str "=", str "us-east"⟩]) ∧
    (TagsExpFunc.andFunc (.eqFunc ⟨str "region", str "=", str "us-east"⟩)
        (.eqFunc ⟨str "env", str "=", str "prod"⟩)).callTrace tagsWestProd =
      (some false, [.eqFunc ⟨str "region", str "=", str "us-east"⟩]) ∧
    (∃ efd0 efd1, buildXConds id ⟨.nil⟩ [leafTerm false "region" "=" "us-east"] =
        some (⟨efd0⟩, none) ∧
      buildOrConds id ⟨efd0⟩ [OrCondition.mk [leafTerm false "env" "=" "prod"]] =
        some (⟨efd1⟩, none) ∧
      (TagsExpFunc.orFunc (.eqFunc ⟨str "region", str "=", str "us-east"⟩)
        (.eqFunc ⟨str "env", str "=", str "prod"⟩)) = .orFunc efd0 efd1 ∧
      ∀ tags, (efd0.callTrace tags).2 <+:
          ((TagsExpFunc.orFunc (.eqFunc ⟨str "region", str "=", str "us-east"⟩)
            (.eqFunc ⟨str "env", str "=", str "prod"⟩)).callTrace tags).2 ∧
        (efd0.call tags = some true →
          (TagsExpFunc.orFunc (.eqFunc ⟨str "region", str "=", str "us-east"⟩)
            (.eqFunc ⟨str "env", str "=", str "prod"⟩)).callTrace tags =
            (some true, (efd0.callTrace tags).2)) ∧
        (efd0.call tags = some false →
          (TagsExpFunc.orFunc (.eqFunc ⟨str "region", str "=", str "us-east"⟩)
            (.eqFunc ⟨str "env", str "=", str "prod"⟩)).callTrace tags =
            (efd1.call tags, (efd0.callTrace tags).2 ++ (efd1.callTrace tags).2))) ∧
    (∃ efd0 efd1, buildXCond id ⟨.nil⟩ (leafTerm false "region" "=" "us-east") =
        some (⟨efd0⟩, none) ∧
      buildXConds id ⟨efd0⟩ [leafTerm false "env" "=" "prod"] = some (⟨efd1⟩, none) ∧
      (TagsExpFunc.andFunc (.eqFunc ⟨str "region", str "=", str "us-east"⟩)
        (.eqFunc ⟨str "env", str "=", str "prod"⟩)) = .andFunc efd0 efd1 ∧
      ∀ tags, (efd0.callTrace tags).2 <+:
          ((TagsExpFunc.andFunc (.eqFunc ⟨str "region", str "=", str "us-east"⟩)
            (.eqFunc ⟨str "env", str "=", str "prod"⟩)).callTrace tags).2 ∧
        (efd0.call tags = some false →
          (TagsExpFunc.andFunc (.eqFunc ⟨str "region", str "=", str "us-east"⟩)
            (.eqFunc ⟨str "env", str "=", str "prod"⟩)).callTrace tags =
            (some false, (efd0.callTrace tags).2)) ∧
        (efd0.call tags = some true →
          (TagsExpFunc.andFunc (.eqFunc ⟨str "region", str "=", str "us-east"⟩)
            (.eqFunc ⟨str "env", str "=", str "prod"⟩)).callTrace tags =
            (efd1.call tags, (efd0.callTrace tags).2 ++ (efd1.callTrace tags).2))) :=
  ⟨by decide, by decide, by decide, by decide,
    (C13_short_circuit id ⟨.nil⟩).1 [leafTerm false "region" "=" "us-east"]
      (OrCondition.mk [leafTerm false "env" "=" "prod"]) [] _ (by decide),
    (C13_short_circuit id ⟨.nil⟩).2 (leafTerm false "region" "=" "us-east")
      (leafTerm false "env" "=" "prod") [] _ (by decide)⟩

end lql

/-! ## strings: the letter case -/

namespace strings

theorem asciiUpper_lt (c : Nat) (h : c < 0x80) : asciiUpper c < 0x80 := by
  unfold asciiUpper; split <;> omega

theorem asciiUpper_of_ge (c : Nat) (h : 0x80 ≤ c) : asciiUpper c = c := by
  unfold asciiUpper; split <;> omega

theorem asciiUpper_lt_iff (c : Nat) : asciiUpper c < 0x80 ↔ c < 0x80 := by
  unfold asciiUpper; split <;> omega

theorem asciiUpper_idem (c : Nat) : asciiUpper (asciiUpper c) = asciiUpper c := by
  by_cases h : 97 ≤ c ∧ c ≤ 122
  · have h2 : ¬ (97 ≤ c - 32 ∧ c - 32 ≤ 122) := by omega
    simp only [asciiUpper, h, h2, and_self, if_true, if_false]
  · simp only [asciiUpper, h, if_false]

/-- Two bytes that are the same letter have the same upper case. -/
theorem asciiUpper_of_sameLetter (a b : Nat) (h : sameLetter a b = true) :
    asciiUpper a = asciiUpper b := by
  simp only [sameLetter, Bool.or_eq_true, Bool.and_eq_true, decide_eq_true_eq] at h
  unfold asciiUpper
  split <;> split <;> omega

/-- Two strings that differ only in the letter case have the same upper case. -/
theorem map_asciiUpper_of_caseVariant : ∀ s s2 : GoString, caseVariant s s2 = true →
    s.map asciiUpper = s2.map asciiUpper
  | [], [], _ => rfl
  | [], _ :: _, h => by simp [caseVariant] at h
  | _ :: _, [], h => by simp [caseVariant] at h
  | a :: as, b :: bs, h => by
    simp only [caseVariant, Bool.and_eq_true] at h
    simp only [List.map_cons, asciiUpper_of_sameLetter a b h.1,
      map_asciiUpper_of_caseVariant as bs h.2]

/-- The upper case of a string is ASCII exactly when the string is. -/
theorem all_ascii_map_asciiUpper (s : GoString) :
    (s.map asciiUpper).all (fun c => decide (c < 0x80)) = s.all (fun c => decide (c < 0x80)) := by
  induction s with
  | nil => rfl
  | cons c rest ih =>
    simp only [List.map_cons, List.all_cons, ih]
    congr 1
    simp only [decide_eq_decide]
    exact asciiUpper_lt_iff c

/-- `ToUpper` on an ASCII string moves every letter to its upper case; on other
strings it is the mapping of the runes. -/
theorem ToUpper_eq (m : GoString → GoString) (s : GoString) :
    ToUpper m s = if s.all (fun c => decide (c < 0x80)) then s.map asciiUpper else m s := by
  unfold ToUpper
  split
  · split
    · rfl
    · rename_i h
      simp only [List.any_eq_true, decide_eq_true_eq, not_exists, not_and] at h
      symm
      calc s.map asciiUpper = s.map id := by
            apply List.map_congr_left
            intro c hc
            have := h c hc
            unfold asciiUpper
            split
            · rename_i h2; exact absurd h2.2 (this h2.1)
            · rfl
        _ = s := List.map_id s
  · rfl

end strings

namespace utf8

open strings

/-- An ASCII byte decodes to itself. -/
theorem DecodeRuneInString_ascii (c : Nat) (rest : GoString) (h : c < 0x80) :
    DecodeRuneInString (c :: rest) = (c, 1) := by
  simp [DecodeRuneInString, first, h]

/-- The entries of the table `first`. -/
theorem first_cases (c : Nat) :
    first c = 0xF0 ∨ first c = 0xF1 ∨ first c = 0x02 ∨ first c = 0x13 ∨ first c = 0x03 ∨
    first c = 0x23 ∨ first c = 0x34 ∨ first c = 0x04 ∨ first c = 0x44 := by
  unfold first
  split_ifs <;> simp

/-- The second byte of an encoding is never ASCII. -/
theorem acceptRanges_lo (c : Nat) (h : ¬ first c ≥ 0xF0) :
    0x80 ≤ (acceptRanges (first c >>> 4)).1 := by
  rcases first_cases c with e | e | e | e | e | e | e | e | e <;> rw [e] at h ⊢ <;>
    first | (exact absurd (by decide) h) | decide

/-- The bytes of a string with its letters moved to upper case: each is left
as it was, or it was ASCII and is ASCII. -/
theorem asciiUpper_cases (b : Nat) :
    (b < 0x80 ∧ asciiUpper b < 0x80) ∨ asciiUpper b = b := by
  by_cases h : b < 0x80
  · exact Or.inl ⟨h, asciiUpper_lt b h⟩
  · exact Or.inr (asciiUpper_of_ge b (by omega))

/-- Decoding gives the same rune when the letters of the bytes that follow the
first one are moved to upper case. -/
theorem DecodeRuneInString_map_asciiUpper (c : Nat) (rest : GoString) :
    DecodeRuneInString (c :: rest.map asciiUpper) = DecodeRuneInString (c :: rest) := by
  by_cases hx : first c ≥ 0xF0
  · simp [DecodeRuneInString, hx]
  have hlo := acceptRanges_lo c hx
  simp only [DecodeRuneInString, hx, if_false, List.length_cons, List.length_map]
  generalize acceptRanges (first c >>> 4) = acc at hlo ⊢
  generalize first c &&& 7 = sz
  rcases rest with _ | ⟨s1, _ | ⟨s2, _ | ⟨s3, rest3⟩⟩⟩
  · rfl
  · simp only [List.map_cons, List.map_nil]
    have h1 := asciiUpper_cases s1
    generalize asciiUpper s1 = u1 at h1 ⊢
    split_ifs <;> first | rfl | omega | (have e1 : u1 = s1 := by omega
                                         subst e1; rfl)
  · simp only [List.map_cons, List.map_nil]
    have h1 := asciiUpper_cases s1
    have h2 := asciiUpper_cases s2
    generalize asciiUpper s1 = u1 at h1 ⊢
    generalize asciiUpper s2 = u2 at h2 ⊢
    split_ifs <;> first | rfl | omega | (have e1 : u1 = s1 := by omega
                                         subst e1; rfl)
                                      | (have e1 : u1 = s1 := by omega
                                         have e2 : u2 = s2 := by omega
                                         subst e1; subst e2; rfl)
  · simp only [List.map_cons]
    have h1 := asciiUpper_cases s1
    have h2 := asciiUpper_cases s2
    have h3 := asciiUpper_cases s3
    generalize asciiUpper s1 = u1 at h1 ⊢
    generalize asciiUpper s2 = u2 at h2 ⊢
    generalize asciiUpper s3 = u3 at h3 ⊢
    split_ifs <;> first | rfl | omega | (have e1 : u1 = s1 := by omega
                                         subst e1; rfl)
                                      | (have e1 : u1 = s1 := by omega
                                         have e2 : u2 = s2 := by omega
                                         subst e1; subst e2; rfl)
                                      | (have e1 : u1 = s1 := by omega
                                         have e2 : u2 = s2 := by omega
                                         have e3 : u3 = s3 := by omega
                                         subst e1; subst e2; subst e3; rfl)

end utf8

namespace strings

/-- On an ASCII rune `unicode.ToUpper` moves the letters to upper case. -/
theorem unicode_ToUpper_ascii (table : Nat → Nat) (r : Nat) (h : r ≤ 0x7F) :
    unicode.ToUpper table r = asciiUpper r := by
  unfold unicode.ToUpper asciiUpper
  rw [if_pos h]

/-- The runes of a string with its letters moved to upper case are, once put in
upper case, those of the string. -/
theorem runesLoop_map_asciiUpper (table : Nat → Nat) (fuel : Nat) : ∀ s : GoString,
    (runesLoop fuel (s.map asciiUpper)).map (unicode.ToUpper table) =
    (runesLoop fuel s).map (unicode.ToUpper table) := by
  induction fuel with
  | zero => intro s; rfl
  | succ fuel ih =>
    intro s
    cases s with
    | nil => rfl
    | cons c rest =>
      simp only [List.map_cons, runesLoop]
      by_cases hc : c < 0x80
      · have hu := asciiUpper_lt c hc
        rw [utf8.DecodeRuneInString_ascii c rest hc,
          utf8.DecodeRuneInString_ascii (asciiUpper c) _ hu]
        simp only [List.drop_succ_cons, List.drop_zero]
        rw [ih rest]
        congr 1
        rw [unicode_ToUpper_ascii table (asciiUpper c) (by omega),
          unicode_ToUpper_ascii table c (by omega), asciiUpper_idem]
      · rw [asciiUpper_of_ge c (by omega), utf8.DecodeRuneInString_map_asciiUpper c rest]
        have hd : List.drop (utf8.DecodeRuneInString (c :: rest)).2 (c :: List.map asciiUpper rest)
            = (List.drop (utf8.DecodeRuneInString (c :: rest)).2 (c :: rest)).map asciiUpper := by
          rw [List.map_drop, List.map_cons, asciiUpper_of_ge c (by omega)]
        rw [hd, ih]

/-- The mapping of the runes to upper case gives the same string when the ASCII
letters are first moved to upper case. -/
theorem Map_map_asciiUpper (table : Nat → Nat) (s : GoString) :
    Map (unicode.ToUpper table) (s.map asciiUpper) = Map (unicode.ToUpper table) s := by
  have h := runesLoop_map_asciiUpper table s.length s
  simp only [Map, runes, List.length_map]
  rw [← List.flatMap_map (unicode.ToUpper table) utf8.AppendRune,
    ← List.flatMap_map (unicode.ToUpper table) utf8.AppendRune, h]

/-- Two strings that differ only in the letter case have the same `ToUpper`. -/
theorem ToUpper_of_caseVariant (table : Nat → Nat) (s s2 : GoString)
    (h : caseVariant s s2 = true) :
    ToUpper (Map (unicode.ToUpper table)) s = ToUpper (Map (unicode.ToUpper table)) s2 := by
  have hm := map_asciiUpper_of_caseVariant s s2 h
  rw [ToUpper_eq, ToUpper_eq, ← all_ascii_map_asciiUpper s, ← all_ascii_map_asciiUpper s2, hm,
    ← Map_map_asciiUpper table s, ← Map_map_asciiUpper table s2, hm]

end strings

namespace strings

/-- With as much fuel as the string has bytes, the loop over the runes reaches
the end of the string: more fuel gives the same runes. -/
theorem runesLoop_fuel (fuel : Nat) : ∀ (fuel2 : Nat) (s : GoString),
    s.length ≤ fuel → s.length ≤ fuel2 → runesLoop fuel s = runesLoop fuel2 s := by
  induction fuel with
  | zero =>
    intro fuel2 s h1 _
    have : s = [] := List.length_eq_zero.mp (by omega)
    subst this
    cases fuel2 <;> rfl
  | succ fuel ih =>
    intro fuel2 s h1 h2
    cases s with
    | nil => cases fuel2 <;> rfl
    | cons c rest =>
      cases fuel2 with
      | zero => simp at h2
      | succ fuel2 =>
        simp only [runesLoop]
        have hw := utf8.DecodeRuneInString_pos c rest
        simp only [List.length_cons] at h1 h2
        have hl : (List.drop (utf8.DecodeRuneInString (c :: rest)).2 (c :: rest)).length
            ≤ rest.length := by
          simp only [List.length_drop, List.length_cons]; omega
        rw [ih fuel2 _ (by omega) (by omega)]

end strings

/-! ## lql: the letter case of the operator -/

namespace lql

open model

/-- Two leaves with the same operand, the same value and operators that have
the same upper case are compiled alike: `buildTagCond` returns an error for
both or for none, and leaves predicates that agree on every tag map. -/
theorem buildTagCond_congr (m : GoString → GoString) (teb : tagsExpFuncBuilder)
    (c c2 : Condition) (hoperand : c.Operand = c2.Operand) (hvalue : c.Value = c2.Value)
    (hop : strings.ToUpper m c.Op = strings.ToUpper m c2.Op) :
    ((buildTagCond m teb c).2 = none ↔ (buildTagCond m teb c2).2 = none) ∧
    ∀ tags, (buildTagCond m teb c).1.tef.call tags = (buildTagCond m teb c2).1.tef.call tags := by
  simp only [buildTagCond, hop, hvalue]
  generalize strings.ToUpper m c2.Op = op
  by_cases h0 : op = str "<"
  · simp only [if_pos h0, TagsExpFunc.call, hoperand, hvalue, true_and, implies_true]
  rw [if_neg h0, if_neg h0]
  by_cases h1 : op = str ">"
  · simp only [if_pos h1, TagsExpFunc.call, hoperand, hvalue, true_and, implies_true]
  rw [if_neg h1, if_neg h1]
  by_cases h2 : op = str "<="
  · simp only [if_pos h2, TagsExpFunc.call, hoperand, hvalue, true_and, implies_true]
  rw [if_neg h2, if_neg h2]
  by_cases h3 : op = str ">="
  · simp only [if_pos h3, TagsExpFunc.call, hoperand, hvalue, true_and, implies_true]
  rw [if_neg h3, if_neg h3]
  by_cases h4 : op = str "!="
  · simp only [if_pos h4, TagsExpFunc.call, hoperand, hvalue, true_and, implies_true]
  rw [if_neg h4, if_neg h4]
  by_cases h5 : op = str "="
  · simp only [if_pos h5, TagsExpFunc.call, hoperand, hvalue, true_and, implies_true]
  rw [if_neg h5, if_neg h5]
  by_cases h6 : op = CMP_LIKE
  · rw [if_pos h6, if_pos h6]
    by_cases hp : (path.Match c2.Value (str "abc")).2 ≠ none
    · simp only [if_pos hp, true_and, implies_true]
    · simp only [if_neg hp, TagsExpFunc.call, hoperand, hvalue, true_and, implies_true]
  rw [if_neg h6, if_neg h6]
  by_cases h7 : op = CMP_CONTAINS
  · simp only [if_pos h7, TagsExpFunc.call, hoperand, hvalue, true_and, implies_true]
  rw [if_neg h7, if_neg h7]
  by_cases h8 : op = CMP_HAS_PREFIX
  · simp only [if_pos h8, TagsExpFunc.call, hoperand, hvalue, true_and, implies_true]
  rw [if_neg h8, if_neg h8]
  by_cases h9 : op = CMP_HAS_SUFFIX
  · simp only [if_pos h9, TagsExpFunc.call, hoperand, hvalue, true_and, implies_true]
  rw [if_neg h9, if_neg h9]
  simp only [reduceCtorEq, true_and, implies_true]

end lql

namespace lql

open model

/-- C12. The operator token is matched without regard to the letter case.  For
every leaf condition `c` and every condition `c2` that differs from `c` only in
the letter case of `Op`, whatever the builder holds: `buildTagCond` returns an
error for `c` exactly when it does for `c2`, and the predicates it leaves agree
on every tag map; so `BuildTagsExpFunc` on the two leaves fails for both or for
none, and returns predicates that agree on every tag map.  The upper case is
that of `strings.ToUpper`, for symbols and keywords alike, whatever the Unicode
case table. -/
theorem C12_operator_case_insensitive (table : Nat → Nat) (teb : tagsExpFuncBuilder)
    (c c2 : Condition) (h : c.caseVariant c2 = true) :
    ((buildTagCond (strings.Map (unicode.ToUpper table)) teb c).2 ≠ none ↔
      (buildTagCond (strings.Map (unicode.ToUpper table)) teb c2).2 ≠ none) ∧
    (∀ tags, (buildTagCond (strings.Map (unicode.ToUpper table)) teb c).1.tef.call tags =
      (buildTagCond (strings.Map (unicode.ToUpper table)) teb c2).1.tef.call tags) ∧
    ∃ p e p2 e2,
      BuildTagsExpFunc (strings.Map (unicode.ToUpper table)) (some (leafExpr c)) = some (p, e) ∧
      BuildTagsExpFunc (strings.Map (unicode.ToUpper table)) (some (leafExpr c2)) =
        some (p2, e2) ∧
      (e ≠ none ↔ e2 ≠ none) ∧ ∀ tags, p.call tags = p2.call tags := by
  simp only [Condition.caseVariant, Bool.and_eq_true, decide_eq_true_eq] at h
  obtain ⟨⟨hoperand, hvalue⟩, hop⟩ := h
  have hup := strings.ToUpper_of_caseVariant table c.Op c2.Op hop
  have key := fun teb => buildTagCond_congr (strings.Map (unicode.ToUpper table)) teb c c2
    hoperand hvalue hup
  refine ⟨not_congr (key teb).1, (key teb).2, ?_⟩
  have k := key ⟨.nil⟩
  rw [BuildTagsExpFunc_leaf, BuildTagsExpFunc_leaf]
  rcases h1 : buildTagCond (strings.Map (unicode.ToUpper table)) ⟨.nil⟩ c with ⟨t1, _ | e1⟩ <;>
  rcases h2 : buildTagCond (strings.Map (unicode.ToUpper table)) ⟨.nil⟩ c2 with ⟨t2, _ | e2⟩ <;>
  rw [h1, h2] at k
  · exact ⟨_, _, _, _, rfl, rfl, Iff.rfl, k.2⟩
  · have := k.1.mp rfl
    simp at this
  · have := k.1.mpr rfl
    simp at this
  · exact ⟨_, _, _, _, rfl, rfl, by simp, fun _ => rfl⟩

/-- C12, on `name like "ab*"` and `name LiKe "ab*"`, and on the predicates they
compile to. -/
theorem C12_operator_case_insensitive_witness :
    Condition.caseVariant ⟨str "name", str "like", str "ab*"⟩
      ⟨str "name", str "LiKe", str "ab*"⟩ = true ∧
    BuildTagsExpFunc (strings.Map (unicode.ToUpper id))
      (some (leafExpr ⟨str "name", str "like", str "ab*"⟩)) =
      some (.likeFunc ⟨str "name", str "like", str "ab*"⟩, none) ∧
    BuildTagsExpFunc (strings.Map (unicode.ToUpper id))
      (some (leafExpr ⟨str "name", str "LiKe", str "ab*"⟩)) =
      some (.likeFunc ⟨str "name", str "LiKe", str "ab*"⟩, none) ∧
    ((buildTagCond (strings.Map (unicode.ToUpper id)) ⟨.nil⟩
        ⟨str "name", str "like", str "ab*"⟩).2 ≠ none ↔
      (buildTagCond (strings.Map (unicode.ToUpper id)) ⟨.nil⟩
        ⟨str "name", str "LiKe", str "ab*"⟩).2 ≠ none) ∧
    (∀ tags, (buildTagCond (strings.Map (unicode.ToUpper id)) ⟨.nil⟩
        ⟨str "name", str "like", str "ab*"⟩).1.tef.call tags =
      (buildTagCond (strings.Map (unicode.ToUpper id)) ⟨.nil⟩
        ⟨str "name", str "LiKe", str "ab*"⟩).1.tef.call tags) ∧
    ∃ p e p2 e2,
      BuildTagsExpFunc (strings.Map (unicode.ToUpper id))
        (some (leafExpr ⟨str "name", str "like", str "ab*"⟩)) = some (p, e) ∧
      BuildTagsExpFunc (strings.Map (unicode.ToUpper id))
        (some (leafExpr ⟨str "name", str "LiKe", str "ab*"⟩)) = some (p2, e2) ∧
      (e ≠ none ↔ e2 ≠ none) ∧ ∀ tags, p.call tags = p2.call tags :=
  ⟨by decide, by decide, by decide,
    C12_operator_case_insensitive id ⟨.nil⟩ ⟨str "name", str "like", str "ab*"⟩
      ⟨str "name", str "LiKe", str "ab*"⟩ (by decide)⟩

end lql

/-! Properties: glob patterns and `path.Match` -/

namespace path

/-- On the text of an ASCII character of a class, followed by more of the chunk,
`getEsc` returns the character and what follows, without an error. -/
theorem getEsc_classChar (c : Nat) (rest : GoString) (hc : c < 128) (hr : rest ≠ []) :
    getEsc (classChar c ++ rest) = (c, rest, none) := by
  have hd : utf8.DecodeRuneInString (c :: rest) = (c, 1) :=
    utf8.DecodeRuneInString_ascii c rest hc
  have hl : rest.length ≠ 0 := fun h => hr (List.length_eq_zero.mp h)
  have hre : ¬ (c = utf8.RuneError) := by
    intro h; rw [h] at hc; simp [utf8.RuneError] at hc
  by_cases h : c = 45 ∨ c = 92 ∨ c = 93 ∨ c = 94
  · have hcc : classChar c = [92, c] := by simp [classChar, h]
    rw [hcc]
    simp [getEsc, hd, hl, hre]
  · have h1 : ¬ (c = 45 ∨ c = 93) := fun h2 => h (by tauto)
    have h2 : ¬ c = 92 := fun h2 => h (by tauto)
    have hcc : classChar c = [c] := by simp [classChar, h]
    rw [hcc]
    simp [getEsc, hd, hl, hre, h1, h2]

/-- The text of a character of a class does not begin with `-`, `]` or `^`. -/
theorem classChar_head (c : Nat) (rest : GoString) :
    (classChar c ++ rest).head? ≠ some 45 ∧ (classChar c ++ rest).head? ≠ some 93 ∧
    (classChar c ++ rest).head? ≠ some 94 := by
  by_cases h : c = 45 ∨ c = 92 ∨ c = 93 ∨ c = 94
  · simp [classChar, h]
  · simp only [classChar, h, if_false, List.singleton_append, List.head?_cons, ne_eq,
      Option.some.injEq]
    refine ⟨fun h2 => h (by tauto), fun h2 => h (by tauto), fun h2 => h (by tauto)⟩

/-- The text of an item of a class does not begin with `-`, `]` or `^`. -/
theorem Item_text_head (it : Item) (rest : GoString) :
    (it.text ++ rest).head? ≠ some 45 ∧ (it.text ++ rest).head? ≠ some 93 ∧
    (it.text ++ rest).head? ≠ some 94 := by
  cases it with
  | one c => exact classChar_head c rest
  | range lo hi =>
    simp only [Item.text, List.append_assoc]
    exact classChar_head lo _

/-- The text of the items of a class, closed by `]`, does not begin with `-`. -/
theorem items_text_head (items : List Item) (rest : GoString) :
    (items.flatMap Item.text ++ 93 :: rest).head? ≠ some 45 := by
  cases items with
  | nil => simp
  | cons it items =>
    simp only [List.flatMap_cons, List.append_assoc]
    exact (Item_text_head it _).1

/-- The loop over the ranges of a class, on the text of its items: it stops after
the closing bracket and reports whether an item has the rune. -/
theorem rangeLoop_items (r : Nat) (rest : GoString) : ∀ (items : List Item) (isMatch : Bool)
    (nrange fuel : Nat), items.all Item.ascii = true → (items ≠ [] ∨ nrange > 0) →
    (items.flatMap Item.text ++ 93 :: rest).length < fuel →
    rangeLoop fuel (items.flatMap Item.text ++ 93 :: rest) r isMatch nrange =
      some (rest, isMatch || items.any (fun it => it.has r), none)
  | [], isMatch, nrange, fuel, _, hn, hf => by
    cases fuel with
    | zero => simp at hf
    | succ fuel =>
      have : nrange > 0 := by simpa using hn
      simp [rangeLoop, this]
  | it :: items, isMatch, nrange, fuel, ha, _, hf => by
    cases fuel with
    | zero => simp at hf
    | succ fuel =>
      simp only [List.all_cons, Bool.and_eq_true] at ha
      have hne : items.flatMap Item.text ++ 93 :: rest ≠ [] := by simp
      have h93 := (Item_text_head it (items.flatMap Item.text ++ 93 :: rest)).2.1
      have h45 := items_text_head items rest
      simp only [List.flatMap_cons, List.append_assoc] at hf ⊢
      rw [rangeLoop]
      rw [if_neg (fun h => h93 h.1)]
      cases it with
      | one c =>
        simp only [Item.ascii, decide_eq_true_eq] at ha
        simp only [Item.text] at hf ⊢
        simp only [getEsc_classChar c _ ha.1 hne, ne_eq, not_true_eq_false, if_false, h45]
        rw [rangeLoop_items r rest items _ _ fuel ha.2 (Or.inr (Nat.succ_pos _))
          (by have h0 : 0 < (classChar c).length := by unfold classChar; split <;> simp
              rw [List.length_append] at hf
              omega)]
        have e2 : (decide (c ≤ r) && decide (r ≤ c)) = decide (r = c) := by
          rw [Bool.eq_iff_iff]
          simp only [Bool.and_eq_true, decide_eq_true_eq]
          omega
        simp only [List.any_cons, Item.has, Bool.or_assoc, e2]
      | range lo hi =>
        simp only [Item.ascii, Bool.and_eq_true, decide_eq_true_eq] at ha
        simp only [Item.text, List.append_assoc, List.singleton_append, List.cons_append, List.nil_append] at hf ⊢
        have e1 := getEsc_classChar lo (45 :: (classChar hi ++ (items.flatMap Item.text ++ 93 :: rest)))
          ha.1.1 (by simp)
        simp only [e1, ne_eq, not_true_eq_false, if_false, List.head?_cons, if_true, List.tail_cons,
          getEsc_classChar hi _ ha.1.2 hne]
        rw [rangeLoop_items r rest items _ _ fuel ha.2 (Or.inr (Nat.succ_pos _))
          (by simp only [List.length_append, List.length_cons] at hf ⊢; omega)]
        simp only [List.any_cons, Item.has, Bool.or_assoc]


/-- The text of a pattern begins with the text of its first item. -/
theorem patternText_cons (t : Tok) (p : List Tok) :
    patternText (t :: p) = t.text ++ patternText p := by
  simp [patternText]

/-- The text of two patterns put end to end. -/
theorem patternText_append (p q : List Tok) :
    patternText (p ++ q) = patternText p ++ patternText q := by
  simp [patternText]

/-- The text of an item is not empty. -/
theorem Tok_text_length_pos (t : Tok) : 0 < t.text.length := by
  cases t with
  | star => simp [Tok.text]
  | any => simp [Tok.text]
  | lit c => simp only [Tok.text]; split <;> simp
  | cls n items => simp [Tok.text]

/-- The loop of `matchChunk` on the text of single-character items: the items
accept the first characters of the string, which are consumed. -/
theorem matchChunkLoop_text : ∀ (ts : List Tok) (s : GoString) (failed : Bool) (fuel : Nat),
    ts.all (fun t => !t.isStar) = true → ts.all Tok.simple = true →
    (s.all (fun c => decide (c < 128)) = true ∨ ts.all Tok.plain = true) →
    (patternText ts).length < fuel →
    matchChunkLoop fuel (patternText ts) s failed =
      some (if (!failed && chunkOk ts s) = true then (s.drop ts.length, true, none)
        else ([], false, none))
  | [], s, failed, fuel, _, _, _, hf => by
    cases fuel with
    | zero => simp at hf
    | succ fuel => cases failed <;> simp [patternText, matchChunkLoop, chunkOk]
  | t :: ts, s, failed, fuel, hs, hsim, hasc, hf => by
    cases fuel with
    | zero => simp at hf
    | succ fuel =>
      simp only [List.all_cons, Bool.and_eq_true] at hs hsim
      rw [patternText_cons] at hf ⊢
      rw [List.length_append] at hf
      have hpos := Tok_text_length_pos t
      cases t with
      | star => simp [Tok.isStar] at hs
      | any =>
        have hasc2 : s.all (fun c => decide (c < 128)) = true := by
          rcases hasc with h | h
          · exact h
          · simp [Tok.plain] at h
        simp only [Tok.text, List.singleton_append, List.length_cons, List.length_nil] at hf ⊢
        rw [matchChunkLoop]
        simp only [show ¬ (63 = 91) by decide, if_false, if_true]
        cases s with
        | nil =>
          rw [matchChunkLoop_text ts _ _ fuel hs.2 hsim.2 (Or.inl (by simp)) (by omega)]
          simp [chunkOk]
        | cons b s1 =>
          simp only [List.all_cons, Bool.and_eq_true, decide_eq_true_eq] at hasc2
          rw [utf8.DecodeRuneInString_ascii b s1 hasc2.1]
          cases failed with
          | true =>
            rw [matchChunkLoop_text ts _ _ fuel hs.2 hsim.2 (Or.inl (by simp [hasc2])) (by omega)]
            simp
          | false =>
            rw [matchChunkLoop_text ts _ _ fuel hs.2 hsim.2 (Or.inl (by simpa using hasc2.2))
              (by omega)]
            by_cases hb : b = 47
            · simp [chunkOk, Tok.accepts, hb]
            · simp [chunkOk, Tok.accepts, hb]
      | lit c =>
        have hasc2 : ∀ s2 : GoString, (∃ b, s = b :: s2) ∨ s2 = s →
            s2.all (fun c => decide (c < 128)) = true ∨ ts.all Tok.plain = true := by
          intro s2 h2
          rcases hasc with h | h
          · left
            rcases h2 with ⟨b, rfl⟩ | rfl
            · simp only [List.all_cons, Bool.and_eq_true] at h; exact h.2
            · exact h
          · right
            simp only [List.all_cons, Bool.and_eq_true] at h; exact h.2
        have key : matchChunkLoop (fuel + 1) ((Tok.lit c).text ++ patternText ts) s failed =
            matchChunkLoop fuel (patternText ts)
              (if (failed || decide (s.length = 0)) = true then s else s.tail)
              (failed || decide (s.length = 0) || decide (some c ≠ s.head?)) := by
          by_cases h : c = 42 ∨ c = 63 ∨ c = 91 ∨ c = 92
          · have e : (Tok.lit c).text = [92, c] := by simp [Tok.text, h]
            rw [e]
            simp only [List.cons_append, List.nil_append]
            rw [matchChunkLoop]
            simp
          · have e : (Tok.lit c).text = [c] := by simp [Tok.text, h]
            have h1 : ¬ c = 91 := fun h2 => h (by tauto)
            have h2 : ¬ c = 63 := fun h2 => h (by tauto)
            have h3 : ¬ c = 92 := fun h2 => h (by tauto)
            rw [e]
            simp only [List.cons_append, List.nil_append]
            rw [matchChunkLoop]
            simp [h1, h2, h3]
        rw [key]
        cases s with
        | nil =>
          simp only [List.length_nil, decide_True, Bool.or_true, if_true, Bool.true_or]
          rw [matchChunkLoop_text ts _ _ fuel hs.2 hsim.2 (hasc2 _ (Or.inr rfl)) (by omega)]
          simp [chunkOk]
        | cons b s1 =>
          cases failed with
          | true =>
            simp only [Bool.true_or, if_true]
            rw [matchChunkLoop_text ts _ _ fuel hs.2 hsim.2 (hasc2 _ (Or.inr (by simp)))
              (by omega)]
            simp
          | false =>
            simp only [List.length_cons, Nat.add_one_ne_zero, decide_False, Bool.or_false,
              Bool.false_or, Bool.false_eq_true, if_false, List.tail_cons, List.head?_cons]
            rw [matchChunkLoop_text ts _ _ fuel hs.2 hsim.2
              (hasc2 s1 (Or.inl ⟨b, by simp⟩)) (by omega)]
            by_cases hb : b = c
            · simp [chunkOk, Tok.accepts, hb]
            · have hb2 : ¬ c = b := fun h => hb h.symm
              simp [chunkOk, Tok.accepts, hb, hb2]
      | cls negated items =>
        have hasc2 : s.all (fun c => decide (c < 128)) = true := by
          rcases hasc with h | h
          · exact h
          · simp [Tok.plain] at h
        have hsim1 := hsim.1
        simp only [Tok.simple, Bool.and_eq_true, Bool.not_eq_true', List.isEmpty_eq_false] at hsim1
        obtain ⟨⟨hne, hia⟩, _⟩ := hsim1
        have hne2 : items ≠ [] := by
          intro h; rw [h] at hne; simp at hne
        simp only [Tok.text, List.append_assoc, List.singleton_append, List.length_cons,
          List.length_append, List.cons_append, List.nil_append] at hf ⊢
        rw [matchChunkLoop]
        simp only [if_true]
        have hneg : decide ((((if negated = true then [94] else []) ++
            (items.flatMap Item.text ++ 93 :: patternText ts)) : GoString).head? = some 94)
            = negated := by
          cases negated with
          | true => simp
          | false =>
            obtain ⟨it, items2, rfl⟩ := List.exists_cons_of_ne_nil hne2
            simp only [Bool.false_eq_true, if_false, List.nil_append, List.flatMap_cons,
              List.append_assoc, decide_eq_false_iff_not]
            exact (Item_text_head it _).2.2
        have hch : (if negated = true then
            (((if negated = true then [94] else []) ++
              (items.flatMap Item.text ++ 93 :: patternText ts)) : GoString).tail
            else ((if negated = true then [94] else []) ++
              (items.flatMap Item.text ++ 93 :: patternText ts))) =
            items.flatMap Item.text ++ 93 :: patternText ts := by
          cases negated <;> simp
        simp only [hneg, hch]
        have hfl : (items.flatMap Item.text ++ 93 :: patternText ts).length < fuel := by
          simp only [List.length_append, List.length_cons]
          omega
        rw [rangeLoop_items _ _ items false 0 fuel hia (Or.inl hne2) hfl]
        simp only [ne_eq, not_true_eq_false, if_false, Bool.false_or]
        cases s with
        | nil =>
          rw [matchChunkLoop_text ts _ _ fuel hs.2 hsim.2 (Or.inl (by simp)) (by omega)]
          simp [chunkOk]
        | cons b s1 =>
          simp only [List.all_cons, Bool.and_eq_true, decide_eq_true_eq] at hasc2
          rw [utf8.DecodeRuneInString_ascii b s1 hasc2.1]
          cases failed with
          | true =>
            rw [matchChunkLoop_text ts _ _ fuel hs.2 hsim.2 (Or.inl (by simp [hasc2])) (by omega)]
            simp
          | false =>
            rw [matchChunkLoop_text ts _ _ fuel hs.2 hsim.2 (Or.inl (by simpa using hasc2.2))
              (by omega)]
            cases hm : items.any (fun it => it.has b) <;> cases negated <;>
              simp [chunkOk, Tok.accepts, hm]

/-- The call `matchChunk` on the text of single-character items. -/
theorem matchChunk_text (ts : List Tok) (s : GoString)
    (hs : ts.all (fun t => !t.isStar) = true) (hsim : ts.all Tok.simple = true)
    (hasc : s.all (fun c => decide (c < 128)) = true ∨ ts.all Tok.plain = true) :
    matchChunk (patternText ts) s =
      some (if chunkOk ts s = true then (s.drop ts.length, true, none) else ([], false, none)) := by
  rw [matchChunk, matchChunkLoop_text ts s false _ hs hsim hasc (Nat.lt_succ_self _)]
  simp


/-- One step of the scan on a byte that is not a backslash. -/
theorem scanLoop_cons (b : Bool) (c : Nat) (p : GoString) (h1 : c ≠ 92) :
    scanLoop b (c :: p) =
      if c = 91 then (c :: (scanLoop true p).1, (scanLoop true p).2)
      else if c = 93 then (c :: (scanLoop false p).1, (scanLoop false p).2)
      else if c = 42 then
        (if (!b) = true then ([], c :: p) else (c :: (scanLoop b p).1, (scanLoop b p).2))
      else (c :: (scanLoop b p).1, (scanLoop b p).2) := by
  cases p <;> simp [scanLoop, h1]

/-- The scan passes a byte that is neither a backslash nor a bracket, and a star
inside a class. -/
theorem scanLoop_cons_ord (b : Bool) (c : Nat) (p : GoString)
    (h1 : c ≠ 92) (h2 : c ≠ 93) (h3 : c ≠ 42 ∨ b = true) (h4 : c = 91 → b = true) :
    scanLoop b (c :: p) = (c :: (scanLoop b p).1, (scanLoop b p).2) := by
  rw [scanLoop_cons b c p h1]
  simp only [h2, if_false]
  by_cases h5 : c = 91
  · simp [h5, h4 h5]
  · simp only [h5, if_false]
    by_cases h6 : c = 42
    · have hb : b = true := by
        rcases h3 with h | h
        · exact absurd h6 h
        · exact h
      simp [h6, hb]
    · simp [h6]

/-- The scan passes a backslash and the byte after it. -/
theorem scanLoop_cons_esc (b : Bool) (c : Nat) (p : GoString) :
    scanLoop b (92 :: c :: p) = (92 :: c :: (scanLoop b p).1, (scanLoop b p).2) := by
  simp [scanLoop]

/-- Inside a class the scan passes the text of a character. -/
theorem scanLoop_classChar (c : Nat) (p : GoString) :
    scanLoop true (classChar c ++ p) = (classChar c ++ (scanLoop true p).1, (scanLoop true p).2) := by
  by_cases h : c = 45 ∨ c = 92 ∨ c = 93 ∨ c = 94
  · have hcc : classChar c = [92, c] := by simp [classChar, h]
    rw [hcc]
    exact scanLoop_cons_esc true c p
  · have hcc : classChar c = [c] := by simp [classChar, h]
    rw [hcc]
    exact scanLoop_cons_ord true c p (fun h2 => h (by tauto)) (fun h2 => h (by tauto))
      (Or.inr rfl) (fun _ => rfl)

/-- Inside a class the scan passes the text of an item. -/
theorem scanLoop_item (it : Item) (p : GoString) :
    scanLoop true (it.text ++ p) = (it.text ++ (scanLoop true p).1, (scanLoop true p).2) := by
  cases it with
  | one c => exact scanLoop_classChar c p
  | range lo hi =>
    simp only [Item.text, List.append_assoc, List.singleton_append, List.cons_append,
      List.nil_append]
    rw [scanLoop_classChar, scanLoop_cons_ord true 45 _ (by decide) (by decide) (Or.inr rfl)
      (fun _ => rfl), scanLoop_classChar]

/-- Inside a class the scan passes the items and the closing bracket, after which
it is outside the class. -/
theorem scanLoop_items (X : GoString) : ∀ (items : List Item),
    scanLoop true (items.flatMap Item.text ++ 93 :: X) =
      (items.flatMap Item.text ++ 93 :: (scanLoop false X).1, (scanLoop false X).2)
  | [] => by
    simp only [List.flatMap_nil, List.nil_append]
    rw [scanLoop_cons true 93 X (by decide)]
    simp
  | it :: items => by
    simp only [List.flatMap_cons, List.append_assoc]
    rw [scanLoop_item, scanLoop_items X items]

/-- Outside a class the scan passes the text of a single-character item. -/
theorem scanLoop_tok (t : Tok) (X : GoString) (ht : t.isStar = false) :
    scanLoop false (t.text ++ X) = (t.text ++ (scanLoop false X).1, (scanLoop false X).2) := by
  cases t with
  | star => simp [Tok.isStar] at ht
  | any => exact scanLoop_cons_ord false 63 X (by decide) (by decide) (Or.inl (by decide)) (by decide)
  | lit c =>
    by_cases h : c = 42 ∨ c = 63 ∨ c = 91 ∨ c = 92
    · have e : (Tok.lit c).text = [92, c] := by simp [Tok.text, h]
      rw [e]
      exact scanLoop_cons_esc false c X
    · have e : (Tok.lit c).text = [c] := by simp [Tok.text, h]
      rw [e]
      by_cases h93 : c = 93
      · subst h93
        simp only [List.singleton_append]
        rw [scanLoop_cons false 93 X (by decide)]
        simp
      · exact scanLoop_cons_ord false c X (fun h2 => h (by tauto)) h93
          (Or.inl (fun h2 => h (by tauto))) (fun h2 => absurd h2 (fun h3 => h (by tauto)))
  | cls negated items =>
    simp only [Tok.text, List.append_assoc, List.singleton_append, List.cons_append,
      List.nil_append]
    rw [scanLoop_cons false 91 _ (by decide)]
    simp only [if_true]
    cases negated with
    | true =>
      simp only [if_true, List.cons_append, List.nil_append]
      rw [scanLoop_cons_ord true 94 _ (by decide) (by decide) (Or.inr rfl) (fun _ => rfl),
        scanLoop_items]
    | false =>
      simp only [Bool.false_eq_true, if_false, List.nil_append]
      rw [scanLoop_items]

/-- The scan of a pattern stops at the first `*` item: it splits the text at
it. -/
theorem scanLoop_text (X : GoString) : ∀ (ts : List Tok),
    ts.all (fun t => !t.isStar) = true →
    scanLoop false (patternText ts ++ X) =
      (patternText ts ++ (scanLoop false X).1, (scanLoop false X).2)
  | [], _ => by simp [patternText]
  | t :: ts, hs => by
    simp only [List.all_cons, Bool.and_eq_true, Bool.not_eq_true'] at hs
    rw [patternText_cons, List.append_assoc, scanLoop_tok t _ hs.1,
      scanLoop_text X ts (by simpa using hs.2)]
    simp


/-- The function `afterRun` holds exactly when `f` holds after some number `d` of
leading characters that `run` admits. -/
theorem afterRun_iff (run : Nat → Bool) (f : GoString → Bool) : ∀ (v : GoString),
    afterRun run f v = true ↔
      ∃ d, d ≤ v.length ∧ (v.take d).all run = true ∧ f (v.drop d) = true
  | [] => by
    simp only [afterRun, List.length_nil, Nat.le_zero_eq, List.take_nil, List.all_nil,
      List.drop_nil, true_and]
    exact ⟨fun h => ⟨0, rfl, h⟩, fun ⟨_, _, h⟩ => h⟩
  | c :: v => by
    simp only [afterRun, Bool.or_eq_true, Bool.and_eq_true, afterRun_iff run f v]
    constructor
    · rintro (h | ⟨hc, d, hd, ha, hf⟩)
      · exact ⟨0, Nat.zero_le _, by simp, by simpa using h⟩
      · exact ⟨d + 1, by simpa using hd, by simp [hc, ha], by simpa using hf⟩
    · rintro ⟨d, hd, ha, hf⟩
      cases d with
      | zero => left; simpa using hf
      | succ d =>
        right
        simp only [List.take_succ_cons, List.all_cons, Bool.and_eq_true] at ha
        exact ⟨ha.1, d, by simpa using hd, ha.2, by simpa using hf⟩

/-- Two `*` in a row match as one. -/
theorem afterRun_idem (run : Nat → Bool) (f : GoString → Bool) : ∀ (v : GoString),
    afterRun run (afterRun run f) v = afterRun run f v
  | [] => by simp [afterRun]
  | c :: v => by
    rw [afterRun, afterRun_idem run f v, afterRun]
    cases f (c :: v) <;> cases run c <;> cases afterRun run f v <;> rfl

/-- A run can be made longer at the front. -/
theorem afterRun_drop (run : Nat → Bool) (f : GoString → Bool) : ∀ (d : Nat) (v : GoString),
    (v.take d).all run = true → afterRun run f (v.drop d) = true → afterRun run f v = true
  | 0, v, _, h => by simpa using h
  | d + 1, [], _, h => by simpa using h
  | d + 1, c :: v, ha, h => by
    simp only [List.take_succ_cons, List.all_cons, Bool.and_eq_true] at ha
    simp only [List.drop_succ_cons] at h
    rw [afterRun, afterRun_drop run f d v ha.2 h, ha.1]
    simp

/-- A `*` at the end matches exactly the strings that `run` admits throughout. -/
theorem afterRun_isEmpty (run : Nat → Bool) : ∀ (v : GoString),
    afterRun run List.isEmpty v = v.all run
  | [] => by simp [afterRun]
  | c :: v => by
    rw [afterRun, afterRun_isEmpty run v]
    simp

/-- The empty pattern matches the empty string only. -/
theorem globWith_nil (run : Nat → Bool) (v : GoString) : globWith run [] v = v.isEmpty := by
  rw [globWith]

/-- The match of a pattern that begins with `*`. -/
theorem globWith_star (run : Nat → Bool) (p : List Tok) (v : GoString) :
    globWith run (Tok.star :: p) v = afterRun run (globWith run p) v := by
  rw [globWith]

/-- The match of a pattern that begins with a single-character item, on a string
that is not empty. -/
theorem globWith_cons (run : Nat → Bool) (t : Tok) (p : List Tok) (b : Nat) (v : GoString)
    (ht : t.isStar = false) :
    globWith run (t :: p) (b :: v) = (t.accepts run b && globWith run p v) := by
  cases t with
  | star => simp [Tok.isStar] at ht
  | any => rw [globWith]; simp
  | lit c => rw [globWith]; simp
  | cls n items => rw [globWith]; simp

/-- A pattern that begins with a single-character item does not match the empty
string. -/
theorem globWith_cons_nil (run : Nat → Bool) (t : Tok) (p : List Tok)
    (ht : t.isStar = false) : globWith run (t :: p) [] = false := by
  cases t with
  | star => simp [Tok.isStar] at ht
  | any => rw [globWith]; simp
  | lit c => rw [globWith]; simp
  | cls n items => rw [globWith]; simp

/-- The match of a pattern that begins with single-character items: the items
accept the first characters, and the rest of the pattern matches the rest. -/
theorem globMatch_chunk (q : List Tok) : ∀ (ts : List Tok) (v : GoString),
    ts.all (fun t => !t.isStar) = true →
    globMatch (ts ++ q) v = (chunkOk ts v && globMatch q (v.drop ts.length))
  | [], v, _ => by simp [chunkOk]
  | t :: ts, [], hs => by
    simp only [List.all_cons, Bool.and_eq_true, Bool.not_eq_true'] at hs
    simp only [globMatch, List.cons_append, chunkOk, Bool.false_and]
    exact globWith_cons_nil _ t _ hs.1
  | t :: ts, b :: v, hs => by
    simp only [List.all_cons, Bool.and_eq_true, Bool.not_eq_true'] at hs
    have ih := globMatch_chunk q ts v (by simpa using hs.2)
    simp only [globMatch] at ih ⊢
    simp only [List.cons_append, chunkOk, List.length_cons, List.drop_succ_cons]
    rw [globWith_cons _ t _ b v hs.1, ih, Bool.and_assoc]

/-- Leading `*` items match as one. -/
theorem globMatch_stars : ∀ (p : List Tok) (v : GoString),
    globMatch (Tok.star :: p) v =
      afterRun (fun c => c != 47) (globMatch (p.dropWhile Tok.isStar)) v
  | [], v => by simp [globMatch, globWith_star]
  | t :: p, v => by
    cases t with
    | star =>
      have ih : globMatch (Tok.star :: p) =
          afterRun (fun c => c != 47) (globMatch (p.dropWhile Tok.isStar)) :=
        funext (globMatch_stars p)
      have e : globMatch (Tok.star :: Tok.star :: p) v =
          afterRun (fun c => c != 47) (globMatch (Tok.star :: p)) v := by
        simp only [globMatch, globWith_star]
      rw [e, ih, afterRun_idem]
      simp [Tok.isStar]
    | any => simp [globMatch, globWith_star, Tok.isStar]
    | lit c => simp [globMatch, globWith_star, Tok.isStar]
    | cls n items => simp [globMatch, globWith_star, Tok.isStar]

/-- When a chunk matches at the front of a string, its item of index `k` accepts
the character of index `k`. -/
theorem chunkOk_get : ∀ (ts : List Tok) (w : GoString), chunkOk ts w = true →
    ∀ (k : Nat) (t : Tok), ts[k]? = some t →
      ∃ b, w[k]? = some b ∧ t.accepts (fun c => c != 47) b = true
  | [], _, _, k, t, h => by simp at h
  | _ :: _, [], h, _, _, _ => by simp [chunkOk] at h
  | t0 :: ts, b0 :: w, h, k, t, hk => by
    simp only [chunkOk, Bool.and_eq_true] at h
    cases k with
    | zero =>
      simp only [List.getElem?_cons_zero, Option.some.injEq] at hk
      exact ⟨b0, by simp, hk ▸ h.1⟩
    | succ k =>
      simp only [List.getElem?_cons_succ] at hk ⊢
      exact chunkOk_get ts w h.2 k t hk

/-- Only the ordinary character `/` accepts the slash. -/
theorem simple_accepts_slash (t : Tok) (hs : t.isStar = false) (hsim : t.simple = true)
    (h : t.accepts (fun c => c != 47) 47 = true) : t = Tok.lit 47 := by
  cases t with
  | star => simp [Tok.isStar] at hs
  | any => simp [Tok.accepts] at h
  | lit c =>
    simp only [Tok.accepts, decide_eq_true_eq] at h
    rw [h]
  | cls n items =>
    simp only [Tok.simple, Bool.and_eq_true, Bool.not_eq_true'] at hsim
    simp only [Tok.accepts] at h hsim
    rw [h] at hsim
    exact absurd hsim.2 (by simp)

/-- When a chunk matches at the front of a string and again `d` characters
further, after characters that are not slashes, the chunk has no slash. -/
theorem chunk_no_slash (ts : List Tok) (w : GoString) (d : Nat) (hd : 0 < d)
    (hs : ts.all (fun t => !t.isStar) = true) (hsim : ts.all Tok.simple = true)
    (h1 : chunkOk ts w = true) (h2 : chunkOk ts (w.drop d) = true)
    (hw : (w.take d).all (fun c => c != 47) = true) :
    ∀ (k : Nat), ts[k]? ≠ some (Tok.lit 47) := by
  intro k
  induction k using Nat.strong_induction_on with
  | _ k ih =>
    intro hk
    obtain ⟨b, hb, hacc⟩ := chunkOk_get ts w h1 k _ hk
    simp only [Tok.accepts, decide_eq_true_eq] at hacc
    subst hacc
    by_cases hkd : k < d
    · have hm : (47 : Nat) ∈ w.take d := by
        rw [List.mem_iff_getElem?]
        exact ⟨k, by rw [List.getElem?_take_of_lt hkd]; exact hb⟩
      have := List.all_eq_true.mp hw 47 hm
      simp at this
    · have hlt : k < ts.length := by
        by_contra hge
        rw [List.getElem?_eq_none (by omega)] at hk
        simp at hk
      have hlt2 : k - d < ts.length := by omega
      obtain ⟨b2, hb2, hacc2⟩ := chunkOk_get ts (w.drop d) h2 (k - d) (ts[k - d])
        (List.getElem?_eq_getElem hlt2)
      rw [List.getElem?_drop, show d + (k - d) = k by omega, hb] at hb2
      simp only [Option.some.injEq] at hb2
      subst hb2
      have hmem : ts[k - d] ∈ ts := List.getElem_mem hlt2
      have hst : (ts[k - d]).isStar = false := by
        have := List.all_eq_true.mp hs _ hmem
        simpa using this
      have := simple_accepts_slash _ hst (List.all_eq_true.mp hsim _ hmem) hacc2
      exact ih (k - d) (by omega) (by rw [List.getElem?_eq_getElem hlt2, this])

/-- A chunk none of whose items accepts the slash matches no slash. -/
theorem chunkOk_no_slash : ∀ (ts : List Tok) (x : GoString),
    (∀ t ∈ ts, t.accepts (fun c => c != 47) 47 = false) → chunkOk ts x = true →
    (x.take ts.length).all (fun c => c != 47) = true
  | [], _, _, _ => by simp
  | _ :: _, [], _, h => by simp [chunkOk] at h
  | t :: ts, b :: x, hn, h => by
    simp only [chunkOk, Bool.and_eq_true] at h
    simp only [List.length_cons, List.take_succ_cons, List.all_cons, Bool.and_eq_true]
    refine ⟨?_, chunkOk_no_slash ts x (fun t ht => hn t (List.mem_cons_of_mem _ ht)) h.2⟩
    by_contra hb
    have hb2 : b = 47 := by simpa using hb
    rw [hb2, hn t (List.mem_cons_self _ _)] at h
    simp at h

/-- When a chunk matches at the front of a string and again `d` characters
further, after characters that are not slashes, there is no slash among the `d`
characters that follow the first match. -/
theorem chunk_overlap (ts : List Tok) (w : GoString) (d : Nat)
    (hs : ts.all (fun t => !t.isStar) = true) (hsim : ts.all Tok.simple = true)
    (h1 : chunkOk ts w = true) (h2 : chunkOk ts (w.drop d) = true)
    (hw : (w.take d).all (fun c => c != 47) = true) :
    ((w.drop ts.length).take d).all (fun c => c != 47) = true := by
  rcases Nat.eq_zero_or_pos d with hd | hd
  · simp [hd]
  have hno := chunk_no_slash ts w d hd hs hsim h1 h2 hw
  have hrej : ∀ t ∈ ts, t.accepts (fun c => c != 47) 47 = false := by
    intro t ht
    by_contra hacc
    have hacc2 : t.accepts (fun c => c != 47) 47 = true := by simpa using hacc
    have hst : t.isStar = false := by
      have := List.all_eq_true.mp hs _ ht
      simpa using this
    have := simple_accepts_slash t hst (List.all_eq_true.mp hsim _ ht) hacc2
    obtain ⟨k, hk⟩ := List.mem_iff_getElem?.mp ht
    exact hno k (by rw [hk, this])
  have h3 := chunkOk_no_slash ts (w.drop d) hrej h2
  have h4 : (w.take (d + ts.length)).all (fun c => c != 47) = true := by
    rw [List.take_add, List.all_append, hw, h3]
    rfl
  rw [List.all_eq_true] at h4 ⊢
  intro c hc
  apply h4
  have : (w.drop ts.length).take d = (w.take (d + ts.length)).drop ts.length := by
    rw [List.drop_take]
    congr 1
    omega
  rw [this] at hc
  exact List.mem_of_mem_drop hc


/-- The text of a single-character item does not begin with a star. -/
theorem Tok_text_head (t : Tok) (ht : t.isStar = false) :
    ∃ c rest, t.text = c :: rest ∧ c ≠ 42 := by
  cases t with
  | star => simp [Tok.isStar] at ht
  | any => exact ⟨63, [], rfl, by decide⟩
  | lit c =>
    by_cases h : c = 42 ∨ c = 63 ∨ c = 91 ∨ c = 92
    · exact ⟨92, [c], by simp [Tok.text, h], by decide⟩
    · exact ⟨c, [], by simp [Tok.text, h], fun h2 => h (by tauto)⟩
  | cls n items =>
    exact ⟨91, (if n = true then [94] else []) ++ (items.flatMap Item.text ++ [93]),
      by simp [Tok.text], by decide⟩

/-- The text of a pattern begins with a star exactly when its first item is
`*`. -/
theorem patternText_head (p : List Tok) :
    decide ((patternText p).head? = some 42) = decide (p.head? = some Tok.star) := by
  cases p with
  | nil => simp [patternText]
  | cons t p =>
    rw [patternText_cons]
    cases ht : t.isStar with
    | true =>
      cases t <;> simp [Tok.isStar] at ht
      simp [Tok.text]
    | false =>
      obtain ⟨c, rest, e, hc⟩ := Tok_text_head t ht
      rw [e]
      have : t ≠ Tok.star := by
        intro h; rw [h] at ht; simp [Tok.isStar] at ht
      simp [hc, this]

/-- Passing the leading stars of the text passes the leading `*` items. -/
theorem patternText_dropWhile : ∀ (p : List Tok),
    (patternText p).dropWhile (fun c => decide (c = 42)) =
      patternText (p.dropWhile Tok.isStar)
  | [] => by simp [patternText]
  | t :: p => by
    rw [patternText_cons]
    cases ht : t.isStar with
    | true =>
      cases t <;> simp [Tok.isStar] at ht
      simp only [Tok.text, List.singleton_append, List.dropWhile_cons, decide_True, if_true,
        Tok.isStar]
      exact patternText_dropWhile p
    | false =>
      obtain ⟨c, rest, e, hc⟩ := Tok_text_head t ht
      rw [List.dropWhile_cons, ht]
      simp only [Bool.false_eq_true, if_false]
      rw [patternText_cons, e]
      simp [hc]

/-- What is left after the single-character items is empty or begins with `*`. -/
theorem dropWhile_notStar (q : List Tok) :
    q.dropWhile (fun t => !t.isStar) = [] ∨
      ∃ r, q.dropWhile (fun t => !t.isStar) = Tok.star :: r := by
  cases h : q.dropWhile (fun t => !t.isStar) with
  | nil => exact Or.inl rfl
  | cons t r =>
    right
    have := List.head_dropWhile_not (fun t => !t.isStar) q (by rw [h]; simp)
    simp only [h, List.head_cons, Bool.not_eq_true, Bool.not_eq_false'] at this
    cases t <;> simp [Tok.isStar] at this
    exact ⟨r, rfl⟩

/-- The scan of the text of a pattern: its leading `*` items are passed, the
chunk is the text of the single-character items that follow, and the rest
begins at the next `*`. -/
theorem scanChunk_text (p : List Tok) :
    scanChunk (patternText p) =
      (decide (p.head? = some Tok.star),
        patternText ((p.dropWhile Tok.isStar).takeWhile (fun t => !t.isStar)),
        patternText ((p.dropWhile Tok.isStar).dropWhile (fun t => !t.isStar))) := by
  rw [scanChunk]
  simp only [patternText_head, patternText_dropWhile]
  generalize p.dropWhile Tok.isStar = q
  have hq : patternText q = patternText (q.takeWhile (fun t => !t.isStar)) ++
      patternText (q.dropWhile (fun t => !t.isStar)) := by
    rw [← patternText_append, List.takeWhile_append_dropWhile]
  have hts : (q.takeWhile (fun t => !t.isStar)).all (fun t => !t.isStar) = true := by
    rw [List.all_eq_true]
    intro t ht
    exact List.mem_takeWhile_imp (p := fun (t : Tok) => !t.isStar) ht
  have hsl : scanLoop false (patternText (q.dropWhile (fun t => !t.isStar))) =
      ([], patternText (q.dropWhile (fun t => !t.isStar))) := by
    rcases dropWhile_notStar q with h | ⟨r, h⟩
    · rw [h]; simp [patternText, scanLoop]
    · rw [h, patternText_cons]
      simp only [Tok.text, List.singleton_append]
      rw [scanLoop_cons false 42 _ (by decide)]
      simp
  conv_lhs => rw [hq]
  rw [scanLoop_text _ _ hts, hsl]
  simp

/-- One turn of the loop of `Match` on a pattern that is not empty. -/
theorem Match_step (pattern name : GoString) (star : Bool) (chunk rest : GoString)
    (hpat : pattern.length > 0) (hsc : scanChunk pattern = (star, chunk, rest))
    (hrest : rest.length < pattern.length) :
    Match pattern name =
      if star = true ∧ chunk = [] then (decide (47 ∉ name), none)
      else
        match matchChunk chunk name with
        | none => (false, none)
        | some (t, ok, err) =>
          if ok = true ∧ (t.length = 0 ∨ rest.length > 0) then Match rest t
          else if err ≠ none then (false, err)
          else
            match (if star = true then starLoop chunk (decide (rest.length = 0)) name
                   else StarStep.done) with
            | StarStep.next t => Match rest t
            | StarStep.fail err => (false, err)
            | StarStep.stuck => (false, none)
            | StarStep.done => (false, (Match rest []).2) := by
  have hcr : checkRest pattern.length rest = some (Match rest []).2 := by
    rw [← matchLoop_err _ rest [] hrest, matchLoop_eq_Match _ _ _ hrest]
    rfl
  rw [Match, matchLoop]
  simp only [hpat, if_true, hsc, hcr, Option.map_some']
  by_cases h1 : star = true ∧ chunk = []
  · simp only [h1, and_self, if_true, Option.getD_some]
  · simp only [h1, if_false]
    rcases hm : matchChunk chunk name with _ | ⟨t, ok, err⟩
    · rfl
    · simp only
      by_cases h2 : ok = true ∧ (t.length = 0 ∨ rest.length > 0)
      · rw [if_pos h2, if_pos h2, matchLoop_eq_Match _ _ _ hrest, Option.getD_some]
      · rw [if_neg h2, if_neg h2]
        by_cases h3 : err ≠ none
        · rw [if_pos h3, if_pos h3, Option.getD_some]
        · rw [if_neg h3, if_neg h3]
          rcases hsl : (if star = true then starLoop chunk (decide (rest.length = 0)) name
              else StarStep.done) with t2 | e2 | _ | _
          · simp only [matchLoop_eq_Match _ _ _ hrest, Option.getD_some]
          · rfl
          · rfl
          · rfl


/-- The function `afterRun` holds when `f` holds of the whole string. -/
theorem afterRun_self (run : Nat → Bool) (f : GoString → Bool) (v : GoString)
    (h : f v = true) : afterRun run f v = true := by
  cases v with
  | nil => simpa [afterRun] using h
  | cons c v => simp [afterRun, h]

/-- When the chunk matches at the front of the string, and a later match of the
chunk, reached over characters that are not slashes, is followed by a match of
a pattern that begins with `*`, then that pattern matches after the first match
of the chunk too: the leftmost match of the chunk is enough. -/
theorem leftmost_enough (ts : List Tok) (K0 : GoString → Bool) (w : GoString)
    (hs : ts.all (fun t => !t.isStar) = true) (hsim : ts.all Tok.simple = true)
    (h1 : chunkOk ts w = true)
    (h2 : afterRun (fun c => c != 47)
      (fun x => chunkOk ts x && afterRun (fun c => c != 47) K0 (x.drop ts.length)) w = true) :
    afterRun (fun c => c != 47) K0 (w.drop ts.length) = true := by
  obtain ⟨d, _, hw, hg⟩ := (afterRun_iff _ _ w).mp h2
  simp only [Bool.and_eq_true] at hg
  have hov := chunk_overlap ts w d hs hsim h1 hg.1 hw
  apply afterRun_drop _ _ d _ hov
  rw [List.drop_drop]
  have := hg.2
  rw [List.drop_drop] at this
  rw [Nat.add_comm]
  exact this

/-- One turn of the loop that retries a starred chunk, on the text of
single-character items. -/
theorem starLoop_cons_text (ts : List Tok) (last : Bool) (c : Nat) (n1 : GoString)
    (hs : ts.all (fun t => !t.isStar) = true) (hsim : ts.all Tok.simple = true)
    (hasc : n1.all (fun c => decide (c < 128)) = true ∨ ts.all Tok.plain = true) :
    starLoop (patternText ts) last (c :: n1) =
      if c = 47 then StarStep.done
      else if chunkOk ts n1 = true ∧ ¬ (last = true ∧ (n1.drop ts.length).length > 0) then
        StarStep.next (n1.drop ts.length)
      else starLoop (patternText ts) last n1 := by
  rw [starLoop, matchChunk_text ts n1 hs hsim hasc]
  by_cases hc : c = 47
  · simp [hc]
  · simp only [hc, if_false]
    by_cases hok : chunkOk ts n1 = true
    · simp only [hok, if_true, true_and]
      by_cases hl : last = true ∧ (n1.drop ts.length).length > 0
      · rw [if_pos hl, if_neg (not_not.mpr hl)]
      · rw [if_neg hl, if_pos hl]
    · simp [hok]

/-- The loop that retries a starred chunk, on the text of single-character
items: it ends at the first place, reached over characters that are not
slashes, where the chunk matches (and, for the last chunk, uses up the string).
`K` is the match of the rest of the pattern. -/
theorem starLoop_text (ts : List Tok) (last : Bool) (K : GoString → Bool)
    (hs : ts.all (fun t => !t.isStar) = true) (hsim : ts.all Tok.simple = true)
    (hK : (last = true ∧ K = List.isEmpty) ∨
      (last = false ∧ ∃ K0, K = afterRun (fun c => c != 47) K0)) :
    ∀ (n1 : GoString) (c : Nat),
      ((c :: n1).all (fun c => decide (c < 128)) = true ∨ ts.all Tok.plain = true) →
      (starLoop (patternText ts) last (c :: n1) = StarStep.done ∧
        (c != 47 && afterRun (fun c => c != 47)
          (fun x => chunkOk ts x && K (x.drop ts.length)) n1) = false) ∨
      (∃ t, starLoop (patternText ts) last (c :: n1) = StarStep.next t ∧ t <:+ c :: n1 ∧
        K t = (c != 47 && afterRun (fun c => c != 47)
          (fun x => chunkOk ts x && K (x.drop ts.length)) n1)) := by
  intro n1
  induction n1 with
  | nil =>
    intro c hasc
    rw [starLoop_cons_text ts last c [] hs hsim (Or.inl rfl)]
    by_cases hc : c = 47
    · left; simp [hc]
    · rw [if_neg hc]
      by_cases hit : chunkOk ts [] = true ∧
          ¬ (last = true ∧ (([] : GoString).drop ts.length).length > 0)
      · rw [if_pos hit]
        right
        refine ⟨_, rfl, by simp, ?_⟩
        simp [afterRun, hit.1, hc]
      · rw [if_neg hit]
        left
        refine ⟨rfl, ?_⟩
        have : chunkOk ts [] = false := by
          by_contra h
          exact hit ⟨by simpa using h, by simp⟩
        simp [afterRun, this]
  | cons c1 n2 ih =>
    intro c hasc
    have hasc1 : (c1 :: n2).all (fun c => decide (c < 128)) = true ∨ ts.all Tok.plain = true := by
      rcases hasc with h | h
      · left
        rw [List.all_cons, Bool.and_eq_true] at h
        exact h.2
      · exact Or.inr h
    rw [starLoop_cons_text ts last c (c1 :: n2) hs hsim hasc1]
    by_cases hc : c = 47
    · left; simp [hc]
    · rw [if_neg hc]
      have hc2 : (c != 47) = true := by simpa using hc
      rw [hc2, Bool.true_and]
      by_cases hit : chunkOk ts (c1 :: n2) = true ∧
          ¬ (last = true ∧ ((c1 :: n2).drop ts.length).length > 0)
      · rw [if_pos hit]
        right
        refine ⟨_, rfl, (List.drop_suffix _ _).trans (List.suffix_cons _ _), ?_⟩
        cases hk : K ((c1 :: n2).drop ts.length) with
        | true =>
          symm
          apply afterRun_self
          simp [hit.1, hk]
        | false =>
          symm
          by_contra hA
          have hA2 := Bool.eq_true_of_not_eq_false hA
          rcases hK with ⟨hl, hKe⟩ | ⟨hl, K0, hKe⟩
          · have h0 : ((c1 :: n2).drop ts.length).length = 0 := by
              have := hit.2
              simp only [hl, true_and, gt_iff_lt, not_lt, Nat.le_zero_eq] at this
              exact this
            rw [hKe, List.length_eq_zero.mp h0] at hk
            simp at hk
          · subst hKe
            have := leftmost_enough ts K0 (c1 :: n2) hs hsim hit.1 hA2
            rw [this] at hk
            simp at hk
      · rw [if_neg hit]
        have hg : (chunkOk ts (c1 :: n2) && K ((c1 :: n2).drop ts.length)) = false := by
          by_cases hok : chunkOk ts (c1 :: n2) = true
          · have hl : last = true ∧ ((c1 :: n2).drop ts.length).length > 0 := by
              by_contra h
              exact hit ⟨hok, h⟩
            rcases hK with ⟨_, hKe⟩ | ⟨hl2, _⟩
            · rw [hKe]
              have : (c1 :: n2).drop ts.length ≠ [] := by
                intro h0
                rw [h0] at hl
                simp at hl
              simp [this]
            · rw [hl.1] at hl2
              simp at hl2
          · simp [hok]
        have hA : afterRun (fun c => c != 47)
            (fun x => chunkOk ts x && K (x.drop ts.length)) (c1 :: n2) =
            (c1 != 47 && afterRun (fun c => c != 47)
              (fun x => chunkOk ts x && K (x.drop ts.length)) n2) := by
          rw [afterRun]
          simp only [hg, Bool.false_or]
        rw [hA]
        rcases ih c1 hasc1 with ⟨h1, h2⟩ | ⟨t, h1, h2, h3⟩
        · exact Or.inl ⟨h1, h2⟩
        · exact Or.inr ⟨t, h1, h2.trans (List.suffix_cons _ _), h3⟩


/-- A string of characters other than the slash has no slash. -/
theorem all_ne_slash (name : GoString) :
    name.all (fun c => c != 47) = decide (47 ∉ name) := by
  rw [Bool.eq_iff_iff]
  simp only [List.all_eq_true, bne_iff_ne, ne_eq, decide_eq_true_eq]
  exact ⟨fun h hm => h 47 hm rfl, fun h c hc he => h (he ▸ hc)⟩

/-- Only the empty pattern has an empty text. -/
theorem patternText_eq_nil (ts : List Tok) : patternText ts = [] ↔ ts = [] := by
  cases ts with
  | nil => simp [patternText]
  | cons t ts =>
    rw [patternText_cons]
    have := Tok_text_length_pos t
    constructor
    · intro h
      have h2 := congrArg List.length h
      simp only [List.length_append, List.length_nil] at h2
      omega
    · intro h; simp at h

/-- One turn of the loop of `Match` on the text of a pattern, given that the
rest of the pattern is matched as the glob laws say. -/
theorem Match_turn (pattern name : GoString) (star : Bool) (ts rest : List Tok)
    (hpat : pattern.length > 0)
    (hsc : scanChunk pattern = (star, patternText ts, patternText rest))
    (hlen : (patternText rest).length < pattern.length)
    (hs : ts.all (fun t => !t.isStar) = true) (hsim : ts.all Tok.simple = true)
    (hne : ts ≠ [] ∨ (star = true ∧ rest = []))
    (hrest : rest = [] ∨ ∃ r, rest = Tok.star :: r)
    (hasc : name.all (fun c => decide (c < 128)) = true ∨ ts.all Tok.plain = true)
    (hIH : ∀ t, t <:+ name → Match (patternText rest) t = (globMatch rest t, none)) :
    Match pattern name =
      (if star = true then
          afterRun (fun c => c != 47)
            (fun x => chunkOk ts x && globMatch rest (x.drop ts.length)) name
        else (chunkOk ts name && globMatch rest (name.drop ts.length)), none) := by
  have hKnil : rest = [] → globMatch rest = List.isEmpty := by
    intro h
    subst h
    exact funext (globWith_nil _)
  have hK : (decide ((patternText rest).length = 0) = true ∧ globMatch rest = List.isEmpty) ∨
      (decide ((patternText rest).length = 0) = false ∧
        ∃ K0, globMatch rest = afterRun (fun c => c != 47) K0) := by
    rcases hrest with h | ⟨r, h⟩
    · left
      exact ⟨by simp [h, patternText], hKnil h⟩
    · right
      refine ⟨by simp [h, patternText_cons, Tok.text], globMatch r, ?_⟩
      rw [h]
      exact funext (globWith_star _ r)
  have hrl : (patternText rest).length > 0 ↔ rest ≠ [] := by
    rw [gt_iff_lt, List.length_pos, ne_eq, ne_eq, patternText_eq_nil]
  have tail : (chunkOk ts name && globMatch rest (name.drop ts.length)) = false →
      (match (if star = true then
          starLoop (patternText ts) (decide ((patternText rest).length = 0)) name
        else StarStep.done) with
      | StarStep.next t => Match (patternText rest) t
      | StarStep.fail err => (false, err)
      | StarStep.stuck => (false, none)
      | StarStep.done => (false, (Match (patternText rest) []).2)) =
      (if star = true then
          afterRun (fun c => c != 47)
            (fun x => chunkOk ts x && globMatch rest (x.drop ts.length)) name
        else (chunkOk ts name && globMatch rest (name.drop ts.length)), none) := by
    intro hg
    have hnil : (Match (patternText rest) []).2 = none := by
      rw [hIH [] List.nil_suffix]
    cases hst : star with
    | false => simp [hnil, hg]
    | true =>
      simp only [if_true]
      cases name with
      | nil =>
        have e : afterRun (fun c => c != 47)
            (fun x => chunkOk ts x && globMatch rest (x.drop ts.length)) [] = false := by
          rw [afterRun]
          exact hg
        rw [starLoop, e, hnil]
      | cons c n1 =>
        have e : afterRun (fun c => c != 47)
            (fun x => chunkOk ts x && globMatch rest (x.drop ts.length)) (c :: n1) =
            (c != 47 && afterRun (fun c => c != 47)
              (fun x => chunkOk ts x && globMatch rest (x.drop ts.length)) n1) := by
          rw [afterRun]
          simp only [hg, Bool.false_or]
        rw [e]
        rcases starLoop_text ts _ (globMatch rest) hs hsim hK n1 c hasc with
          ⟨h1, h2⟩ | ⟨t, h1, h2, h3⟩
        · rw [h1, h2, hnil]
        · rw [h1, ← h3]
          exact hIH t h2
  rw [Match_step pattern name star _ _ hpat hsc hlen]
  by_cases h1 : star = true ∧ patternText ts = []
  · rw [if_pos h1]
    have hts : ts = [] := (patternText_eq_nil ts).mp h1.2
    have hr : rest = [] := by
      rcases hne with h | h
      · exact absurd hts h
      · exact h.2
    subst hts
    have e : (fun (x : GoString) => chunkOk [] x && globMatch rest (x.drop ([] : List Tok).length))
        = List.isEmpty := by
      funext x
      simp [chunkOk, hKnil hr]
    rw [if_pos h1.1, e, afterRun_isEmpty, all_ne_slash]
  · rw [if_neg h1, matchChunk_text ts name hs hsim hasc]
    have htsne : ts ≠ [] := by
      rcases hne with h | h
      · exact h
      · intro h2
        exact h1 ⟨h.1, (patternText_eq_nil ts).mpr h2⟩
    by_cases hok : chunkOk ts name = true
    · simp only [hok, if_true, Bool.true_and]
      by_cases h2 : (name.drop ts.length).length = 0 ∨ (patternText rest).length > 0
      · rw [if_pos ⟨trivial, h2⟩, hIH _ (List.drop_suffix _ _)]
        cases hst : star with
        | false => simp
        | true =>
          simp only [if_true]
          congr 1
          cases hk : globMatch rest (name.drop ts.length) with
          | true =>
            symm
            apply afterRun_self
            simp [hok, hk]
          | false =>
            symm
            by_contra hA
            have hA2 := Bool.eq_true_of_not_eq_false hA
            rcases hK with ⟨hl, hKe⟩ | ⟨hl, K0, hKe⟩
            · rcases h2 with h2 | h2
              · rw [hKe, List.length_eq_zero.mp h2] at hk
                simp at hk
              · simp only [decide_eq_true_eq] at hl
                omega
            · rw [hKe] at hA2 hk
              have := leftmost_enough ts K0 name hs hsim hok hA2
              rw [this] at hk
              simp at hk
      · rw [if_neg (fun h => h2 h.2)]
        simp only [ne_eq, not_true_eq_false, if_false]
        have hrnil : rest = [] := by
          by_contra h
          exact h2 (Or.inr (hrl.mpr h))
        have hdne : name.drop ts.length ≠ [] := by
          intro h
          exact h2 (Or.inl (by rw [h]; rfl))
        have hgn : globMatch rest (name.drop ts.length) = false := by
          rw [hKnil hrnil]
          simp [hdne]
        have := tail (by rw [hgn, Bool.and_false])
        rw [hok, Bool.true_and] at this
        exact this
    · have hok2 : chunkOk ts name = false := by simpa using hok
      have := tail (by rw [hok2, Bool.false_and])
      simp only [hok2, Bool.false_eq_true, if_false, false_and, ne_eq, not_true_eq_false]
      rw [hok2] at this
      exact this


/-- The text of the end of a pattern is shorter than the text of the pattern. -/
theorem patternText_length_lt (a b : List Tok) (ha : a ≠ []) :
    (patternText b).length < (patternText (a ++ b)).length := by
  rw [patternText_append, List.length_append]
  have : 0 < (patternText a).length := by
    rw [List.length_pos, ne_eq, patternText_eq_nil]
    exact ha
  omega

/-- The glob laws for `path.Match`, by induction on the number of items of the
pattern. -/
theorem Match_patternText_aux : ∀ (n : Nat) (p : List Tok), p.length ≤ n →
    p.all Tok.simple = true → ∀ (name : GoString),
    (name.all (fun c => decide (c < 128)) = true ∨ p.all Tok.plain = true) →
    Match (patternText p) name = (globMatch p name, none) := by
  intro n
  induction n with
  | zero =>
    intro p hn _ name _
    have hp : p = [] := List.length_eq_zero.mp (Nat.le_zero.mp hn)
    subst hp
    cases name <;> simp [patternText, Match, matchLoop, globMatch, globWith]
  | succ n ih =>
    intro p hn hsim name hasc
    cases p with
    | nil => cases name <;> simp [patternText, Match, matchLoop, globMatch, globWith]
    | cons t0 p0 =>
      -- the parts of the pattern
      have hsplit : ∃ (S ts rest : List Tok) (star : Bool),
          t0 :: p0 = S ++ (ts ++ rest) ∧
          scanChunk (patternText (t0 :: p0)) = (star, patternText ts, patternText rest) ∧
          ts.all (fun t => !t.isStar) = true ∧
          (S ≠ [] ∨ ts ≠ []) ∧
          (ts ≠ [] ∨ (star = true ∧ rest = [])) ∧
          (rest = [] ∨ ∃ r, rest = Tok.star :: r) ∧
          globMatch (t0 :: p0) name =
            (if star = true then
              afterRun (fun c => c != 47)
                (fun x => chunkOk ts x && globMatch rest (x.drop ts.length)) name
            else (chunkOk ts name && globMatch rest (name.drop ts.length))) := by
        have hts : ∀ q : List Tok,
            (q.takeWhile (fun t => !t.isStar)).all (fun t => !t.isStar) = true := by
          intro q
          rw [List.all_eq_true]
          intro t ht
          exact List.mem_takeWhile_imp (p := fun (t : Tok) => !t.isStar) ht
        refine ⟨(t0 :: p0).takeWhile Tok.isStar,
          ((t0 :: p0).dropWhile Tok.isStar).takeWhile (fun t => !t.isStar),
          ((t0 :: p0).dropWhile Tok.isStar).dropWhile (fun t => !t.isStar),
          decide ((t0 :: p0).head? = some Tok.star), ?_, scanChunk_text _, hts _, ?_, ?_,
          dropWhile_notStar _, ?_⟩
        · rw [List.takeWhile_append_dropWhile, List.takeWhile_append_dropWhile]
        · cases ht : t0.isStar with
          | true => left; simp [List.takeWhile_cons, ht]
          | false => right; simp [List.takeWhile_cons, List.dropWhile_cons, ht]
        · cases ht : t0.isStar with
          | false => left; simp [List.takeWhile_cons, List.dropWhile_cons, ht]
          | true =>
            have e0 : t0 = Tok.star := by cases t0 <;> simp [Tok.isStar] at ht; rfl
            by_cases hq : ((t0 :: p0).dropWhile Tok.isStar).takeWhile (fun t => !t.isStar) = []
            · right
              refine ⟨by simp [e0], ?_⟩
              cases hq2 : (t0 :: p0).dropWhile Tok.isStar with
              | nil => rfl
              | cons t1 q1 =>
                exfalso
                have h1 := List.head_dropWhile_not Tok.isStar (t0 :: p0) (by rw [hq2]; simp)
                simp only [hq2, List.head_cons] at h1
                rw [hq2, List.takeWhile_cons] at hq
                simp [h1] at hq
            · exact Or.inl hq
        · cases ht : t0.isStar with
          | false =>
            have hne : t0 ≠ Tok.star := by
              intro h; rw [h] at ht; simp [Tok.isStar] at ht
            have e1 : (t0 :: p0).dropWhile Tok.isStar = t0 :: p0 := by
              simp [List.dropWhile_cons, ht]
            simp only [List.head?_cons, Option.some.injEq, hne, decide_False,
              Bool.false_eq_true, if_false, e1]
            conv_lhs => rw [← List.takeWhile_append_dropWhile (fun t => !t.isStar) (t0 :: p0)]
            exact globMatch_chunk _ _ name (hts _)
          | true =>
            have e0 : t0 = Tok.star := by cases t0 <;> simp [Tok.isStar] at ht; rfl
            subst e0
            have e1 : (Tok.star :: p0).dropWhile Tok.isStar = p0.dropWhile Tok.isStar := by
              simp [List.dropWhile_cons, Tok.isStar]
            simp only [List.head?_cons, decide_True, if_true, e1]
            rw [globMatch_stars]
            congr 1
            funext x
            conv_lhs => rw [← List.takeWhile_append_dropWhile (fun t => !t.isStar)
              (p0.dropWhile Tok.isStar)]
            exact globMatch_chunk _ _ x (hts _)
      obtain ⟨S, ts, rest, star, hp, hsc, hs, hne1, hne2, hrest, hglob⟩ := hsplit
      have hsub1 : ∀ t ∈ ts, t ∈ t0 :: p0 := by
        intro t ht; rw [hp]; simp [ht]
      have hsub2 : ∀ t ∈ rest, t ∈ t0 :: p0 := by
        intro t ht; rw [hp]; simp [ht]
      have hsimts : ts.all Tok.simple = true :=
        List.all_eq_true.mpr fun t ht => List.all_eq_true.mp hsim t (hsub1 t ht)
      have hsimrest : rest.all Tok.simple = true :=
        List.all_eq_true.mpr fun t ht => List.all_eq_true.mp hsim t (hsub2 t ht)
      have hascts : name.all (fun c => decide (c < 128)) = true ∨ ts.all Tok.plain = true :=
        hasc.imp id fun h => List.all_eq_true.mpr fun t ht => List.all_eq_true.mp h t (hsub1 t ht)
      have hlenrest : rest.length ≤ n := by
        have h1 := congrArg List.length hp
        simp only [List.length_cons, List.length_append] at h1 hn
        have h2 : 0 < S.length + ts.length := by
          rcases hne1 with h | h
          · have := List.length_pos.mpr h; omega
          · have := List.length_pos.mpr h; omega
        omega
      have hlen : (patternText rest).length < (patternText (t0 :: p0)).length := by
        rw [hp, ← List.append_assoc]
        apply patternText_length_lt
        rcases hne1 with h | h
        · simp [h]
        · simp [h]
      have hpat : (patternText (t0 :: p0)).length > 0 := by omega
      rw [hglob]
      apply Match_turn _ name star ts rest hpat hsc hlen hs hsimts hne2 hrest hascts
      intro t ht
      apply ih rest hlenrest hsimrest t
      rcases hasc with h | h
      · left
        exact List.all_eq_true.mpr fun c hc => List.all_eq_true.mp h c (ht.subset hc)
      · right
        exact List.all_eq_true.mpr fun t ht => List.all_eq_true.mp h t (hsub2 t ht)

/-- On the text of a pattern of ordinary characters, `*`, `?` and classes that
do not accept the slash, `path.Match` reports no error and decides the glob
match in which neither `*` nor `?` matches a slash; the string is ASCII, or the
pattern has neither `?` nor a class. -/
theorem Match_patternText (p : List Tok) (name : GoString)
    (hsim : p.all Tok.simple = true)
    (hasc : name.all (fun c => decide (c < 128)) = true ∨ p.all Tok.plain = true) :
    Match (patternText p) name = (globMatch p name, none) :=
  Match_patternText_aux p.length p (Nat.le_refl _) hsim name hasc

end path

namespace path

/-- The text of a pattern of ordinary characters, `*`, `?` and classes that do
not accept the slash is well-formed. -/
theorem wellFormed_patternText (p : List Tok) (hsim : p.all Tok.simple = true) :
    wellFormed (patternText p) = true := by
  rw [← Match_err_eq_none_iff (patternText p) [], Match_patternText p [] hsim (Or.inl rfl)]

end path

namespace lql

open model

/-- C8, as stated, fails. The claim reads `*` as any run of characters and `?`
as any one character (`path.globAny`); the compiled predicate of a `LIKE` leaf
is `path.Match`, in which neither matches the slash: the well-formed patterns
`*` and `*.log` match `a/b` and `/var/log/app.log` in the reading of the claim,
and `?` matches `/`, yet the predicates compiled from them return false on these
values. -/
theorem C8_counterexample :
    (path.wellFormed (str "*") = true ∧ str "*" = path.patternText [.star] ∧
      path.globAny [.star] (str "a/b") = true ∧
      ∃ f, BuildTagsExpFunc id (some (leafExpr ⟨str "file", str "LIKE", str "*"⟩)) =
          some (f, none) ∧
        f.call [(str "file", str "a/b")] = some false) ∧
    (path.wellFormed (str "*.log") = true ∧
      str "*.log" = path.patternText [.star, .lit 46, .lit 108, .lit 111, .lit 103] ∧
      path.globAny [.star, .lit 46, .lit 108, .lit 111, .lit 103] (str "/var/log/app.log")
        = true ∧
      ∃ f, BuildTagsExpFunc id (some (leafExpr ⟨str "file", str "LIKE", str "*.log"⟩)) =
          some (f, none) ∧
        f.call [(str "file", str "/var/log/app.log")] = some false) ∧
    (path.wellFormed (str "?") = true ∧ str "?" = path.patternText [.any] ∧
      path.globAny [.any] (str "/") = true ∧
      ∃ f, BuildTagsExpFunc id (some (leafExpr ⟨str "file", str "LIKE", str "?"⟩)) =
          some (f, none) ∧
        f.call [(str "file", str "/")] = some false) :=
  ⟨⟨by decide, by decide, by decide, _, rfl, by decide⟩,
    ⟨by decide, by decide, by decide, _, rfl, by decide⟩,
    ⟨by decide, by decide, by decide, _, rfl, by decide⟩⟩

/-- C8, amended. For every `LIKE` leaf (the operator written in any letter
case) with a well-formed glob pattern `val` and every tag map: the leaf compiles
without error to a predicate that returns false when the map lacks the operand
key, whatever the pattern, and the result of `path.Match(val, v)` when the map
has the key with value `v`.  When `val` is the text of a pattern made of `*`,
`?`, ordinary characters and bracket classes of ASCII characters that do not
accept the slash, and `v` is ASCII or the pattern has neither `?` nor a class,
that result is the glob match in which `*` is a run, possibly empty, of
characters other than the slash, `?` one character other than the slash, a class
one character that it has, and an ordinary character itself.  The text of every
such pattern is well-formed. -/
theorem C8_like_leaf (m : GoString → GoString) (operand op val : GoString) (tags : TagMap)
    (hop : strings.ToUpper m op = CMP_LIKE) (hwf : path.wellFormed val = true) :
    (∃ f, BuildTagsExpFunc m (some (leafExpr ⟨operand, op, val⟩)) = some (f, none) ∧
      (∀ v, tags.lookup operand = some v → f.call tags = some (path.Match val v).1) ∧
      (∀ v p, tags.lookup operand = some v → val = path.patternText p →
        p.all path.Tok.simple = true →
        (v.all (fun c => decide (c < 128)) = true ∨ p.all path.Tok.plain = true) →
        f.call tags = some (path.globMatch p v)) ∧
      (tags.lookup operand = none → f.call tags = some false)) ∧
    (∀ p, p.all path.Tok.simple = true → path.wellFormed (path.patternText p) = true) := by
  have hp : (path.Match val (str "abc")).2 = none :=
    (path.Match_err_eq_none_iff val _).mpr hwf
  have hb : buildTagCond m ⟨.nil⟩ ⟨operand, op, val⟩ = (⟨.likeFunc ⟨operand, op, val⟩⟩, none) := by
    simp only [buildTagCond, hop, hp]
    simp [str_lt, str_gt, str_le, str_ge, str_ne, str_eq, CMP_LIKE_eq]
  refine ⟨⟨.likeFunc ⟨operand, op, val⟩, by rw [BuildTagsExpFunc_leaf, hb], fun v hv => ?_,
    fun v p hv hval hsim hasc => ?_, fun hv => ?_⟩, path.wellFormed_patternText⟩
  · simp [TagsExpFunc.call, hv]
  · simp [TagsExpFunc.call, hv, hval, path.Match_patternText p v hsim hasc]
  · simp [TagsExpFunc.call, hv]

/-- C8 amended, on the pattern `ab*`: the predicate compiled from it is true on
the tag map with `name` at `abcdef` and false on the one with `name` at `xabc`;
the predicate compiled from `[a-c]?[^/]*` is true on `b1.log`; the patterns `*`
and the empty one, which match the empty string, give false on a map without
the key. -/
theorem C8_like_leaf_witness :
    strings.ToUpper id (str "like") = CMP_LIKE ∧
    path.wellFormed (str "ab*") = true ∧
    ((∃ f, BuildTagsExpFunc id (some (leafExpr ⟨str "name", str "like", str "ab*"⟩)) =
        some (f, none) ∧
      (∀ v, List.lookup (str "name") [(str "name", str "abcdef")] = some v →
        f.call [(str "name", str "abcdef")] = some (path.Match (str "ab*") v).1) ∧
      (∀ v p, List.lookup (str "name") [(str "name", str "abcdef")] = some v →
        str "ab*" = path.patternText p → p.all path.Tok.simple = true →
        (v.all (fun c => decide (c < 128)) = true ∨ p.all path.Tok.plain = true) →
        f.call [(str "name", str "abcdef")] = some (path.globMatch p v)) ∧
      (List.lookup (str "name") [(str "name", str "abcdef")] = none →
        f.call [(str "name", str "abcdef")] = some false)) ∧
    (∀ p, p.all path.Tok.simple = true → path.wellFormed (path.patternText p) = true)) ∧
    (∃ f, BuildTagsExpFunc id (some (leafExpr ⟨str "name", str "like", str "ab*"⟩)) =
        some (f, none) ∧
      f.call [(str "name", str "abcdef")] = some true) ∧
    (∃ f, BuildTagsExpFunc id (some (leafExpr ⟨str "name", str "like", str "ab*"⟩)) =
        some (f, none) ∧
      f.call [(str "name", str "xabc")] = some false) ∧
    (∃ f, BuildTagsExpFunc id (some (leafExpr ⟨str "name", str "LIKE", str "[a-c]?[^/]*"⟩)) =
        some (f, none) ∧
      f.call [(str "name", str "b1.log")] = some true) ∧
    (∃ f, BuildTagsExpFunc id (some (leafExpr ⟨str "name", str "LIKE", str "*"⟩)) =
        some (f, none) ∧
      f.call [(str "env", str "prod")] = some false) ∧
    (∃ f, BuildTagsExpFunc id (some (leafExpr ⟨str "name", str "LIKE", str ""⟩)) =
        some (f, none) ∧
      f.call [(str "env", str "prod")] = some false) ∧
    path.Match (str "ab*") (str "abcdef") = (true, none) ∧
    path.Match (str "ab*") (str "xabc") = (false, none) ∧
    path.Match (str "*") [] = (true, none) ∧
    path.Match (str "") [] = (true, none) :=
  ⟨by decide, by decide,
    C8_like_leaf id (str "name") (str "like") (str "ab*") [(str "name", str "abcdef")]
      (by decide) (by decide),
    (by
      obtain ⟨⟨f, hb, _, h2, _⟩, _⟩ := C8_like_leaf id (str "name") (str "like") (str "ab*")
        [(str "name", str "abcdef")] (by decide) (by decide)
      exact ⟨f, hb, (h2 (str "abcdef") [.lit 97, .lit 98, .star] (by decide) (by decide)
        (by decide) (Or.inl (by decide))).trans (by decide)⟩),
    (by
      obtain ⟨⟨f, hb, _, h2, _⟩, _⟩ := C8_like_leaf id (str "name") (str "like") (str "ab*")
        [(str "name", str "xabc")] (by decide) (by decide)
      exact ⟨f, hb, (h2 (str "xabc") [.lit 97, .lit 98, .star] (by decide) (by decide)
        (by decide) (Or.inl (by decide))).trans (by decide)⟩),
    (by
      obtain ⟨⟨f, hb, _, h2, _⟩, _⟩ := C8_like_leaf id (str "name") (str "LIKE")
        (str "[a-c]?[^/]*") [(str "name", str "b1.log")] (by decide) (by decide)
      exact ⟨f, hb, (h2 (str "b1.log")
        [.cls false [.range 97 99], .any, .cls true [.one 47], .star] (by decide) (by decide)
        (by decide) (Or.inl (by decide))).trans (by decide)⟩),
    (by
      obtain ⟨⟨f, hb, _, _, h3⟩, _⟩ := C8_like_leaf id (str "name") (str "LIKE") (str "*")
        [(str "env", str "prod")] (by decide) (by decide)
      exact ⟨f, hb, h3 (by decide)⟩),
    (by
      obtain ⟨⟨f, hb, _, _, h3⟩, _⟩ := C8_like_leaf id (str "name") (str "LIKE") (str "")
        [(str "env", str "prod")] (by decide) (by decide)
      exact ⟨f, hb, h3 (by decide)⟩),
    by decide, by decide, by decide, by decide⟩

end lql
